import Mathlib

/-!
Verification of the nengo operator-graph merge optimizer against its
natural-language specification.

The development shallowly embeds the relevant parts of the source:

* `nengo/builder/signal.py` — the signal & view algebra (`Signal`,
  `compatible`, `merge_signals`, `merge_views`, `merge_signals_or_views`,
  `__getitem__`, `reshape`);
* `nengo/builder/neurons.py` — `SimNeurons` and its `merge`;
* `nengo/builder/optimizer.py` — `OpMergeOptimizer` (`_mergeable`,
  `_is_memory_access_sequential`, `_perform_merges_for_subset`,
  `_update_dg`, `_perform_merges`, `_perform_single_pass`, `optimize`).

Modelling conventions:

* NumPy arrays are modelled as strided views over an abstract buffer of
  `Int` elements.  The buffer maps an element slot (byte address divided
  by the item size) to its value.  Offsets and strides are kept in bytes
  exactly as in the source; strides are non-negative (every array the
  source constructs has non-negative strides).
* Python object identity (`is`, dict keys) is modelled with explicit
  numeric ids (`sid` for signals, numeric ids for operators); fresh ids
  for newly allocated objects are threaded through as counters.
* Python `dict`s are insertion-ordered association lists (`upsert`
  replaces in place, appends fresh keys — Python dict semantics).
* Code that can raise is embedded in `Except String`; error strings are
  the source's messages.  NumPy-internal failure modes that the source
  relies on are modelled where the spec claims depend on them (empty or
  zero-dimensional concatenation, out-of-range tuple indexing); buffer
  bounds checking and dtype promotion inside NumPy are out of scope.
-/

/-- Association-list lookup, modelling Python `dict` lookup (keys are
object ids). -/
def alookup {α : Type} (m : List (Nat × α)) (k : Nat) : Option α :=
  match m with
  | [] => none
  | (k', v) :: rest => if k' = k then some v else alookup rest k

/-- Insert-or-replace, modelling Python `d[k] = v`: replacing keeps the
key's insertion position, a fresh key is appended. -/
def upsert {α : Type} (m : List (Nat × α)) (k : Nat) (v : α) : List (Nat × α) :=
  match m with
  | [] => [(k, v)]
  | (k', v') :: rest => if k' = k then (k, v) :: rest else (k', v') :: upsert rest k v

/-- Keys of an association list, in insertion order. -/
def akeys {α : Type} (m : List (Nat × α)) : List Nat := m.map (·.1)

/-- Values of an association list, in insertion order (Python
`dict.values()`). -/
def avalues {α : Type} (m : List (Nat × α)) : List α := m.map (·.2)

/-- Dot product of an index vector with a stride vector (truncating at
the shorter list, as the lists always have equal length in use). -/
def dotNat : List Nat → List Nat → Nat
  | i :: ix, s :: st => i * s + dotNat ix st
  | _, _ => 0

/-- Row-major flattening of a multi-index for a given shape. -/
def flatIx : List Nat → List Nat → Nat
  | _ :: sh, i :: ix => i * sh.prod + flatIx sh ix
  | _, _ => 0

/-- Inverse of `flatIx`: recover the multi-index of a flat position. -/
def unflatIx : List Nat → Nat → List Nat
  | [], _ => []
  | _ :: sh, n => (n / sh.prod) :: unflatIx sh (n % sh.prod)

/-- `i` is a valid multi-index for shape `sh` (same rank, each component
within bounds). -/
def validIx : List Nat → List Nat → Bool
  | [], [] => true
  | s :: sh, i :: ix => decide (i < s) && validIx sh ix
  | _, _ => false

/-- C-order (row-major) strides in bytes for a given item size and
shape, as NumPy assigns to freshly allocated arrays. -/
def contigStrides (isz : Nat) : List Nat → List Nat
  | [] => []
  | _ :: sh => isz * sh.prod :: contigStrides isz sh

/-- A NumPy dtype: an identifying tag plus the item size in bytes.
Python compares dtypes of this code's arrays with `is`, which for the
interned builtin dtypes coincides with equality. -/
structure DType where
  tag : Nat
  itemsize : Nat
deriving DecidableEq, Repr

/-- A NumPy ndarray: a typed, strided window into an abstract buffer.
`buf` maps an element slot (byte address divided by the item size) to
its value; `offset` and `strides` are in bytes, following
`npext.array_offset` / `ndarray.strides` in the source. -/
structure NDArray where
  dtype : DType
  shape : List Nat
  strides : List Nat
  offset : Nat
  buf : Nat → Int

/-- Number of dimensions (`ndarray.ndim`). -/
def NDArray.ndim (a : NDArray) : Nat := a.shape.length

/-- Total number of elements (`ndarray.size`). -/
def NDArray.size (a : NDArray) : Nat := a.shape.prod

/-- Element read at a multi-index: the buffer element at byte address
`offset + ix · strides`. -/
def NDArray.read (a : NDArray) (ix : List Nat) : Int :=
  a.buf ((a.offset + dotNat ix a.strides) / a.dtype.itemsize)

/-- Logical read of a sequence of arrays concatenated along `axis`:
peel off segments until the axis coordinate falls inside one of them. -/
def concatRead (axis : Nat) : List NDArray → List Nat → Int
  | [], _ => 0
  | a :: rest, ix =>
    let k := ix.getD axis 0
    let m := a.shape.getD axis 0
    if k < m then a.read ix
    else concatRead axis rest (ix.set axis (k - m))

/-- Shapes agree on every axis except `axis` (`s.shape[:axis]` and
`s.shape[axis+1:]` comparisons in the source). -/
def shapeMatchExcept (sh1 sh2 : List Nat) (axis : Nat) : Bool :=
  sh1.take axis == sh2.take axis && sh1.drop (axis + 1) == sh2.drop (axis + 1)

/-- `np.concatenate` along `axis`, for inputs of one common dtype (dtype
promotion is NumPy-internal and out of scope — all merged signals in
this code share a dtype).  Faithfully rejects an empty sequence,
zero-dimensional inputs, rank mismatches, out-of-range axes and shape
mismatches off the concatenation axis, as NumPy does.  The result is a
freshly allocated C-contiguous array whose element at flat position `n`
is the logical concatenated read at the unflattened multi-index. -/
def npConcatenate (arrs : List NDArray) (axis : Nat) : Except String NDArray :=
  match arrs with
  | [] => .error "need at least one array to concatenate"
  | a0 :: _ =>
    if a0.ndim = 0 then
      .error "zero-dimensional arrays cannot be concatenated"
    else if ¬ axis < a0.ndim then
      .error "axis is out of bounds for array of dimension"
    else if arrs.any (fun a => a.ndim ≠ a0.ndim) then
      .error "all the input arrays must have same number of dimensions"
    else if arrs.any (fun a => ¬ shapeMatchExcept a.shape a0.shape axis) then
      .error "all the input array dimensions except for the concatenation axis must match exactly"
    else if arrs.any (fun a => a.dtype ≠ a0.dtype) then
      .error "dtype promotion is not modelled"
    else
      let total := (arrs.map (fun a => a.shape.getD axis 0)).sum
      let shape := a0.shape.set axis total
      .ok { dtype := a0.dtype
            shape := shape
            strides := contigStrides a0.dtype.itemsize shape
            offset := 0
            buf := fun n => concatRead axis arrs (unflatIx shape n) }

/-- One element of a Python indexing tuple: an integer index or a
`slice(start, stop)` with unit step (`None` bounds allowed) — the only
forms this code constructs. -/
inductive Item where
  | idx (i : Nat)
  | slc (start? stop? : Option Nat)
deriving DecidableEq, Repr

/-- Whether an indexing element is an integer (`is_integer` in the
source). -/
def Item.isIdx : Item → Bool
  | .idx _ => true
  | .slc _ _ => false

/-- NumPy basic indexing over the leading axes: an integer index drops
its axis (adding `i * stride` to the offset, out-of-bounds raising),
a slice keeps its axis with Python clamping; trailing axes pass
through.  Returns the new `(shape, strides)` dimension pairs and the
byte-offset increment. -/
def sliceAxes : List (Nat × Nat) → List Item → Except String (List (Nat × Nat) × Nat)
  | dims, [] => .ok (dims, 0)
  | [], _ :: _ => .error "too many indices for array"
  | (n, st) :: dims, it :: its =>
    match it with
    | .idx i =>
      if i < n then
        match sliceAxes dims its with
        | .ok (dims', off) => .ok (dims', i * st + off)
        | .error e => .error e
      else .error "index out of bounds"
    | .slc a? b? =>
      let start := min (a?.getD 0) n
      let stop := min (b?.getD n) n
      match sliceAxes dims its with
      | .ok (dims', off) => .ok ((stop - start, st) :: dims', start * st + off)
      | .error e => .error e

/-- `a[item]` for a tuple of integers and unit-step slices: a view onto
the same buffer with adjusted shape, strides and offset. -/
def npGetItem (a : NDArray) (item : List Item) : Except String NDArray :=
  match sliceAxes (a.shape.zip a.strides) item with
  | .ok (dims, off) =>
    .ok { a with shape := dims.map (·.1), strides := dims.map (·.2), offset := a.offset + off }
  | .error e => .error e

/-- `ndarray.reshape` for the view-returning case: the source only
reshapes signals whose arrays are C-contiguous, where NumPy returns a
view with C-order strides for the new shape.  The element count must be
preserved. -/
def npReshape (a : NDArray) (sh : List Nat) : Except String NDArray :=
  if sh.prod = a.size then
    .ok { a with shape := sh, strides := contigStrides a.dtype.itemsize sh }
  else .error "cannot reshape array"

/-- The base a view points at: a `Signal` that is itself a base (the
constructor asserts `not base.is_view`, so a view can only ever point at
a base — encoded here structurally by `BaseSig` having no base field).
`sid` models Python object identity. -/
structure BaseSig where
  sid : Nat
  arr : NDArray
  readonly : Bool

/-- `nengo.builder.signal.Signal`: data (`arr` is `_initial_value`) or a
view onto another signal's data (`base?` is `_base`); `readonly` is
`_readonly`.  The diagnostic `name` is omitted. -/
structure Signal where
  sid : Nat
  arr : NDArray
  readonly : Bool
  base? : Option BaseSig

/-- `Signal.is_view`: true iff `_base is not None`. -/
def Signal.isView (s : Signal) : Bool := s.base?.isSome

/-- `Signal.base`: the base signal, or the signal itself when it is a
base (`self if self._base is None else self._base`). -/
def Signal.base (s : Signal) : BaseSig := s.base?.getD ⟨s.sid, s.arr, s.readonly⟩

/-- `Signal.dtype`. -/
def Signal.dtype (s : Signal) : DType := s.arr.dtype

/-- `Signal.shape`. -/
def Signal.shape (s : Signal) : List Nat := s.arr.shape

/-- `Signal.strides` (bytes). -/
def Signal.strides (s : Signal) : List Nat := s.arr.strides

/-- `Signal.offset` (bytes from the base buffer origin,
`npext.array_offset(self.initial_value)`). -/
def Signal.offset (s : Signal) : Nat := s.arr.offset

/-- `Signal.size`: total number of elements. -/
def Signal.size (s : Signal) : Nat := s.arr.shape.prod

/-- `Signal.itemsize`: element size in bytes. -/
def Signal.itemsize (s : Signal) : Nat := s.arr.dtype.itemsize

/-- `Signal.ndim`. -/
def Signal.ndim (s : Signal) : Nat := s.arr.shape.length

/-- The `initial_value` property setter: unconditionally raises
`SignalError("Cannot change initial value after initialization")`. -/
def Signal.setInitialValue (_ : Signal) (_ : NDArray) : Except String Signal :=
  .error "Cannot change initial value after initialization"

/-- The `readonly` property setter: plain mutation of `_readonly`
(modelled as returning the updated object — same `sid`, same identity). -/
def Signal.setReadonly (s : Signal) (b : Bool) : Signal :=
  { s with readonly := b }

/-- `Signal.__getitem__`: index or slice into the array.  The item
elements are integers or slices by construction of `Item` (anything
else raises `SignalError` in the source).  When every element is an
integer the last one is turned into a one-element slice so that NumPy
produces a view; an empty all-integer tuple raises (IndexError on
`item[-1]`).  The result is a fresh `Signal` over the sliced array with
`base=self.base` — and the `readonly` argument is *not* passed, so it
defaults to `False`. -/
def Signal.getitem (s : Signal) (item : List Item) (fresh : Nat) : Except String Signal :=
  let conv : Except String (List Item) :=
    if item.all Item.isIdx then
      match item.getLast? with
      | some (.idx i) => .ok (item.dropLast ++ [.slc (some i) (some (i + 1))])
      | _ => .error "tuple index out of range"
    else .ok item
  match conv with
  | .error e => .error e
  | .ok item' =>
    match npGetItem s.arr item' with
    | .ok arr' => .ok ⟨fresh, arr', false, some s.base⟩
    | .error e => .error e

/-- `Signal.reshape`: a view on the signal with a different shape, with
`base=self.base` — again without passing `readonly`, which therefore
defaults to `False`. -/
def Signal.reshapeSig (s : Signal) (sh : List Nat) (fresh : Nat) : Except String Signal :=
  match npReshape s.arr sh with
  | .ok arr' => .ok ⟨fresh, arr', false, some s.base⟩
  | .error e => .error e

/-- `Signal.column()`: `reshape((size, 1))`. -/
def Signal.columnSig (s : Signal) (fresh : Nat) : Except String Signal :=
  s.reshapeSig [s.size, 1] fresh

/-- `Signal.rowSig()`: `reshape((1, size))`. -/
def Signal.rowSig (s : Signal) (fresh : Nat) : Except String Signal :=
  s.reshapeSig [1, s.size] fresh

/-- `Signal.compatible(signals, axis)`: identical rank, identical shape
off the concatenation axis, identical dtype, and for views identical
base and strides.  (`signals[0]` is only touched inside the loop, so an
empty list is vacuously compatible.) -/
def Signal.compatible (signals : List Signal) (axis : Nat) : Bool :=
  match signals with
  | [] => true
  | s0 :: _ =>
    signals.all fun s =>
      s.ndim == s0.ndim &&
      shapeMatchExcept s.shape s0.shape axis &&
      s.dtype == s0.dtype &&
      (!s.isView || (s.base.sid == s0.base.sid && s.strides == s0.strides))

/-- Per-signal loop of `check_signals_mergeable`. -/
def checkSigsLoop (s0 : Signal) (axis : Nat) : List Signal → Except String Unit
  | [] => .ok ()
  | s :: rest =>
    if s.ndim ≠ s0.ndim then
      .error "Signals must have the same number of dimensions."
    else if shapeMatchExcept s.shape s0.shape axis = false then
      .error "Signals must have same shape except on concatenation axis."
    else checkSigsLoop s0 axis rest

/-- `Signal.check_signals_mergeable`: no views, same rank, same shape
off the concatenation axis. -/
def Signal.checkSignalsMergeable (signals : List Signal) (axis : Nat) : Except String Unit :=
  if signals.any (·.isView) then .error "Cannot merge views."
  else
    match signals with
    | [] => .ok ()
    | s0 :: _ => checkSigsLoop s0 axis signals

/-- The slab loop of `merge_signals`: walk the inputs, and for each one
record in `replacements` a view into the merged signal selecting
`slice(start, start + s.shape[axis])` on the concatenation axis (full
slices elsewhere).  `s.shape[axis]` is a Python tuple indexing and
raises for out-of-range axes (in particular for 0-d signals). -/
def mergeSlabLoop (merged : Signal) (axis : Nat) :
    List Signal → Nat → List (Nat × Signal) → Nat →
    Except String (List (Nat × Signal) × Nat)
  | [], _, repl, fresh => .ok (repl, fresh)
  | s :: rest, start, repl, fresh =>
    match s.shape.get? axis with
    | none => .error "tuple index out of range"
    | some size =>
      let indexing := (List.replicate merged.ndim (Item.slc none none)).set axis
        (Item.slc (some start) (some (start + size)))
      match merged.getitem indexing fresh with
      | .error e => .error e
      | .ok view =>
        mergeSlabLoop merged axis rest (start + size) (upsert repl s.sid view) (fresh + 1)

/-- `Signal.merge_signals(signals, replacements, axis)`: merge base
signals into one signal with sequential memory allocation.  The merged
signal's array is the concatenation of the inputs' arrays; `readonly`
is the conjunction of the inputs'; `replacements` is updated with a
view into the merged signal for every input.  Fresh object ids are
threaded through `fresh`. -/
def Signal.mergeSignals (signals : List Signal) (repl : List (Nat × Signal)) (axis : Nat)
    (fresh : Nat) : Except String (Signal × List (Nat × Signal) × Nat) :=
  match Signal.checkSignalsMergeable signals axis with
  | .error e => .error e
  | .ok () =>
    match npConcatenate (signals.map (·.arr)) axis with
    | .error e => .error e
    | .ok iv =>
      let merged : Signal := ⟨fresh, iv, signals.all (·.readonly), none⟩
      match mergeSlabLoop merged axis signals 0 repl (fresh + 1) with
      | .error e => .error e
      | .ok (repl', fresh') => .ok (merged, repl', fresh')

/-- Per-signal loop of `check_views_mergeable`, threading the running
`start` byte position (`start = s.offset + s.size * s.itemsize` after
each signal). -/
def viewsLoop (s0 : Signal) (axis : Nat) : Nat → List Signal → Except String Unit
  | _, [] => .ok ()
  | start, s :: rest =>
    if s.base.sid ≠ s0.base.sid then .error "Signals must share the same base."
    else if s.dtype ≠ s0.dtype then .error "Signals must have same dtype."
    else if s.ndim ≠ s0.ndim then
      .error "Signals must have the same number of dimensions."
    else if s.strides ≠ s0.strides then .error "Signals must have equal strides."
    else if shapeMatchExcept s.shape s0.shape axis = false then
      .error "Signals must have same shape except on concatenation axis."
    else if s.offset ≠ start then .error "Views are not sequential."
    else viewsLoop s0 axis (s.offset + s.size * s.itemsize) rest

/-- `Signal.check_views_mergeable`: all views, shared base, same dtype,
rank and strides, same shape off the concatenation axis, and exactly
sequential byte ranges.  An empty list raises (IndexError on
`signals[0].offset`). -/
def Signal.checkViewsMergeable (signals : List Signal) (axis : Nat) : Except String Unit :=
  if signals.any (fun s => !s.isView) then .error "Cannot merge non-views."
  else
    match signals with
    | [] => .error "list index out of range"
    | s0 :: _ => viewsLoop s0 axis s0.offset signals

/-- Sum of `s.shape[axis]` over the signals, raising on out-of-range
axes as the generator in `merge_views` does. -/
def sumShapeAt (axis : Nat) : List Signal → Except String Nat
  | [] => .ok 0
  | s :: rest =>
    match s.shape.get? axis with
    | none => .error "tuple index out of range"
    | some n =>
      match sumShapeAt axis rest with
      | .ok m => .ok (n + m)
      | .error e => .error e

/-- `Signal.merge_views(signals, axis)`: after `check_views_mergeable`,
a single view into the shared base spanning the combined range: shape
summed along the concatenation axis, the first view's offset and
strides, `readonly` the conjunction of the inputs'. -/
def Signal.mergeViews (signals : List Signal) (axis : Nat) (fresh : Nat) :
    Except String Signal :=
  match Signal.checkViewsMergeable signals axis with
  | .error e => .error e
  | .ok () =>
    match signals with
    | [] => .error "list index out of range"
    | s0 :: _ =>
      match sumShapeAt axis signals with
      | .error e => .error e
      | .ok total =>
        let shape := s0.shape.take axis ++ [total] ++ s0.shape.drop (axis + 1)
        let iv : NDArray :=
          { dtype := s0.dtype, shape := shape, strides := s0.strides,
            offset := s0.offset, buf := s0.base.arr.buf }
        .ok ⟨fresh, iv, signals.all (·.readonly), some s0.base⟩

/-- `Signal.merge_signals_or_views`: all views → `merge_views`; no
views → `merge_signals`; mixed → raise.  (On an empty list `all` is
true, so the views path is taken and `check_views_mergeable` raises.) -/
def Signal.mergeSignalsOrViews (signals : List Signal) (repl : List (Nat × Signal))
    (axis : Nat) (fresh : Nat) : Except String (Signal × List (Nat × Signal) × Nat) :=
  let areViews := signals.map (·.isView)
  if areViews.all (· = true) then
    match Signal.mergeViews signals axis fresh with
    | .error e => .error e
    | .ok m => .ok (m, repl, fresh + 1)
  else if areViews.any (· = true) then
    .error "Cannot merged mixed views and non-views."
  else Signal.mergeSignals signals repl axis fresh

instance : Inhabited DType := ⟨⟨0, 1⟩⟩

instance : Inhabited NDArray := ⟨⟨default, [], [], 0, fun _ => 0⟩⟩

instance : Inhabited Signal := ⟨⟨0, default, false, none⟩⟩

/-- Python `zip(*rows)` as the list of columns: truncates at the
shortest row.  Implemented with fuel (the first row's length bounds the
number of columns). -/
def zipColumnsAux {α : Type} [Inhabited α] : Nat → List (List α) → List (List α)
  | 0, _ => []
  | _, [] => []
  | fuel + 1, rows =>
    if rows.any List.isEmpty then []
    else (rows.map fun r => r.headD default) :: zipColumnsAux fuel (rows.map List.tail)

/-- Python `zip(*rows)`. -/
def zipColumns {α : Type} [Inhabited α] (rows : List (List α)) : List (List α) :=
  zipColumnsAux (rows.headD []).length rows

/-- `nengo.builder.neurons.SimNeurons`: `neurons` is the neuron-model
instance (compared with `==` in `can_merge`, modelled by an id), with
input current `J`, `output`, and extra `states` signals. -/
structure SimNeurons where
  neurons : Nat
  J : Signal
  output : Signal
  states : List Signal

/-- `SimNeurons` signal lists: sets `[output] + states`, incs `[]`,
reads `[J]`, updates `[]`. -/
def SimNeurons.sets (op : SimNeurons) : List Signal := op.output :: op.states

/-- `SimNeurons.reads`. -/
def SimNeurons.reads (op : SimNeurons) : List Signal := [op.J]

/-- `SimNeurons.can_merge`: same class and `self.neurons == other.neurons`. -/
def SimNeurons.canMerge (a b : SimNeurons) : Bool := a.neurons == b.neurons

/-- The state-merging loop of `SimNeurons.merge`: one `merge_signals`
call per zipped column of the operators' state lists, threading the
shared `replacements` dict. -/
def mergeStatesLoop : List (List Signal) → List (Nat × Signal) → Nat →
    Except String (List Signal × List (Nat × Signal) × Nat)
  | [], repl, fresh => .ok ([], repl, fresh)
  | col :: cols, repl, fresh =>
    match Signal.mergeSignals col repl 0 fresh with
    | .error e => .error e
    | .ok (m, repl', fresh') =>
      match mergeStatesLoop cols repl' fresh' with
      | .error e => .error e
      | .ok (ms, repl'', fresh'') => .ok (m :: ms, repl'', fresh'')

/-- `SimNeurons.merge(others)`: fuse by calling `Signal.merge_signals`
(the bases-only primitive, with the default axis 0) on the gathered `J`
signals, then the gathered `output` signals, then each column of
`zip(*states)` (which silently truncates to the shortest state list),
returning the fused operator and the accumulated signal replacements. -/
def SimNeurons.merge (self : SimNeurons) (others : List SimNeurons) (fresh : Nat) :
    Except String (SimNeurons × List (Nat × Signal) × Nat) :=
  match Signal.mergeSignals (self.J :: others.map (·.J)) [] 0 fresh with
  | .error e => .error e
  | .ok (J, repl1, f1) =>
    match Signal.mergeSignals (self.output :: others.map (·.output)) repl1 0 f1 with
    | .error e => .error e
    | .ok (output, repl2, f2) =>
      match mergeStatesLoop (zipColumns (self.states :: others.map (·.states))) repl2 f2 with
      | .error e => .error e
      | .ok (states, repl3, f3) => .ok (⟨self.neurons, J, output, states⟩, repl3, f3)

/-- Modelled from the spec (`nengo/builder/operator.py` is not among
the sources): an operator carries the four disjoint signal lists
`sets`/`incs`/`reads`/`updates`, a concrete kind (the Python class,
as a numeric tag), a kind-local parameter consulted by `can_merge`
(e.g. the neuron-model instance), and its other `Signal`-valued
attributes (the ones the optimizer's reflective `dir()` scan finds,
e.g. `SimNeurons.J`). -/
structure OpData where
  kind : Nat
  prm : Nat
  sets : List Signal
  incs : List Signal
  reads : List Signal
  updates : List Signal
  attrs : List Signal

instance : Inhabited OpData := ⟨⟨0, 0, [], [], [], [], []⟩⟩

/-- Modelled from the spec: `all_signals` is the ordered signature
`sets + incs + reads + updates`. -/
def OpData.allSignals (op : OpData) : List Signal :=
  op.sets ++ op.incs ++ op.reads ++ op.updates

/-- The operator heap: Python operator objects addressed by identity.
The optimizer mutates operators in place (`setattr`, `op.sets = ...`),
which the embedding performs by updating the heap entry. -/
abbrev Store : Type := List (Nat × OpData)

/-- The dependency graph `{a: {b, c}}`: per operator, the ids of the
operators depending on it. -/
abbrev DepGraph : Type := List (Nat × List Nat)

/-- Heap dereference.  A Python attribute access on an operator object
can never miss; absent ids never occur in the modelled runs and read as
the empty operator. -/
def getOp (st : Store) (i : Nat) : OpData := (alookup st i).getD default

/-- Set-insert for the id sets the optimizer keeps (`set.add`):
membership-preserving, insertion-ordered. -/
def insertId (l : List Nat) (x : Nat) : List Nat :=
  if x ∈ l then l else l ++ [x]

/-- `set.update(xs)`. -/
def insertIds (l : List Nat) (xs : List Nat) : List Nat := xs.foldl insertId l

/-- Python `dict.update(m')`: upsert every entry of `m'` into `m`. -/
def updateAList {α : Type} (m m' : List (Nat × α)) : List (Nat × α) :=
  m'.foldl (fun acc p => upsert acc p.1 p.2) m

/-- Delete a key (`del d[k]`). -/
def aremove {α : Type} (m : List (Nat × α)) (k : Nat) : List (Nat × α) :=
  m.filter (fun p => p.1 ≠ k)

/-- Stable insertion of `x` into a key-sorted list: `x` goes before the
first element with a strictly larger key, after equal keys seen so far
when folded from the right. -/
def insertSorted (key : Nat → Nat) (x : Nat) : List Nat → List Nat
  | [] => [x]
  | y :: ys => if key x ≤ key y then x :: y :: ys else y :: insertSorted key x ys

/-- Python `sorted(l, key=key)`: stable ascending sort.  A stable sort's
output is determined uniquely by the key order and the input order, so
this insertion sort coincides with CPython's timsort. -/
def sortByKey (key : Nat → Nat) (l : List Nat) : List Nat :=
  l.foldr (insertSorted key) []

/-- The kind-specific pieces the optimizer dispatches on dynamically:
`op1.can_merge(op2)`, the per-class `supports_merge()` flag, and
`op1.merge(others)` (returning the fused operator's data and the signal
replacements, threading fresh object ids). -/
structure MergeImpl where
  canMerge : OpData → OpData → Bool
  supportsMerge : Nat → Bool
  mergeOp : Store → Nat → List Nat → Nat → OpData × List (Nat × Signal) × Nat

/-- `_get_view_indices(op)`: positions of views in `all_signals`. -/
def viewIndicesOf (op : OpData) : List Nat :=
  (op.allSignals.enum.filter (fun p => p.2.isView)).map (·.1)

/-- `_mergeable(op1, op2, op1_view_indices, tc)`: both-direction
independence in the transitive closure and `op2` unmerged, positional
view-index agreement with per-view dtype/base/strides agreement, and
`op1.can_merge(op2)`.  (When `op2` has fewer signals than a view index
of `op1`, Python would raise IndexError on `op2.all_signals[idx]`; the
kinds bucketing makes the counts agree in the modelled runs, and an
out-of-range index reads as a mismatch here.) -/
def mergeable (impl : MergeImpl) (st : Store) (merged : List Nat) (tc : Nat → List Nat)
    (op1 op2 : Nat) (vidx : List Nat) : Bool :=
  let d1 := getOp st op1
  let d2 := getOp st op2
  let independent := (!decide (op1 ∈ tc op2) && !decide (op2 ∈ tc op1))
    && !decide (op2 ∈ merged)
  let viewsMatch := (vidx == viewIndicesOf d2) &&
    vidx.all (fun idx =>
      match d1.allSignals.get? idx, d2.allSignals.get? idx with
      | some s1, some s2 =>
        s1.dtype == s2.dtype && s1.base.sid == s2.base.sid && s1.strides == s2.strides
      | _, _ => false)
  independent && viewsMatch && impl.canMerge d1 d2

/-- The chained byte-range check inside
`_is_memory_access_sequential`: each view starts where the previous
one's `offset + size * itemsize` ended. -/
def seqChain : Nat → List Signal → Bool
  | _, [] => true
  | e, s :: rest => (s.offset == e) && seqChain (s.offset + s.size * s.itemsize) rest

/-- `_is_memory_access_sequential(ops)`: zip the operators'
`all_signals`; per column, all bases are skipped, a mixed column fails,
an all-view column must form a contiguous byte chain. -/
def isMemAccessSequential (ops : List OpData) : Bool :=
  (zipColumns (ops.map OpData.allSignals)).all fun sigs =>
    if sigs.all (fun s => !s.isView) then true
    else if ¬ sigs.all (fun s => s.isView) then false
    else
      match sigs with
      | [] => true
      | s0 :: rest => seqChain (s0.offset + s0.size * s0.itemsize) rest

/-- `_view_offset(op)`: offset of the first view in `all_signals`, else 0. -/
def viewOffsetOf (op : OpData) : Nat :=
  match op.allSignals.find? (·.isView) with
  | some s => s.offset
  | none => 0

/-- `_view_size(op)`: byte size of the first view in `all_signals`, else 0. -/
def viewSizeOf (op : OpData) : Nat :=
  match op.allSignals.find? (·.isView) with
  | some s => s.size * s.itemsize
  | none => 0

/-- `_check_sequential(op1, op2)`: `op2`'s first view starts strictly
past the end of `op1`'s first view (the early cluster-termination
test). -/
def checkSequentialBreak (st : Store) (a b : Nat) : Bool :=
  viewOffsetOf (getOp st a) + viewSizeOf (getOp st a) < viewOffsetOf (getOp st b)

/-- The inner candidate loop of `_perform_merges_for_subset` (lines
212–221): the growing cluster is kept reversed, so its head is
`merge[-1]`. -/
def clusterLoop (impl : MergeImpl) (st : Store) (merged : List Nat) (tc : Nat → List Nat)
    (op1 : Nat) (vidx : List Nat) : List Nat → List Nat → List Nat
  | cluster, [] => cluster
  | cluster, op2 :: rest =>
    let canM := !decide (op2 ∈ merged) &&
      mergeable impl st merged tc op1 op2 vidx &&
      isMemAccessSequential [getOp st (cluster.headD op1), getOp st op2]
    if canM then clusterLoop impl st merged tc op1 vidx (op2 :: cluster) rest
    else if checkSequentialBreak st (cluster.headD op1) op2 then cluster
    else clusterLoop impl st merged tc op1 vidx cluster rest

/-- The merge cluster grown for head `op1` against the candidates
`rest` (in sweep order). -/
def buildCluster (impl : MergeImpl) (st : Store) (merged : List Nat) (tc : Nat → List Nat)
    (op1 : Nat) (vidx : List Nat) (rest : List Nat) : List Nat :=
  (clusterLoop impl st merged tc op1 vidx [op1] rest).reverse

/-- `_init_pass_helper_vars`: rebuild `sig2op`, mapping each signal id
to the (insertion-ordered) list of operators referencing it. -/
def buildSig2Op (store : Store) (dg : DepGraph) : List (Nat × List Nat) :=
  dg.foldl (fun acc p =>
    ((getOp store p.1).allSignals).foldl (fun acc2 s =>
      upsert acc2 s.sid ((alookup acc2 s.sid).getD [] ++ [p.1])) acc) []

/-- `_merge(merge, op_replacements, sig_replacements)`: call
`merge[0].merge(merge[1:])`, store the fused operator under a fresh id,
mark every constituent merged, point each constituent's replacement at
the fused operator, poison every operator sharing a signal with a
constituent (via `sig2op`), and merge the returned signal replacements
into the accumulator.  Returns the updated
`(store, merged, op_replacements, sig_replacements, fresh)`. -/
def mergeStep (impl : MergeImpl) (sig2op : List (Nat × List Nat)) (cluster : List Nat)
    (store : Store) (merged : List Nat) (opr : List (Nat × Nat))
    (sigr : List (Nat × Signal)) (fresh : Nat) :
    Store × List Nat × List (Nat × Nat) × List (Nat × Signal) × Nat :=
  match cluster with
  | [] => (store, merged, opr, sigr, fresh)
  | head :: rest =>
    let res := impl.mergeOp store head rest fresh
    let newId := res.2.2
    let store' := upsert store newId res.1
    let merged1 := insertIds merged cluster
    let step := fun (acc : List Nat × List (Nat × Nat)) (op : Nat) =>
      let acc1 := (acc.1, upsert acc.2 op newId)
      (((getOp store op).allSignals).foldl
        (fun m s => insertIds m ((alookup sig2op s.sid).getD [])) acc1.1, acc1.2)
    let mo := cluster.foldl step (merged1, opr)
    (store', mo.1, mo.2, updateAList sigr res.2.1, res.2.2 + 1)

/-- The sweep of `_perform_merges_for_subset` over the sorted subset:
skip operators already merged (or without views in a views-only pass),
grow a cluster for each remaining head and merge it when it has at
least two members. -/
def sweepLoop (impl : MergeImpl) (tc : Nat → List Nat) (sig2op : List (Nat × List Nat))
    (mode : Bool) : List Nat → Store → List Nat → List (Nat × Nat) →
    List (Nat × Signal) → Nat →
    Store × List Nat × List (Nat × Nat) × List (Nat × Signal) × Nat
  | [], store, merged, opr, sigr, fresh => (store, merged, opr, sigr, fresh)
  | op1 :: rest, store, merged, opr, sigr, fresh =>
    let vidx := viewIndicesOf (getOp store op1)
    if decide (op1 ∈ merged) || (mode && vidx.isEmpty) then
      sweepLoop impl tc sig2op mode rest store merged opr sigr fresh
    else
      let cluster := buildCluster impl store merged tc op1 vidx rest
      if cluster.length > 1 then
        let ms := mergeStep impl sig2op cluster store merged opr sigr fresh
        sweepLoop impl tc sig2op mode rest ms.1 ms.2.1 ms.2.2.1 ms.2.2.2.1 ms.2.2.2.2
      else sweepLoop impl tc sig2op mode rest store merged opr sigr fresh

/-- `_perform_merges_for_subset(subset, tc, only_merge_ops_with_view)`:
initialize `op_replacements` to the identity on the subset, sort the
subset by view offset (stably, as `sorted` does), and sweep.  Returns
`(op_replacements, sig_replacements)` plus the threaded optimizer
state. -/
def performMergesForSubset (impl : MergeImpl) (tc : Nat → List Nat)
    (sig2op : List (Nat × List Nat)) (subset : List Nat) (mode : Bool)
    (store : Store) (merged : List Nat) (fresh : Nat) :
    List (Nat × Nat) × List (Nat × Signal) × Store × List Nat × Nat :=
  let opr0 := subset.foldl (fun m op => upsert m op op) []
  let sorted := sortByKey (fun op => viewOffsetOf (getOp store op)) subset
  let sw := sweepLoop impl tc sig2op mode sorted store merged opr0 [] fresh
  (sw.2.2.1, sw.2.2.2.1, sw.1, sw.2.1, sw.2.2.2.2)

/-- The `by_type` buckets: operators grouped by concrete kind in step
order (`defaultdict(list)` filled along `step_order`). -/
def opsByType (store : Store) (order : List Nat) : List (Nat × List Nat) :=
  order.foldl (fun acc op =>
    let k := (getOp store op).kind
    upsert acc k ((alookup acc k).getD [] ++ [op])) []

/-- The kind tags of the heuristically ordered classes
`[ElementwiseInc, SlicedCopy, DotInc, SimNeurons]` (the classes
themselves live in `nengo/builder/operator.py` / `neurons.py`). -/
def kindElementwiseInc : Nat := 0

/-- `SlicedCopy`'s kind tag. -/
def kindSlicedCopy : Nat := 1

/-- `DotInc`'s kind tag. -/
def kindDotInc : Nat := 2

/-- `SimNeurons`'s kind tag. -/
def kindSimNeurons : Nat := 3

/-- The heuristic processing order of `_perform_merges`. -/
def heuristicKinds : List Nat := [kindElementwiseInc, kindSlicedCopy, kindDotInc, kindSimNeurons]

/-- Pass-level accumulator: the operator heap, the `merged` set, the
accumulated operator and signal replacement dicts, and the fresh-id
counter. -/
structure PassSt where
  store : Store
  merged : List Nat
  oprAcc : List (Nat × Nat)
  sigrAcc : List (Nat × Signal)
  fresh : Nat

/-- First loop of `_perform_merges`: process the heuristic kinds in
order, deleting each bucket, and in a non-view pass break after the
first kind whose returned `op_replacements` is non-empty (which is
every kind with a non-empty bucket, since `_perform_merges_for_subset`
identity-initializes over its subset).  Returns the remaining buckets,
the accumulated state, and `len(opr)` of the last subset call. -/
def heuristicLoop (impl : MergeImpl) (tc : Nat → List Nat)
    (sig2op : List (Nat × List Nat)) (mode : Bool) :
    List Nat → List (Nat × List Nat) → PassSt → Nat →
    List (Nat × List Nat) × PassSt × Nat
  | [], byType, ps, lastLen => (byType, ps, lastLen)
  | tp :: tps, byType, ps, _ =>
    let subset := (alookup byType tp).getD []
    let sub := performMergesForSubset impl tc sig2op subset mode ps.store ps.merged ps.fresh
    let ps' : PassSt :=
      ⟨sub.2.2.1, sub.2.2.2.1, updateAList ps.oprAcc sub.1,
       updateAList ps.sigrAcc sub.2.1, sub.2.2.2.2⟩
    let byType' := aremove byType tp
    if !mode && sub.1.length > 0 then (byType', ps', sub.1.length)
    else heuristicLoop impl tc sig2op mode tps byType' ps' sub.1.length

/-- Second loop of `_perform_merges`: process the remaining buckets if
the kind supports merging and (in a non-view pass) the last subset call
returned an empty `op_replacements`; otherwise record identity
replacements. -/
def remainingLoop (impl : MergeImpl) (tc : Nat → List Nat)
    (sig2op : List (Nat × List Nat)) (mode : Bool) :
    List (Nat × List Nat) → PassSt → Nat → PassSt × Nat
  | [], ps, lastLen => (ps, lastLen)
  | (tp, subset) :: rest, ps, lastLen =>
    if impl.supportsMerge tp && (mode || lastLen ≤ 0) then
      let sub := performMergesForSubset impl tc sig2op subset mode ps.store ps.merged ps.fresh
      remainingLoop impl tc sig2op mode rest
        ⟨sub.2.2.1, sub.2.2.2.1, updateAList ps.oprAcc sub.1,
         updateAList ps.sigrAcc sub.2.1, sub.2.2.2.2⟩
        sub.1.length
    else
      remainingLoop impl tc sig2op mode rest
        { ps with oprAcc := subset.foldl (fun m op => upsert m op op) ps.oprAcc } lastLen

/-- `zip_longest` rescaling of view strides in
`_get_sig_view_replacements`: `a // b * c` over
`(s.strides, s.base.strides, base_replacement.strides)` padded with 1. -/
def stridesRescaleAux : Nat → List Nat → List Nat → List Nat → List Nat
  | 0, _, _, _ => []
  | n + 1, as, bs, cs =>
    if as.isEmpty && bs.isEmpty && cs.isEmpty then []
    else as.headD 1 / bs.headD 1 * cs.headD 1 ::
      stridesRescaleAux n as.tail bs.tail cs.tail

/-- `zip_longest` stride rescaling (fuel is the longest length). -/
def stridesRescale (as bs cs : List Nat) : List Nat :=
  stridesRescaleAux (max as.length (max bs.length cs.length)) as bs cs

/-- The closure `get_sig_view_replacement(s)` of
`_get_sig_view_replacements`: when `s` is a view whose base was
replaced, build a view into the replacement's ultimate base with
rescaled strides and shifted offset, propagating `s.readonly`, and
record it.  (The closure returns `s` itself, so the enclosing
`_map_onto_op_signals` writes back unchanged attributes — the scan only
collects.) -/
def getSigViewReplacement (sigr : List (Nat × Signal))
    (acc : List (Nat × Signal) × Nat) (s : Signal) : List (Nat × Signal) × Nat :=
  if s.isView then
    match alookup sigr s.base.sid with
    | some br =>
      let strides := stridesRescale s.strides s.base.arr.strides br.strides
      let offset := s.offset
      let (offset', br') :=
        if br.isView then (offset + br.offset, br.base)
        else (offset, (⟨br.sid, br.arr, br.readonly⟩ : BaseSig))
      let iv : NDArray :=
        { dtype := s.dtype, shape := s.shape, strides := strides,
          offset := offset', buf := br'.arr.buf }
      (upsert acc.1 s.sid ⟨acc.2, iv, s.readonly, some br'⟩, acc.2 + 1)
    | none => acc
  else acc

/-- Order in which `_map_onto_op_signals` touches an operator's
signals: the `dir()` scan over `Signal`-valued attributes, then the
four lists. -/
def opSignalScan (op : OpData) : List Signal :=
  op.attrs ++ op.sets ++ op.incs ++ op.reads ++ op.updates

/-- `_get_sig_view_replacements(ops, sig_replacements)`: scan every
operator's signals (with the duplicates `op_replacements.values()`
contains) and collect view replacements for views whose base was
merged. -/
def getSigViewReplacements (sigr : List (Nat × Signal)) (ops : List Nat) (store : Store)
    (fresh : Nat) : List (Nat × Signal) × Nat :=
  ops.foldl (fun acc opId =>
    (opSignalScan (getOp store opId)).foldl (getSigViewReplacement sigr) acc)
    ([], fresh)

/-- `sig_replacements.get(s, s)`. -/
def replaceSig (sigr : List (Nat × Signal)) (s : Signal) : Signal :=
  (alookup sigr s.sid).getD s

/-- `_map_onto_op_signals(fn, ops)` for a pure rewriting `fn`: mutate
each listed operator in place (`setattr` on `Signal`-valued attributes
and reassignment of the four lists), i.e. update its heap entry. -/
def mapOpSignals (f : Signal → Signal) (ops : List Nat) (store : Store) : Store :=
  ops.foldl (fun st opId =>
    match alookup st opId with
    | none => st
    | some d => upsert st opId
        { d with attrs := d.attrs.map f, sets := d.sets.map f, incs := d.incs.map f,
                 reads := d.reads.map f, updates := d.updates.map f }) store

/-- `_replace_op_signals(ops, sig_replacements)`. -/
def replaceOpSignals (sigr : List (Nat × Signal)) (ops : List Nat) (store : Store) : Store :=
  mapOpSignals (replaceSig sigr) ops store

/-- `a → b` is an edge of the dependency graph. -/
abbrev edgeIn (dg : DepGraph) (a b : Nat) : Prop :=
  b ∈ (alookup dg a).getD []

/-- `_update_dg(op_replacements)`: rebuild the graph with every node
and edge endpoint pushed through the replacement map; a key is created
on first sight, values are sets.  (The Python lookups
`self.dg[op]` / `op_replacements[x]` would raise KeyError for ids
outside the maps; the modelled runs cover them, see
`performMerges_oprAcc_keys`.) -/
def updateDg (opr : List (Nat × Nat)) (dg : DepGraph) : DepGraph :=
  opr.foldl (fun acc p =>
    let rep := p.2
    let acc1 := if (alookup acc rep).isSome then acc else acc ++ [(rep, [])]
    ((alookup dg p.1).getD []).foldl (fun acc2 x =>
      let repx := (alookup opr x).getD x
      upsert acc2 rep (insertId ((alookup acc2 rep).getD []) repx)) acc1) []

/-- `_update_model_sigs(sig_replacements)`: push `model.sig[k][name]`
through the signal replacement dict. -/
def updateModelSigs (sigr : List (Nat × Signal))
    (ms : List (Nat × List (Nat × Signal))) : List (Nat × List (Nat × Signal)) :=
  ms.map (fun p => (p.1, p.2.map (fun q => (q.1, (alookup sigr q.2.sid).getD q.2))))

/-- Modelled from the spec: `nengo.utils.graphs.toposort` returns a
topological ordering of the graph's nodes (each node exactly once).
Nodes are ranked by longest-path depth (a fixpoint reached within
`|dg|` rounds on acyclic graphs) and stably sorted by rank. -/
def ranks (dg : DepGraph) : List (Nat × Nat) :=
  (List.range dg.length).foldl
    (fun r _ =>
      dg.foldl (fun acc p =>
        p.2.foldl (fun acc2 v =>
          upsert acc2 v (max ((alookup acc2 v).getD 0) (((alookup acc2 p.1).getD 0) + 1)) ) acc) r)
    (dg.map (fun p => (p.1, 0)))

/-- Modelled from the spec: the topological order used by a pass. -/
def toposortIds (dg : DepGraph) : List Nat :=
  sortByKey (fun v => (alookup (ranks dg) v).getD 0) (akeys dg)

/-- Modelled from the spec: `transitive_closure` — for each node, the
set of all transitive descendants (successors expanded to a fixpoint,
reached within `|dg|` rounds on acyclic graphs). -/
def descendants (dg : DepGraph) (v : Nat) : List Nat :=
  (List.range dg.length).foldl
    (fun s _ => s.foldl (fun acc u => insertIds acc ((alookup dg u).getD [])) s)
    ((alookup dg v).getD [])

/-- `_perform_merges(only_merge_ops_with_view)`: toposort, transitive
closure, kind bucketing, the heuristic loop with its non-view break,
the remaining-kinds loop, and finally the view-replacement scan merged
into the signal replacements. -/
def performMerges (impl : MergeImpl) (mode : Bool) (store : Store) (dg : DepGraph)
    (fresh : Nat) : List (Nat × Nat) × List (Nat × Signal) × Store × Nat :=
  let sig2op := buildSig2Op store dg
  let stepOrder := toposortIds dg
  let tc := descendants dg
  let byType := opsByType store stepOrder
  let hres :=
    heuristicLoop impl tc sig2op mode heuristicKinds byType ⟨store, [], [], [], fresh⟩ 0
  let ps2 := (remainingLoop impl tc sig2op mode hres.1 hres.2.1 hres.2.2).1
  let vres := getSigViewReplacements ps2.sigrAcc (avalues ps2.oprAcc) ps2.store ps2.fresh
  (ps2.oprAcc, updateAList ps2.sigrAcc vres.1, ps2.store, vres.2)

/-- The optimizer state the driver threads: the operator heap, the
dependency graph, `model.sig`, and the fresh-id counter. -/
structure OptState where
  store : Store
  dg : DepGraph
  modelSig : List (Nat × List (Nat × Signal))
  fresh : Nat

/-- `_perform_single_pass(only_merge_ops_with_view)`: perform the
merges, rewrite the surviving operators' signals in place, rewrite the
dependency graph, and rewrite `model.sig`. -/
def performSinglePass (impl : MergeImpl) (mode : Bool) (st : OptState) : OptState :=
  let pm := performMerges impl mode st.store st.dg st.fresh
  let store2 := replaceOpSignals pm.2.1 (avalues pm.1) pm.2.2.1
  ⟨store2, updateDg pm.1 st.dg, updateModelSigs pm.2.1 st.modelSig, pm.2.2.2⟩

/-- Python `after < before` where either may still be `None` (the
comparison is only reached once both are set, since
`only_merge_ops_with_view` starts out true). -/
def optLt : Option Nat → Option Nat → Bool
  | some a, some b => decide (a < b)
  | _, _ => false

/-- The `optimize()` driver loop (lines 60–74), with explicit fuel:
while `only_merge_ops_with_view or after < before`, recompute the mode
(`before is None or before != after`), run a pass and record
`(mode, before, after)`.  Returns `none` only on fuel exhaustion —
`optimize_terminates` shows `2 * len(dg) + 3` always suffices. -/
def optLoop (impl : MergeImpl) : Nat → OptState → Option Nat → Option Nat → Bool →
    List (Bool × Nat × Nat) → Option (OptState × List (Bool × Nat × Nat))
  | 0, _, _, _, _, _ => none
  | fuel + 1, st, before, after, omowv, trace =>
    if omowv || optLt after before then
      optLoop impl fuel (performSinglePass impl (before.isNone || decide (before ≠ after)) st)
        (some st.dg.length)
        (some (performSinglePass impl (before.isNone || decide (before ≠ after)) st).dg.length)
        (before.isNone || decide (before ≠ after))
        (trace ++ [(before.isNone || decide (before ≠ after), st.dg.length,
          (performSinglePass impl (before.isNone || decide (before ≠ after)) st).dg.length)])
    else some (st, trace)

/-- `optimize()`: run the pass loop from the initial `None` state,
returning the final state and the trace of
`(only_merge_ops_with_view, before, after)` per pass. -/
def optimize (impl : MergeImpl) (st : OptState) : Option (OptState × List (Bool × Nat × Nat)) :=
  optLoop impl (2 * st.dg.length + 3) st none none true []

theorem alookup_upsert_self {α : Type} (m : List (Nat × α)) (k : Nat) (v : α) :
    alookup (upsert m k v) k = some v := by
  induction m with
  | nil => simp [upsert, alookup]
  | cons p rest ih =>
    by_cases h : p.1 = k
    · simp [upsert, h, alookup]
    · simp [upsert, h, alookup, ih]

theorem alookup_upsert_ne {α : Type} (m : List (Nat × α)) (k k' : Nat) (v : α)
    (h : k' ≠ k) : alookup (upsert m k v) k' = alookup m k' := by
  induction m with
  | nil =>
    have : ¬ (k = k') := fun hh => h hh.symm
    simp [upsert, alookup, this]
  | cons p rest ih =>
    by_cases hp : p.1 = k
    · subst hp
      have h1 : ¬ (p.1 = k') := fun hh => h hh.symm
      simp [upsert, alookup, h1]
    · by_cases hp' : p.1 = k'
      · have h2 : ¬ (k' = k) := h
        subst hp'
        simp [upsert, h2, alookup]
      · simp [upsert, hp, alookup, hp', ih]

theorem mem_akeys_upsert {α : Type} (m : List (Nat × α)) (k : Nat) (v : α) (a : Nat) :
    a ∈ akeys (upsert m k v) ↔ a = k ∨ a ∈ akeys m := by
  induction m with
  | nil => simp [upsert, akeys]
  | cons p rest ih =>
    by_cases hp : p.1 = k
    · subst hp
      simp [upsert, akeys]
    · simp only [upsert, hp, if_false, akeys, List.map_cons, List.mem_cons] at *
      rw [ih]
      tauto

theorem akeys_upsert_of_mem {α : Type} (m : List (Nat × α)) (k : Nat) (v : α)
    (h : k ∈ akeys m) : akeys (upsert m k v) = akeys m := by
  induction m with
  | nil => simp [akeys] at h
  | cons p rest ih =>
    by_cases hp : p.1 = k
    · simp [upsert, hp, akeys]
    · have h' : k ∈ akeys rest := by
        simp only [akeys, List.map_cons, List.mem_cons] at h
        rcases h with h | h
        · exact absurd h.symm hp
        · exact h
      have := ih h'
      simp only [akeys, List.map_cons] at *
      simp [upsert, hp, this]

theorem nodup_akeys_upsert {α : Type} (m : List (Nat × α)) (k : Nat) (v : α)
    (h : (akeys m).Nodup) : (akeys (upsert m k v)).Nodup := by
  induction m with
  | nil => simp [upsert, akeys]
  | cons p rest ih =>
    simp only [akeys, List.map_cons, List.nodup_cons] at h
    by_cases hp : p.1 = k
    · subst hp
      simp only [upsert, if_pos rfl, akeys, List.map_cons, List.nodup_cons]
      simpa [akeys] using h
    · simp only [upsert, hp, if_false, akeys, List.map_cons, List.nodup_cons]
      refine ⟨fun hmem => ?_, ih h.2⟩
      rcases (mem_akeys_upsert rest k v p.1).1 hmem with h' | h'
      · exact hp h'
      · exact h.1 h'

theorem alookup_eq_none {α : Type} (m : List (Nat × α)) (k : Nat) (h : k ∉ akeys m) :
    alookup m k = none := by
  induction m with
  | nil => rfl
  | cons p rest ih =>
    simp only [akeys, List.map_cons, List.mem_cons, not_or] at h
    have h1 : ¬ (p.1 = k) := fun hh => h.1 hh.symm
    simp [alookup, h1, ih h.2]

theorem alookup_isSome_of_mem {α : Type} (m : List (Nat × α)) (k : Nat)
    (h : k ∈ akeys m) : (alookup m k).isSome := by
  induction m with
  | nil => simp [akeys] at h
  | cons p rest ih =>
    by_cases hp : p.1 = k
    · simp [alookup, hp]
    · have h' : k ∈ akeys rest := by
        simp only [akeys, List.map_cons, List.mem_cons] at h
        rcases h with h | h
        · exact absurd h.symm hp
        · exact h
      simp [alookup, hp, ih h']

theorem mem_akeys_updateAList {α : Type} (m m' : List (Nat × α)) (a : Nat) :
    a ∈ akeys (updateAList m m') ↔ a ∈ akeys m ∨ a ∈ akeys m' := by
  induction m' generalizing m with
  | nil => simp [updateAList, akeys]
  | cons p rest ih =>
    simp only [updateAList, List.foldl_cons] at *
    rw [ih (upsert m p.1 p.2), mem_akeys_upsert]
    simp only [akeys, List.map_cons, List.mem_cons]
    tauto

theorem nodup_akeys_updateAList {α : Type} (m m' : List (Nat × α))
    (h : (akeys m).Nodup) : (akeys (updateAList m m')).Nodup := by
  induction m' generalizing m with
  | nil => exact h
  | cons p rest ih =>
    simp only [updateAList, List.foldl_cons]
    exact ih (upsert m p.1 p.2) (nodup_akeys_upsert m p.1 p.2 h)

theorem mem_insertId (l : List Nat) (x a : Nat) :
    a ∈ insertId l x ↔ a ∈ l ∨ a = x := by
  by_cases h : x ∈ l
  · simp only [insertId, if_pos h]
    constructor
    · exact Or.inl
    · rintro (hh | hh)
      · exact hh
      · exact hh ▸ h
  · simp [insertId, h]

theorem mem_insertIds (l xs : List Nat) (a : Nat) :
    a ∈ insertIds l xs ↔ a ∈ l ∨ a ∈ xs := by
  induction xs generalizing l with
  | nil => simp [insertIds]
  | cons x rest ih =>
    simp only [insertIds, List.foldl_cons] at *
    rw [ih (insertId l x), mem_insertId]
    simp only [List.mem_cons]
    tauto

theorem mem_insertSorted (key : Nat → Nat) (x a : Nat) (l : List Nat) :
    a ∈ insertSorted key x l ↔ a = x ∨ a ∈ l := by
  induction l with
  | nil => simp [insertSorted]
  | cons y ys ih =>
    by_cases h : key x ≤ key y
    · simp [insertSorted, h]
    · simp only [insertSorted, h, if_false, List.mem_cons, ih]
      tauto

theorem mem_sortByKey (key : Nat → Nat) (l : List Nat) (a : Nat) :
    a ∈ sortByKey key l ↔ a ∈ l := by
  induction l with
  | nil => simp [sortByKey]
  | cons x xs ih =>
    simp only [sortByKey, List.foldr_cons] at *
    rw [mem_insertSorted, ih]
    simp

/-- A float64-like dtype for concrete instances. -/
def dtC8 : DType := ⟨0, 8⟩

/-- Concrete buffer for the C8 instance. -/
def bufC8 : Nat → Int := fun i => i

/-- A readonly base signal of shape (4,). -/
def roC8 : Signal := ⟨1, ⟨dtC8, [4], [8], 0, bufC8⟩, true, none⟩

/-- The view `roC8[0:2]` as `__getitem__` constructs it. -/
def viewC8 : Signal :=
  ⟨50, ⟨dtC8, [2], [8], 0, bufC8⟩, false, some ⟨1, ⟨dtC8, [4], [8], 0, bufC8⟩, true⟩⟩

/-- C8, counterexample: slicing a `readonly` signal yields a view whose
`readonly` flag is `False` — `__getitem__` constructs the view without
passing `readonly`, so the flag does not propagate. -/
theorem C8_counterexample :
    roC8.readonly = true ∧
    roC8.getitem [Item.slc (some 0) (some 2)] 50 = .ok viewC8 ∧
    viewC8.readonly = false := by
  exact ⟨rfl, rfl, rfl⟩

/-- C8, amended: the `readonly` flag does *not* propagate through the
view constructors — every view produced by `__getitem__`, `reshape`,
`row` or `column` has `readonly = False` (the constructors omit the
`readonly` argument), whatever the source signal's flag. -/
theorem C8_view_readonly_default :
    (∀ (s : Signal) (item : List Item) (fresh : Nat) (v : Signal),
        s.getitem item fresh = .ok v → v.readonly = false) ∧
    (∀ (s : Signal) (sh : List Nat) (fresh : Nat) (v : Signal),
        s.reshapeSig sh fresh = .ok v → v.readonly = false) ∧
    (∀ (s : Signal) (fresh : Nat) (v : Signal),
        s.rowSig fresh = .ok v → v.readonly = false) ∧
    (∀ (s : Signal) (fresh : Nat) (v : Signal),
        s.columnSig fresh = .ok v → v.readonly = false) := by
  have hre : ∀ (s : Signal) (sh : List Nat) (fresh : Nat) (v : Signal),
      s.reshapeSig sh fresh = .ok v → v.readonly = false := by
    intro s sh fresh v h
    unfold Signal.reshapeSig at h
    split at h
    · cases h
      rfl
    · cases h
  refine ⟨?_, hre, fun s fresh v h => hre s _ fresh v h, fun s fresh v h => hre s _ fresh v h⟩
  intro s item fresh v h
  unfold Signal.getitem at h
  by_cases hall : item.all Item.isIdx
  · rw [if_pos hall] at h
    cases hlast : item.getLast? with
    | none =>
      rw [hlast] at h
      cases h
    | some it =>
      cases it with
      | idx i =>
        rw [hlast] at h
        dsimp only at h
        cases hget : npGetItem s.arr (item.dropLast ++ [Item.slc (some i) (some (i + 1))]) with
        | ok arr' =>
          rw [hget] at h
          cases h
          rfl
        | error e =>
          rw [hget] at h
          cases h
      | slc a b =>
        rw [hlast] at h
        cases h
  · rw [if_neg hall] at h
    dsimp only at h
    cases hget : npGetItem s.arr item with
    | ok arr' =>
      rw [hget] at h
      cases h
      rfl
    | error e =>
      rw [hget] at h
      cases h

/-- C8 witness: the amended theorem applied at the concrete readonly
signal and slice. -/
theorem C8_view_readonly_default_witness :
    roC8.getitem [Item.slc (some 0) (some 2)] 50 = .ok viewC8 ∧ viewC8.readonly = false :=
  ⟨rfl, C8_view_readonly_default.1 roC8 [Item.slc (some 0) (some 2)] 50 viewC8 rfl⟩

theorem alookup_mem {α : Type} (m : List (Nat × α)) (k : Nat) (v : α)
    (h : alookup m k = some v) : (k, v) ∈ m := by
  induction m with
  | nil => cases h
  | cons p rest ih =>
    by_cases hp : p.1 = k
    · rw [alookup, if_pos hp] at h
      cases h
      cases p with
      | mk x y =>
        cases hp
        exact List.mem_cons_self _ _
    · rw [alookup, if_neg hp] at h
      exact List.mem_cons_of_mem _ (ih h)

theorem alookup_append_left {α : Type} (m m' : List (Nat × α)) (k : Nat) (v : α)
    (h : alookup m k = some v) : alookup (m ++ m') k = some v := by
  induction m with
  | nil => cases h
  | cons p rest ih =>
    by_cases hp : p.1 = k
    · rw [alookup, if_pos hp] at h
      simp [alookup, hp, h]
    · rw [alookup, if_neg hp] at h
      simpa [alookup, hp] using ih h

/-- The inner fold of `_update_dg` (over the successors of one
operator) only grows the successor sets. -/
theorem updateDgInner_grow (opr : List (Nat × Nat)) (rep : Nat) (xs : List Nat)
    (acc : DepGraph) (u v : Nat) (h : v ∈ (alookup acc u).getD []) :
    v ∈ (alookup (xs.foldl (fun acc2 x =>
      upsert acc2 rep (insertId ((alookup acc2 rep).getD []) ((alookup opr x).getD x))) acc)
      u).getD [] := by
  induction xs generalizing acc with
  | nil => exact h
  | cons x rest ih =>
    simp only [List.foldl_cons]
    apply ih
    by_cases hu : u = rep
    · subst hu
      rw [alookup_upsert_self]
      exact (mem_insertId _ _ _).2 (Or.inl h)
    · rw [alookup_upsert_ne _ _ _ _ hu]
      exact h

/-- The inner fold of `_update_dg` inserts the replacement of every
successor. -/
theorem updateDgInner_est (opr : List (Nat × Nat)) (rep : Nat) (xs : List Nat)
    (acc : DepGraph) (b : Nat) (hb : b ∈ xs) :
    ((alookup opr b).getD b) ∈ (alookup (xs.foldl (fun acc2 x =>
      upsert acc2 rep (insertId ((alookup acc2 rep).getD []) ((alookup opr x).getD x))) acc)
      rep).getD [] := by
  induction xs generalizing acc with
  | nil => cases hb
  | cons x rest ih =>
    simp only [List.foldl_cons]
    rcases List.mem_cons.1 hb with hb | hb
    · subst hb
      apply updateDgInner_grow
      rw [alookup_upsert_self]
      exact (mem_insertId _ _ _).2 (Or.inr rfl)
    · exact ih _ hb

/-- One outer step of `_update_dg` only grows the successor sets. -/
theorem updateDgOuter_grow1 (opr : List (Nat × Nat)) (dg : DepGraph) (p : Nat × Nat)
    (acc : DepGraph) (u v : Nat) (h : v ∈ (alookup acc u).getD []) :
    v ∈ (alookup (((alookup dg p.1).getD []).foldl (fun acc2 x =>
        upsert acc2 p.2 (insertId ((alookup acc2 p.2).getD []) ((alookup opr x).getD x)))
        (if (alookup acc p.2).isSome then acc else acc ++ [(p.2, [])])) u).getD [] := by
  apply updateDgInner_grow
  split
  · exact h
  · cases hu : alookup acc u with
    | none =>
      rw [hu] at h
      cases h
    | some l =>
      rw [hu] at h
      rw [alookup_append_left _ _ _ _ hu]
      exact h

/-- The outer fold of `_update_dg` only grows the successor sets. -/
theorem updateDgOuter_grow (opr : List (Nat × Nat)) (dg : DepGraph)
    (l : List (Nat × Nat)) (acc : DepGraph) (u v : Nat)
    (h : v ∈ (alookup acc u).getD []) :
    v ∈ (alookup (l.foldl (fun acc p =>
      ((alookup dg p.1).getD []).foldl (fun acc2 x =>
        upsert acc2 p.2 (insertId ((alookup acc2 p.2).getD []) ((alookup opr x).getD x)))
        (if (alookup acc p.2).isSome then acc else acc ++ [(p.2, [])])) acc) u).getD [] := by
  induction l generalizing acc with
  | nil => exact h
  | cons p rest ih =>
    simp only [List.foldl_cons]
    exact ih _ (updateDgOuter_grow1 opr dg p acc u v h)

/-- The outer fold of `_update_dg` establishes `rep(a) → rep(b)` for
every processed entry `(a, rep(a))` and every edge `a → b`. -/
theorem updateDgOuter_est (opr : List (Nat × Nat)) (dg : DepGraph)
    (l : List (Nat × Nat)) (acc : DepGraph) (a ra b : Nat)
    (hmem : (a, ra) ∈ l) (hedge : b ∈ (alookup dg a).getD []) :
    ((alookup opr b).getD b) ∈ (alookup (l.foldl (fun acc p =>
      ((alookup dg p.1).getD []).foldl (fun acc2 x =>
        upsert acc2 p.2 (insertId ((alookup acc2 p.2).getD []) ((alookup opr x).getD x)))
        (if (alookup acc p.2).isSome then acc else acc ++ [(p.2, [])])) acc) ra).getD [] := by
  induction l generalizing acc with
  | nil => cases hmem
  | cons p rest ih =>
    simp only [List.foldl_cons]
    rcases List.mem_cons.1 hmem with hp | hp
    · subst hp
      apply updateDgOuter_grow
      exact updateDgInner_est opr ra _ _ b hedge
    · exact ih _ hp

/-- `_update_dg` preserves every edge through the replacement map:
`a → b` becomes `rep(a) → rep(b)` (also when `rep(a) = rep(b)`, in
which case the self-loop is kept). -/
theorem updateDg_preserves_edges (opr : List (Nat × Nat)) (dg : DepGraph)
    (a b ra : Nat) (ha : alookup opr a = some ra) (hedge : edgeIn dg a b) :
    edgeIn (updateDg opr dg) ra ((alookup opr b).getD b) := by
  unfold updateDg edgeIn
  exact updateDgOuter_est opr dg opr [] a ra b (alookup_mem _ _ _ ha) hedge

/-- A mergeable candidate is independent from the cluster head in both
directions of the transitive closure. -/
theorem mergeable_independent (impl : MergeImpl) (st : Store) (merged : List Nat)
    (tc : Nat → List Nat) (op1 op2 : Nat) (vidx : List Nat)
    (h : mergeable impl st merged tc op1 op2 vidx = true) :
    op1 ∉ tc op2 ∧ op2 ∉ tc op1 := by
  simp only [mergeable, Bool.and_eq_true, Bool.not_eq_true', decide_eq_false_iff_not] at h
  exact ⟨h.1.1.1.1, h.1.1.1.2⟩

/-- A mergeable candidate's view indices agree positionally with the
head's. -/
theorem mergeable_vidx_eq (impl : MergeImpl) (st : Store) (merged : List Nat)
    (tc : Nat → List Nat) (op1 op2 : Nat) (vidx : List Nat)
    (h : mergeable impl st merged tc op1 op2 vidx = true) :
    vidx = viewIndicesOf (getOp st op2) := by
  simp only [mergeable, Bool.and_eq_true, beq_iff_eq] at h
  exact h.1.2.1

/-- Every operator the candidate loop adds to a cluster passed
`_mergeable` against the head. -/
theorem clusterLoop_mem (impl : MergeImpl) (st : Store) (merged : List Nat)
    (tc : Nat → List Nat) (op1 : Nat) (vidx : List Nat) :
    ∀ (rest cluster : List Nat) (x : Nat),
      x ∈ clusterLoop impl st merged tc op1 vidx cluster rest →
      x ∈ cluster ∨ (x ∈ rest ∧ mergeable impl st merged tc op1 x vidx = true) := by
  intro rest
  induction rest with
  | nil =>
    intro cluster x hx
    exact Or.inl hx
  | cons op2 rest' ih =>
    intro cluster x hx
    rw [clusterLoop] at hx
    by_cases hc : (!decide (op2 ∈ merged) && mergeable impl st merged tc op1 op2 vidx &&
        isMemAccessSequential [getOp st (cluster.headD op1), getOp st op2]) = true
    · rw [if_pos hc] at hx
      rcases ih (op2 :: cluster) x hx with h | h
      · rcases List.mem_cons.1 h with h' | h'
        · subst h'
          simp only [Bool.and_eq_true] at hc
          exact Or.inr ⟨List.mem_cons_self _ _, hc.1.2⟩
        · exact Or.inl h'
      · exact Or.inr ⟨List.mem_cons_of_mem _ h.1, h.2⟩
    · rw [if_neg hc] at hx
      by_cases hs : checkSequentialBreak st (cluster.headD op1) op2 = true
      · rw [if_pos hs] at hx
        exact Or.inl hx
      · rw [if_neg hs] at hx
        rcases ih cluster x hx with h | h
        · exact Or.inl h
        · exact Or.inr ⟨List.mem_cons_of_mem _ h.1, h.2⟩

/-- Every cluster member other than the head passed `_mergeable`
against the head. -/
theorem buildCluster_mem (impl : MergeImpl) (st : Store) (merged : List Nat)
    (tc : Nat → List Nat) (op1 : Nat) (vidx : List Nat) (rest : List Nat) (x : Nat)
    (hx : x ∈ buildCluster impl st merged tc op1 vidx rest) :
    x = op1 ∨ (x ∈ rest ∧ mergeable impl st merged tc op1 x vidx = true) := by
  unfold buildCluster at hx
  rw [List.mem_reverse] at hx
  rcases clusterLoop_mem impl st merged tc op1 vidx rest [op1] x hx with h | h
  · rcases List.mem_cons.1 h with h' | h'
    · exact Or.inl h'
    · cases h'
  · exact Or.inr h

/-- Operators whose `all_signals` is empty have no view indices. -/
theorem viewIndicesOf_of_empty (op : OpData) (h : op.allSignals = []) :
    viewIndicesOf op = [] := by
  unfold viewIndicesOf
  rw [h]
  rfl

/-- C1, amended: the cluster head `op1` and every other operator placed
into its merge cluster are mutually independent in the transitive
closure — `_mergeable` checks both directions (`op1 not in tc[op2] and
op2 not in tc[op1]`).  Independence between two non-head members of the
same cluster is *not* checked (see the counterexample). -/
theorem C1_cluster_head_independence :
    ∀ (impl : MergeImpl) (st : Store) (merged : List Nat) (tc : Nat → List Nat)
      (op1 : Nat) (vidx : List Nat) (rest : List Nat) (x : Nat),
      x ∈ buildCluster impl st merged tc op1 vidx rest → x ≠ op1 →
      op1 ∉ tc x ∧ x ∉ tc op1 := by
  intro impl st merged tc op1 vidx rest x hx hne
  rcases buildCluster_mem impl st merged tc op1 vidx rest x hx with h | h
  · exact absurd h hne
  · exact mergeable_independent impl st merged tc op1 x vidx h.2

/-- A trivial implementation for concrete runs: any two same-parameter
operators can merge; the fused operator is an empty operator of the
ElementwiseInc kind. -/
def implC1 : MergeImpl :=
  ⟨fun a b => a.prm == b.prm, fun _ => true,
   fun _ _ _ fresh => (⟨kindElementwiseInc, 5, [], [], [], [], []⟩, [], fresh)⟩

/-- An ElementwiseInc-kind operator with no signals. -/
def opC1 : OpData := ⟨kindElementwiseInc, 5, [], [], [], [], []⟩

/-- Three operators, none with signals. -/
def storeC1 : Store := [(0, opC1), (1, opC1), (2, opC1)]

/-- Dependency graph with the single edge `1 → 2`. -/
def dgC1 : DepGraph := [(0, []), (1, [2]), (2, [])]

/-- C1, counterexample: in a non-view pass over `storeC1`/`dgC1`,
operators 1 and 2 are placed into the same merge cluster (both are
replaced by the freshly created fused operator 100, which is not one of
the original operators) although operator 2 is a transitive descendant
of operator 1 — the pairwise independence claimed for all members of a
cluster fails; only head-to-member independence is checked. -/
theorem C1_counterexample :
    edgeIn dgC1 1 2 ∧ 2 ∈ descendants dgC1 1 ∧
    alookup (performMerges implC1 false storeC1 dgC1 100).1 1 = some 100 ∧
    alookup (performMerges implC1 false storeC1 dgC1 100).1 2 = some 100 ∧
    alookup storeC1 100 = none := by
  exact ⟨by decide, by decide, rfl, rfl, rfl⟩

/-- The trivial transitive closure for the C1 witness. -/
def tcC1w : Nat → List Nat := fun _ => []

/-- C1 witness: the amended theorem applied to a concrete two-element
cluster. -/
theorem C1_cluster_head_independence_witness :
    1 ∈ buildCluster implC1 [] [] tcC1w 0 [] [1] ∧ (0 ∉ tcC1w 1 ∧ 1 ∉ tcC1w 0) :=
  ⟨by decide, C1_cluster_head_independence implC1 [] [] tcC1w 0 [] [1] 1 (by decide)
    (by decide)⟩

/-- C9, amended, part of the claim that does hold: in a views-only
pass an operator with empty `all_signals` is never fused — as a sweep
head it is skipped outright, and as a candidate it never enters a
cluster built for a head with views, because the positional view-index
match in `_mergeable` fails. -/
theorem C9_empty_signals_views_pass :
    (∀ (impl : MergeImpl) (st : Store) (merged : List Nat) (tc : Nat → List Nat)
       (op1 : Nat) (vidx : List Nat) (rest : List Nat) (x : Nat),
       vidx ≠ [] → x ∈ buildCluster impl st merged tc op1 vidx rest →
       (getOp st x).allSignals = [] → x = op1) ∧
    (∀ (impl : MergeImpl) (tc : Nat → List Nat) (sig2op : List (Nat × List Nat))
       (op1 : Nat) (rest : List Nat) (store : Store) (merged : List Nat)
       (opr : List (Nat × Nat)) (sigr : List (Nat × Signal)) (fresh : Nat),
       (getOp store op1).allSignals = [] →
       sweepLoop impl tc sig2op true (op1 :: rest) store merged opr sigr fresh =
         sweepLoop impl tc sig2op true rest store merged opr sigr fresh) := by
  constructor
  · intro impl st merged tc op1 vidx rest x hv hx hsig
    rcases buildCluster_mem impl st merged tc op1 vidx rest x hx with h | h
    · exact h
    · have := mergeable_vidx_eq impl st merged tc op1 x vidx h.2
      rw [viewIndicesOf_of_empty _ hsig] at this
      exact absurd this hv
  · intro impl tc sig2op op1 rest store merged opr sigr fresh hsig
    rw [sweepLoop]
    have hv : viewIndicesOf (getOp store op1) = [] := viewIndicesOf_of_empty _ hsig
    rw [if_pos]
    rw [hv]
    simp

/-- The C9 concrete operators: two empty-signal operators of the same
kind and parameter, no dependencies. -/
def storeC9 : Store := [(0, opC1), (1, opC1)]

/-- The C9 dependency graph: two independent operators. -/
def dgC9 : DepGraph := [(0, []), (1, [])]

/-- C9, counterexample: in a *non-view* pass, the two operators with
empty `all_signals` are fused into one operator (`_is_memory_access_-
sequential` is vacuously true for empty signatures, so nothing blocks
the merge) — refuting "never merged in every pass". -/
theorem C9_counterexample :
    (getOp storeC9 0).allSignals = [] ∧ (getOp storeC9 1).allSignals = [] ∧
    alookup (performMerges implC1 false storeC9 dgC9 100).1 0 = some 100 ∧
    alookup (performMerges implC1 false storeC9 dgC9 100).1 1 = some 100 ∧
    alookup storeC9 100 = none ∧
    (performSinglePass implC1 false ⟨storeC9, dgC9, [], 100⟩).dg = [(100, [])] := by
  exact ⟨rfl, rfl, rfl, rfl, rfl, rfl⟩

/-- C9 witness: the amended theorem applied at concrete inputs (a
views-mode cluster head with view indices, and a views-mode sweep
skipping an empty-signature head). -/
theorem C9_empty_signals_views_pass_witness :
    (5 ∈ buildCluster implC1 [] [] tcC1w 5 [0] [] ∧ (getOp ([] : Store) 5).allSignals = [] ∧
      5 = 5) ∧
    sweepLoop implC1 tcC1w [] true [7] [] [] [] [] 0 =
      sweepLoop implC1 tcC1w [] true [] [] [] [] [] 0 :=
  ⟨⟨by decide, rfl, C9_empty_signals_views_pass.1 implC1 [] [] tcC1w 5 [0] [] 5
      (by decide) (by decide) rfl⟩,
   C9_empty_signals_views_pass.2 implC1 tcC1w [] 7 [] [] [] [] [] 0 rfl⟩

theorem mem_akeys_upsertFoldG {α : Type} (g : Nat → α) (l : List Nat)
    (m : List (Nat × α)) (a : Nat) :
    a ∈ akeys (l.foldl (fun m op => upsert m op (g op)) m) ↔ a ∈ akeys m ∨ a ∈ l := by
  induction l generalizing m with
  | nil => simp
  | cons x rest ih =>
    simp only [List.foldl_cons]
    rw [ih (upsert m x (g x)), mem_akeys_upsert]
    simp only [List.mem_cons]
    tauto

theorem nodup_akeys_upsertFoldG {α : Type} (g : Nat → α) (l : List Nat)
    (m : List (Nat × α)) (h : (akeys m).Nodup) :
    (akeys (l.foldl (fun m op => upsert m op (g op)) m)).Nodup := by
  induction l generalizing m with
  | nil => exact h
  | cons x rest ih =>
    simp only [List.foldl_cons]
    exact ih (upsert m x (g x)) (nodup_akeys_upsert m x (g x) h)

/-- The per-cluster fold inside `_merge` updates the replacement dict
independently of the poisoning of the `merged` set. -/
theorem mergeStepFold_snd (store : Store) (sig2op : List (Nat × List Nat)) (newId : Nat)
    (cluster : List Nat) (mo : List Nat × List (Nat × Nat)) :
    (cluster.foldl (fun (acc : List Nat × List (Nat × Nat)) (op : Nat) =>
      let acc1 := (acc.1, upsert acc.2 op newId)
      (((getOp store op).allSignals).foldl
        (fun m s => insertIds m ((alookup sig2op s.sid).getD [])) acc1.1, acc1.2)) mo).2 =
    cluster.foldl (fun m op => upsert m op newId) mo.2 := by
  induction cluster generalizing mo with
  | nil => rfl
  | cons op rest ih =>
    simp only [List.foldl_cons]
    rw [ih]

/-- `_merge` adds exactly the cluster's ids to the replacement dict's
keys. -/
theorem mem_akeys_mergeStep (impl : MergeImpl) (sig2op : List (Nat × List Nat))
    (cluster : List Nat) (store : Store) (merged : List Nat) (opr : List (Nat × Nat))
    (sigr : List (Nat × Signal)) (fresh : Nat) (a : Nat) :
    a ∈ akeys (mergeStep impl sig2op cluster store merged opr sigr fresh).2.2.1 ↔
      a ∈ akeys opr ∨ a ∈ cluster := by
  cases cluster with
  | nil => simp [mergeStep]
  | cons head rest =>
    unfold mergeStep
    simp only []
    rw [mergeStepFold_snd]
    rw [mem_akeys_upsertFoldG (fun _ => (impl.mergeOp store head rest fresh).2.2)]

/-- `_merge` keeps the replacement dict's keys duplicate-free. -/
theorem nodup_akeys_mergeStep (impl : MergeImpl) (sig2op : List (Nat × List Nat))
    (cluster : List Nat) (store : Store) (merged : List Nat) (opr : List (Nat × Nat))
    (sigr : List (Nat × Signal)) (fresh : Nat) (h : (akeys opr).Nodup) :
    (akeys (mergeStep impl sig2op cluster store merged opr sigr fresh).2.2.1).Nodup := by
  cases cluster with
  | nil => exact h
  | cons head rest =>
    unfold mergeStep
    simp only []
    rw [mergeStepFold_snd]
    exact nodup_akeys_upsertFoldG (fun _ => (impl.mergeOp store head rest fresh).2.2) _ _ h

/-- The sweep's replacement dict keys: bounded by the initial keys plus
the sweep list, and never losing a key. -/
theorem sweepLoop_opr_keys (impl : MergeImpl) (tc : Nat → List Nat)
    (sig2op : List (Nat × List Nat)) (mode : Bool) :
    ∀ (l : List Nat) (store : Store) (merged : List Nat) (opr : List (Nat × Nat))
      (sigr : List (Nat × Signal)) (fresh : Nat) (a : Nat),
      (a ∈ akeys (sweepLoop impl tc sig2op mode l store merged opr sigr fresh).2.2.1 →
        a ∈ akeys opr ∨ a ∈ l) ∧
      (a ∈ akeys opr →
        a ∈ akeys (sweepLoop impl tc sig2op mode l store merged opr sigr fresh).2.2.1) := by
  intro l
  induction l with
  | nil =>
    intro store merged opr sigr fresh a
    exact ⟨Or.inl, id⟩
  | cons op1 rest ih =>
    intro store merged opr sigr fresh a
    rw [sweepLoop]
    by_cases hskip : (decide (op1 ∈ merged) || (mode && (viewIndicesOf (getOp store op1)).isEmpty)) = true
    · rw [if_pos hskip]
      refine ⟨fun h => ?_, fun h => (ih store merged opr sigr fresh a).2 h⟩
      rcases (ih store merged opr sigr fresh a).1 h with h' | h'
      · exact Or.inl h'
      · exact Or.inr (List.mem_cons_of_mem _ h')
    · rw [if_neg hskip]
      by_cases hlen : (buildCluster impl store merged tc op1 (viewIndicesOf (getOp store op1)) rest).length > 1
      · rw [if_pos hlen]
        simp only []
        constructor
        · intro h
          rcases ((ih _ _ _ _ _ a).1 h) with h' | h'
          · rw [mem_akeys_mergeStep] at h'
            rcases h' with h'' | h''
            · exact Or.inl h''
            · rcases buildCluster_mem impl store merged tc op1 _ rest a h'' with he | he
              · exact Or.inr (he ▸ List.mem_cons_self _ _)
              · exact Or.inr (List.mem_cons_of_mem _ he.1)
          · exact Or.inr (List.mem_cons_of_mem _ h')
        · intro h
          exact (ih _ _ _ _ _ a).2 ((mem_akeys_mergeStep _ _ _ _ _ _ _ _ a).2 (Or.inl h))
      · rw [if_neg hlen]
        refine ⟨fun h => ?_, fun h => (ih store merged opr sigr fresh a).2 h⟩
        rcases (ih store merged opr sigr fresh a).1 h with h' | h'
        · exact Or.inl h'
        · exact Or.inr (List.mem_cons_of_mem _ h')

/-- The sweep keeps the replacement dict's keys duplicate-free. -/
theorem sweepLoop_opr_nodup (impl : MergeImpl) (tc : Nat → List Nat)
    (sig2op : List (Nat × List Nat)) (mode : Bool) :
    ∀ (l : List Nat) (store : Store) (merged : List Nat) (opr : List (Nat × Nat))
      (sigr : List (Nat × Signal)) (fresh : Nat),
      (akeys opr).Nodup →
      (akeys (sweepLoop impl tc sig2op mode l store merged opr sigr fresh).2.2.1).Nodup := by
  intro l
  induction l with
  | nil => intro _ _ opr _ _ h; exact h
  | cons op1 rest ih =>
    intro store merged opr sigr fresh h
    rw [sweepLoop]
    by_cases hskip : (decide (op1 ∈ merged) || (mode && (viewIndicesOf (getOp store op1)).isEmpty)) = true
    · rw [if_pos hskip]
      exact ih _ _ _ _ _ h
    · rw [if_neg hskip]
      by_cases hlen : (buildCluster impl store merged tc op1 (viewIndicesOf (getOp store op1)) rest).length > 1
      · rw [if_pos hlen]
        simp only []
        exact ih _ _ _ _ _ (nodup_akeys_mergeStep _ _ _ _ _ _ _ _ h)
      · rw [if_neg hlen]
        exact ih _ _ _ _ _ h

/-- `_perform_merges_for_subset` returns an `op_replacements` whose
keys are exactly the subset's elements. -/
theorem performMergesForSubset_opr_keys (impl : MergeImpl) (tc : Nat → List Nat)
    (sig2op : List (Nat × List Nat)) (subset : List Nat) (mode : Bool)
    (store : Store) (merged : List Nat) (fresh : Nat) (a : Nat) :
    a ∈ akeys (performMergesForSubset impl tc sig2op subset mode store merged fresh).1 ↔
      a ∈ subset := by
  unfold performMergesForSubset
  simp only []
  constructor
  · intro h
    rcases (sweepLoop_opr_keys impl tc sig2op mode _ _ _ _ _ _ a).1 h with h' | h'
    · have := (mem_akeys_upsertFoldG (fun x => x) subset [] a).1 h'
      simpa [akeys] using this
    · exact (mem_sortByKey _ _ _).1 h'
  · intro h
    refine (sweepLoop_opr_keys impl tc sig2op mode _ _ _ _ _ _ a).2 ?_
    exact (mem_akeys_upsertFoldG (fun x => x) subset [] a).2 (Or.inr h)

/-- `_perform_merges_for_subset` returns duplicate-free keys. -/
theorem performMergesForSubset_opr_nodup (impl : MergeImpl) (tc : Nat → List Nat)
    (sig2op : List (Nat × List Nat)) (subset : List Nat) (mode : Bool)
    (store : Store) (merged : List Nat) (fresh : Nat) :
    (akeys (performMergesForSubset impl tc sig2op subset mode store merged fresh).1).Nodup := by
  unfold performMergesForSubset
  simp only []
  exact sweepLoop_opr_nodup impl tc sig2op mode _ _ _ _ _ _
    (nodup_akeys_upsertFoldG (fun x => x) subset [] (by simp [akeys]))

/-- All operators contained in a family of kind buckets. -/
def bucketElems : List (Nat × List Nat) → List Nat
  | [] => []
  | p :: rest => p.2 ++ bucketElems rest

theorem akeys_aremove {α : Type} (m : List (Nat × α)) (k : Nat) :
    akeys (aremove m k) = (akeys m).filter (fun a => decide (a ≠ k)) := by
  induction m with
  | nil => rfl
  | cons p rest ih =>
    simp only [aremove, akeys, List.filter_cons, List.map_cons]
    by_cases hp : (decide (p.1 ≠ k)) = true
    · rw [if_pos hp, if_pos hp]
      simp only [List.map_cons]
      rw [show List.map (fun x => x.1) (List.filter (fun q => decide (q.1 ≠ k)) rest) =
        akeys (aremove rest k) from rfl, ih]
      rfl
    · rw [if_neg hp, if_neg hp]
      rw [show List.map (fun x => x.1) (List.filter (fun q => decide (q.1 ≠ k)) rest) =
        akeys (aremove rest k) from rfl, ih]
      rfl

theorem nodup_akeys_aremove {α : Type} (m : List (Nat × α)) (k : Nat)
    (h : (akeys m).Nodup) : (akeys (aremove m k)).Nodup := by
  rw [akeys_aremove]
  exact h.filter _

theorem aremove_of_not_mem {α : Type} (m : List (Nat × α)) (k : Nat)
    (h : k ∉ akeys m) : aremove m k = m := by
  induction m with
  | nil => rfl
  | cons p rest ih =>
    simp only [akeys, List.map_cons, List.mem_cons, not_or] at h
    have hp : (decide (p.1 ≠ k)) = true := by
      simp only [decide_eq_true_eq]
      exact fun he => h.1 he.symm
    simp only [aremove, List.filter_cons, hp, if_pos]
    rw [show List.filter (fun p => decide (p.1 ≠ k)) rest = aremove rest k from rfl]
    rw [ih h.2]

/-- Splitting a bucket family at one key (under duplicate-free keys):
its elements are the key's bucket plus the remaining buckets'. -/
theorem mem_bucketElems_split (bt : List (Nat × List Nat)) (tp : Nat) (a : Nat)
    (hnd : (akeys bt).Nodup) :
    a ∈ bucketElems bt ↔ a ∈ (alookup bt tp).getD [] ∨ a ∈ bucketElems (aremove bt tp) := by
  induction bt with
  | nil => simp [bucketElems, aremove, alookup]
  | cons p rest ih =>
    simp only [akeys, List.map_cons, List.nodup_cons] at hnd
    by_cases hp : p.1 = tp
    · subst hp
      have hlook : alookup (p :: rest) p.1 = some p.2 := by simp [alookup]
      have hrem : aremove (p :: rest) p.1 = aremove rest p.1 := by
        simp [aremove, List.filter_cons]
      rw [hlook, hrem, aremove_of_not_mem rest p.1 hnd.1]
      simp only [Option.getD_some, bucketElems, List.mem_append]
    · have hlook : alookup (p :: rest) tp = alookup rest tp := by simp [alookup, hp]
      have hrem : aremove (p :: rest) tp = p :: aremove rest tp := by
        simp [aremove, List.filter_cons, hp]
      rw [hlook, hrem]
      simp only [bucketElems, List.mem_append]
      rw [ih hnd.2]
      tauto

/-- Appending an operator to its kind bucket adds exactly that
operator to the family's elements. -/
theorem mem_bucketElems_upsertAppend (m : List (Nat × List Nat)) (k : Nat) (op a : Nat) :
    a ∈ bucketElems (upsert m k ((alookup m k).getD [] ++ [op])) ↔
      a ∈ bucketElems m ∨ a = op := by
  induction m with
  | nil => simp [upsert, bucketElems, alookup]
  | cons p rest ih =>
    by_cases hp : p.1 = k
    · subst hp
      have hlook : alookup (p :: rest) p.1 = some p.2 := by simp [alookup]
      rw [hlook]
      have hups : upsert (p :: rest) p.1 ((some p.2).getD [] ++ [op]) =
          (p.1, p.2 ++ [op]) :: rest := by simp [upsert]
      rw [hups]
      simp only [bucketElems, List.mem_append, List.mem_singleton]
      tauto
    · have hlook : alookup (p :: rest) k = alookup rest k := by simp [alookup, hp]
      rw [hlook]
      have hups : upsert (p :: rest) k ((alookup rest k).getD [] ++ [op]) =
          p :: upsert rest k ((alookup rest k).getD [] ++ [op]) := by simp [upsert, hp]
      rw [hups]
      simp only [bucketElems, List.mem_append]
      rw [ih]
      tauto

/-- The kind buckets contain exactly the bucketed operators. -/
theorem mem_bucketElems_opsByType (store : Store) (order : List Nat) (a : Nat) :
    a ∈ bucketElems (opsByType store order) ↔ a ∈ order := by
  suffices h : ∀ (acc : List (Nat × List Nat)),
      a ∈ bucketElems (order.foldl (fun acc op =>
        let k := (getOp store op).kind
        upsert acc k ((alookup acc k).getD [] ++ [op])) acc) ↔
        a ∈ bucketElems acc ∨ a ∈ order by
    rw [opsByType, h []]
    simp [bucketElems]
  intro acc
  induction order generalizing acc with
  | nil => simp
  | cons op rest ih =>
    simp only [List.foldl_cons]
    rw [ih _]
    rw [mem_bucketElems_upsertAppend]
    simp only [List.mem_cons]
    tauto

theorem nodup_akeys_opsByType (store : Store) (order : List Nat) :
    (akeys (opsByType store order)).Nodup := by
  suffices h : ∀ (acc : List (Nat × List Nat)), (akeys acc).Nodup →
      (akeys (order.foldl (fun acc op =>
        let k := (getOp store op).kind
        upsert acc k ((alookup acc k).getD [] ++ [op])) acc)).Nodup by
    exact h [] (by simp [akeys])
  intro acc
  induction order generalizing acc with
  | nil => intro h; exact h
  | cons op rest ih =>
    intro h
    simp only [List.foldl_cons]
    exact ih _ (nodup_akeys_upsert _ _ _ h)

/-- The heuristic loop conserves the operators: everything starts in a
bucket or in the accumulated replacement dict, and ends in a remaining
bucket or in the dict. -/
theorem heuristicLoop_keys (impl : MergeImpl) (tc : Nat → List Nat)
    (sig2op : List (Nat × List Nat)) (mode : Bool) :
    ∀ (tps : List Nat) (byType : List (Nat × List Nat)) (ps : PassSt) (lastLen : Nat)
      (a : Nat), (akeys byType).Nodup →
      ((a ∈ akeys (heuristicLoop impl tc sig2op mode tps byType ps lastLen).2.1.oprAcc ∨
        a ∈ bucketElems (heuristicLoop impl tc sig2op mode tps byType ps lastLen).1) ↔
       (a ∈ akeys ps.oprAcc ∨ a ∈ bucketElems byType)) := by
  intro tps
  induction tps with
  | nil =>
    intro byType ps lastLen a _
    rw [heuristicLoop]
  | cons tp tps' ih =>
    intro byType ps lastLen a hnd
    simp only [heuristicLoop]
    have hsplit := mem_bucketElems_split byType tp a hnd
    have hsubkeys := performMergesForSubset_opr_keys impl tc sig2op
      ((alookup byType tp).getD []) mode ps.store ps.merged ps.fresh a
    split
    · simp only []
      rw [mem_akeys_updateAList, hsubkeys, hsplit]
      tauto
    · rw [ih (aremove byType tp) _ _ a (nodup_akeys_aremove _ _ hnd)]
      simp only []
      rw [mem_akeys_updateAList, hsubkeys, hsplit]
      tauto

/-- The heuristic loop keeps the replacement dict's keys
duplicate-free. -/
theorem heuristicLoop_opr_nodup (impl : MergeImpl) (tc : Nat → List Nat)
    (sig2op : List (Nat × List Nat)) (mode : Bool) :
    ∀ (tps : List Nat) (byType : List (Nat × List Nat)) (ps : PassSt) (lastLen : Nat),
      (akeys ps.oprAcc).Nodup →
      (akeys (heuristicLoop impl tc sig2op mode tps byType ps lastLen).2.1.oprAcc).Nodup := by
  intro tps
  induction tps with
  | nil =>
    intro byType ps lastLen h
    exact h
  | cons tp tps' ih =>
    intro byType ps lastLen h
    simp only [heuristicLoop]
    split
    · exact nodup_akeys_updateAList _ _ h
    · exact ih _ _ _ (nodup_akeys_updateAList _ _ h)

/-- The remaining-kinds loop moves every bucketed operator into the
replacement dict (by merging or identity). -/
theorem remainingLoop_keys (impl : MergeImpl) (tc : Nat → List Nat)
    (sig2op : List (Nat × List Nat)) (mode : Bool) :
    ∀ (l : List (Nat × List Nat)) (ps : PassSt) (lastLen : Nat) (a : Nat),
      a ∈ akeys (remainingLoop impl tc sig2op mode l ps lastLen).1.oprAcc ↔
        a ∈ akeys ps.oprAcc ∨ a ∈ bucketElems l := by
  intro l
  induction l with
  | nil =>
    intro ps lastLen a
    rw [remainingLoop]
    simp [bucketElems]
  | cons p rest ih =>
    intro ps lastLen a
    cases p with
    | mk tp subset =>
      simp only [remainingLoop, bucketElems, List.mem_append]
      split
      · rw [ih _ _ a]
        simp only []
        rw [mem_akeys_updateAList,
          performMergesForSubset_opr_keys impl tc sig2op subset mode ps.store ps.merged
            ps.fresh a]
        tauto
      · rw [ih _ _ a]
        simp only []
        rw [mem_akeys_upsertFoldG (fun x => x) subset ps.oprAcc a]
        tauto

/-- The remaining-kinds loop keeps the replacement dict's keys
duplicate-free. -/
theorem remainingLoop_opr_nodup (impl : MergeImpl) (tc : Nat → List Nat)
    (sig2op : List (Nat × List Nat)) (mode : Bool) :
    ∀ (l : List (Nat × List Nat)) (ps : PassSt) (lastLen : Nat),
      (akeys ps.oprAcc).Nodup →
      (akeys (remainingLoop impl tc sig2op mode l ps lastLen).1.oprAcc).Nodup := by
  intro l
  induction l with
  | nil =>
    intro ps lastLen h
    exact h
  | cons p rest ih =>
    intro ps lastLen h
    cases p with
    | mk tp subset =>
      simp only [remainingLoop]
      split
      · exact ih _ _ (nodup_akeys_updateAList _ _ h)
      · exact ih _ _ (nodup_akeys_upsertFoldG (fun x => x) subset ps.oprAcc h)

/-- `_perform_merges` returns an `op_replacements` keyed by exactly the
operators of the dependency graph — the domain Python's
`self.dg[op]` / `op_replacements[x]` lookups in `_update_dg` rely on. -/
theorem performMerges_opr_keys (impl : MergeImpl) (mode : Bool) (store : Store)
    (dg : DepGraph) (fresh : Nat) (a : Nat) :
    a ∈ akeys (performMerges impl mode store dg fresh).1 ↔ a ∈ akeys dg := by
  unfold performMerges
  simp only []
  rw [remainingLoop_keys]
  have hh := heuristicLoop_keys impl (descendants dg) (buildSig2Op store dg) mode
    heuristicKinds (opsByType store (toposortIds dg))
    ⟨store, [], [], [], fresh⟩ 0 a (nodup_akeys_opsByType store (toposortIds dg))
  rw [or_comm] at hh
  rw [or_comm, hh]
  simp only [akeys, List.map_nil, List.not_mem_nil, false_or]
  rw [mem_bucketElems_opsByType, toposortIds, mem_sortByKey]
  rfl

/-- `_perform_merges` returns duplicate-free `op_replacements` keys. -/
theorem performMerges_opr_nodup (impl : MergeImpl) (mode : Bool) (store : Store)
    (dg : DepGraph) (fresh : Nat) :
    (akeys (performMerges impl mode store dg fresh).1).Nodup := by
  unfold performMerges
  simp only []
  apply remainingLoop_opr_nodup
  apply heuristicLoop_opr_nodup
  simp [akeys]

/-- C2, amended: for every edge `a → b` of the dependency graph at the
start of a pass, the rewritten graph after the pass contains the edge
`rep(a) → rep(b)` under that pass's operator-replacement map — so the
pre-merge topological order is preserved.  When `rep(a) = rep(b)` the
resulting self-loop is *retained* in the rewritten graph, not dropped
(`_update_dg` adds `op_replacements[x]` unconditionally). -/
theorem C2_pass_preserves_edges :
    ∀ (impl : MergeImpl) (mode : Bool) (st : OptState) (a b : Nat),
      a ∈ akeys st.dg → b ∈ akeys st.dg → edgeIn st.dg a b →
      edgeIn (performSinglePass impl mode st).dg
        ((alookup (performMerges impl mode st.store st.dg st.fresh).1 a).getD a)
        ((alookup (performMerges impl mode st.store st.dg st.fresh).1 b).getD b) := by
  intro impl mode st a b ha _hb hedge
  have hmem : a ∈ akeys (performMerges impl mode st.store st.dg st.fresh).1 :=
    (performMerges_opr_keys impl mode st.store st.dg st.fresh a).2 ha
  obtain ⟨ra, hra⟩ := Option.isSome_iff_exists.1 (alookup_isSome_of_mem _ _ hmem)
  rw [hra]
  show edgeIn (updateDg (performMerges impl mode st.store st.dg st.fresh).1 st.dg)
    ((some ra).getD a) _
  simp only [Option.getD_some]
  exact updateDg_preserves_edges _ _ a b ra hra hedge

/-- The C2 concrete scenario: three same-kind operators with no
signals, dependency `11 → 12`. -/
def storeC2 : Store := [(10, opC1), (11, opC1), (12, opC1)]

/-- The C2 dependency graph. -/
def dgC2 : DepGraph := [(10, []), (11, [12]), (12, [])]

/-- The C2 optimizer state. -/
def stC2 : OptState := ⟨storeC2, dgC2, [], 100⟩

/-- C2, counterexample: in the non-view pass over `stC2`, operators 11
and 12 are fused into the same operator (100), so the source edge
`11 → 12` maps to the self-loop `100 → 100` — which the rewritten graph
*contains* rather than drops, refuting "a self-loop arising when
`rep(a) = rep(b)` is dropped". -/
theorem C2_counterexample :
    edgeIn stC2.dg 11 12 ∧
    alookup (performMerges implC1 false stC2.store stC2.dg stC2.fresh).1 11 = some 100 ∧
    alookup (performMerges implC1 false stC2.store stC2.dg stC2.fresh).1 12 = some 100 ∧
    (performSinglePass implC1 false stC2).dg = [(100, [100])] ∧
    edgeIn (performSinglePass implC1 false stC2).dg 100 100 := by
  exact ⟨by decide, rfl, rfl, rfl, by decide⟩

/-- C2 witness: the amended theorem applied to the concrete pass and
the edge `11 → 12`. -/
theorem C2_pass_preserves_edges_witness :
    edgeIn (performSinglePass implC1 false stC2).dg
      ((alookup (performMerges implC1 false stC2.store stC2.dg stC2.fresh).1 11).getD 11)
      ((alookup (performMerges implC1 false stC2.store stC2.dg stC2.fresh).1 12).getD 12) :=
  C2_pass_preserves_edges implC1 false stC2 11 12 (by decide) (by decide) (by decide)

theorem mem_of_alookup_isSome {α : Type} (m : List (Nat × α)) (k : Nat)
    (h : (alookup m k).isSome) : k ∈ akeys m := by
  induction m with
  | nil => simp [alookup] at h
  | cons p rest ih =>
    by_cases hp : p.1 = k
    · simp [akeys, hp]
    · rw [alookup, if_neg hp] at h
      simp only [akeys, List.map_cons, List.mem_cons]
      exact Or.inr (ih h)

/-- The inner fold of `_update_dg` does not change the key set (the
key it touches is already present). -/
theorem updateDgInner_keys (opr : List (Nat × Nat)) (rep : Nat) (xs : List Nat)
    (acc : DepGraph) (h : rep ∈ akeys acc) :
    akeys (xs.foldl (fun acc2 x =>
      upsert acc2 rep (insertId ((alookup acc2 rep).getD []) ((alookup opr x).getD x))) acc) =
    akeys acc := by
  induction xs generalizing acc with
  | nil => rfl
  | cons x rest ih =>
    simp only [List.foldl_cons]
    rw [ih _ (by rw [akeys_upsert_of_mem _ _ _ h]; exact h)]
    exact akeys_upsert_of_mem _ _ _ h

/-- Keys of the `_update_dg` fold: duplicate-free, and contained in the
initial keys together with the replacement values. -/
theorem updateDg_fold_keys (opr : List (Nat × Nat)) (dg : DepGraph) :
    ∀ (l : List (Nat × Nat)) (acc : DepGraph), (akeys acc).Nodup →
      (akeys (l.foldl (fun acc p =>
        ((alookup dg p.1).getD []).foldl (fun acc2 x =>
          upsert acc2 p.2 (insertId ((alookup acc2 p.2).getD []) ((alookup opr x).getD x)))
          (if (alookup acc p.2).isSome then acc else acc ++ [(p.2, [])])) acc)).Nodup ∧
      (∀ a, a ∈ akeys (l.foldl (fun acc p =>
        ((alookup dg p.1).getD []).foldl (fun acc2 x =>
          upsert acc2 p.2 (insertId ((alookup acc2 p.2).getD []) ((alookup opr x).getD x)))
          (if (alookup acc p.2).isSome then acc else acc ++ [(p.2, [])])) acc) →
        a ∈ akeys acc ∨ a ∈ l.map (·.2)) := by
  intro l
  induction l with
  | nil =>
    intro acc hnd
    exact ⟨hnd, fun a ha => Or.inl ha⟩
  | cons p rest ih =>
    intro acc hnd
    simp only [List.foldl_cons]
    have hacc1 : ∀ (b : DepGraph), b = (if (alookup acc p.2).isSome then acc
        else acc ++ [(p.2, [])]) →
        (akeys b).Nodup ∧ p.2 ∈ akeys b ∧ (∀ a, a ∈ akeys b → a ∈ akeys acc ∨ a = p.2) := by
      intro b hb
      by_cases hs : (alookup acc p.2).isSome
      · rw [if_pos hs] at hb
        subst hb
        exact ⟨hnd, mem_of_alookup_isSome _ _ hs, fun a ha => Or.inl ha⟩
      · rw [if_neg hs] at hb
        subst hb
        have hnotmem : p.2 ∉ akeys acc := by
          intro hmem
          exact hs (alookup_isSome_of_mem _ _ hmem)
        constructor
        · rw [show akeys (acc ++ [(p.2, [])]) = akeys acc ++ [p.2] by simp [akeys]]
          rw [List.nodup_append]
          exact ⟨hnd, List.nodup_singleton _, by
            intro a ha hb
            rw [List.mem_singleton] at hb
            exact hnotmem (hb ▸ ha)⟩
        constructor
        · simp [akeys]
        · intro a ha
          rw [show akeys (acc ++ [(p.2, [])]) = akeys acc ++ [p.2] by simp [akeys]] at ha
          rcases List.mem_append.1 ha with h | h
          · exact Or.inl h
          · exact Or.inr (List.mem_singleton.1 h)
    obtain ⟨hnd1, hmem1, hsub1⟩ := hacc1 _ rfl
    have hkeys := updateDgInner_keys opr p.2 ((alookup dg p.1).getD []) _ hmem1
    constructor
    · exact (ih _ (by rw [hkeys]; exact hnd1)).1
    · intro a ha
      rcases (ih _ (by rw [hkeys]; exact hnd1)).2 a ha with h | h
      · rw [hkeys] at h
        rcases hsub1 a h with h' | h'
        · exact Or.inl h'
        · exact Or.inr (by simp [h'])
      · right
        simp only [List.map_cons, List.mem_cons]
        exact Or.inr h

/-- `_update_dg` produces at most as many operators as the replacement
dict has entries. -/
theorem updateDg_length_le (opr : List (Nat × Nat)) (dg : DepGraph) :
    (updateDg opr dg).length ≤ opr.length := by
  have h := updateDg_fold_keys opr dg opr [] (by simp [akeys])
  have hlen : (updateDg opr dg).length = (akeys (updateDg opr dg)).length := by
    simp [akeys]
  rw [hlen]
  have hnd : (akeys (updateDg opr dg)).Nodup := h.1
  have hsub : ∀ a, a ∈ akeys (updateDg opr dg) → a ∈ opr.map (·.2) := by
    intro a ha
    rcases h.2 a ha with h' | h'
    · simp [akeys] at h'
    · exact h'
  calc (akeys (updateDg opr dg)).length
      = (akeys (updateDg opr dg)).toFinset.card := (List.toFinset_card_of_nodup hnd).symm
    _ ≤ (opr.map (·.2)).toFinset.card := by
        apply Finset.card_le_card
        intro a ha
        rw [List.mem_toFinset] at ha ⊢
        exact hsub a ha
    _ ≤ (opr.map (·.2)).length := List.toFinset_card_le _
    _ = opr.length := List.length_map _ _

/-- C3 core: a single pass never increases the number of operators. -/
theorem pass_length_le (impl : MergeImpl) (mode : Bool) (st : OptState) :
    (performSinglePass impl mode st).dg.length ≤ st.dg.length := by
  show (updateDg (performMerges impl mode st.store st.dg st.fresh).1 st.dg).length ≤ _
  have h1 := updateDg_length_le (performMerges impl mode st.store st.dg st.fresh).1 st.dg
  have h2 : (performMerges impl mode st.store st.dg st.fresh).1.length ≤ st.dg.length := by
    have hlen1 : (performMerges impl mode st.store st.dg st.fresh).1.length =
        (akeys (performMerges impl mode st.store st.dg st.fresh).1).length := by
      simp [akeys]
    rw [hlen1]
    have hnd := performMerges_opr_nodup impl mode st.store st.dg st.fresh
    have hset : (akeys (performMerges impl mode st.store st.dg st.fresh).1).toFinset =
        (akeys st.dg).toFinset := by
      apply Finset.ext
      intro a
      rw [List.mem_toFinset, List.mem_toFinset]
      exact performMerges_opr_keys impl mode st.store st.dg st.fresh a
    calc (akeys (performMerges impl mode st.store st.dg st.fresh).1).length
        = (akeys (performMerges impl mode st.store st.dg st.fresh).1).toFinset.card :=
          (List.toFinset_card_of_nodup hnd).symm
      _ = (akeys st.dg).toFinset.card := by rw [hset]
      _ ≤ (akeys st.dg).length := List.toFinset_card_le _
      _ = st.dg.length := by simp [akeys]
  omega

/-- C3 termination core: fuel `2 * len(dg) + 3` always suffices for the
driver loop, whatever the pass decisions — every pass is
non-increasing, a stalled pass forces a non-view pass next, and a
stalled non-view pass exits the loop. -/
theorem optLoop_isSome (impl : MergeImpl) :
    ∀ (n : Nat) (fuel : Nat) (st : OptState) (before after : Option Nat) (omowv : Bool)
      (trace : List (Bool × Nat × Nat)),
      st.dg.length = n → 2 * n + 3 ≤ fuel →
      (optLoop impl fuel st before after omowv trace).isSome := by
  intro n
  induction n using Nat.strong_induction_on with
  | _ n ih =>
    intro fuel st before after omowv trace hlen hfuel
    obtain ⟨f1, rfl⟩ : ∃ f1, fuel = f1 + 1 := ⟨fuel - 1, by omega⟩
    rw [optLoop]
    split
    next hcond =>
      set m1 := (before.isNone || decide (before ≠ after)) with hm1
      set st1 := performSinglePass impl m1 st with hst1
      have hle1 : st1.dg.length ≤ n := hlen ▸ pass_length_le impl m1 st
      by_cases hlt : st1.dg.length < n
      · exact ih _ hlt f1 _ _ _ _ _ rfl (by omega)
      · have heq1 : st1.dg.length = n := by omega
        obtain ⟨f2, rfl⟩ : ∃ f2, f1 = f2 + 1 := ⟨f1 - 1, by omega⟩
        rw [optLoop]
        split
        next hcond2 =>
          set m2 := ((some st.dg.length).isNone ||
            decide ((some st.dg.length : Option Nat) ≠ some st1.dg.length)) with hm2
          set st2 := performSinglePass impl m2 st1 with hst2
          have hle2 : st2.dg.length ≤ n := heq1 ▸ pass_length_le impl m2 st1
          by_cases hlt2 : st2.dg.length < n
          · exact ih _ hlt2 f2 _ _ _ _ _ rfl (by omega)
          · have heq2 : st2.dg.length = n := by omega
            obtain ⟨f3, rfl⟩ : ∃ f3, f2 = f3 + 1 := ⟨f2 - 1, by omega⟩
            rw [optLoop]
            split
            next hcond3 =>
              exfalso
              have hmode2 : m2 = false := by
                rw [hm2]
                simp only [Option.isNone_some, Bool.false_or, decide_eq_false_iff_not,
                  ne_eq, Option.some.injEq, not_not]
                omega
              have hlt3 : optLt (some st2.dg.length) (some st1.dg.length) = false := by
                simp only [optLt, decide_eq_false_iff_not]
                omega
              rw [hmode2, hlt3] at hcond3
              simp at hcond3
            next => simp
        next => simp
    next => simp

/-- Per-pass records `(mode, before, after)` are chained: each pass is
non-increasing (`after ≤ before`) and the next pass starts from the
previous pass's result (`before' = after`). -/
def chainedProp : List (Bool × Nat × Nat) → Prop
  | [] => True
  | [r] => r.2.2 ≤ r.2.1
  | r :: r' :: rest => r.2.2 ≤ r.2.1 ∧ r'.2.1 = r.2.2 ∧ chainedProp (r' :: rest)

theorem chainedProp_append :
    ∀ (pre : List (Bool × Nat × Nat)) (r r' : Bool × Nat × Nat),
      chainedProp (pre ++ [r]) → r'.2.1 = r.2.2 → r'.2.2 ≤ r'.2.1 →
      chainedProp (pre ++ [r, r']) := by
  intro pre
  induction pre with
  | nil =>
    intro r r' h1 h2 h3
    exact ⟨h1, h2, h3⟩
  | cons x rest ih =>
    intro r r' h1 h2 h3
    cases rest with
    | nil =>
      obtain ⟨hx, hl, hr⟩ := h1
      exact ⟨hx, hl, ih r r' hr h2 h3⟩
    | cons y rest' =>
      obtain ⟨hx, hl, hrest⟩ := h1
      exact ⟨hx, hl, ih r r' hrest h2 h3⟩

/-- C3 trace core: when the driver loop finishes from a state whose
parameters are consistent with the trace so far, the final trace is
chained and ends with a stalled views pass immediately followed by the
stalled non-view pass that triggers the exit. -/
theorem optLoop_trace_main (impl : MergeImpl) :
    ∀ (fuel : Nat) (st : OptState) (bb aa : Nat) (omowv : Bool)
      (trace : List (Bool × Nat × Nat)) (st' : OptState) (tr' : List (Bool × Nat × Nat)),
      optLoop impl fuel st (some bb) (some aa) omowv trace = some (st', tr') →
      aa = st.dg.length → aa ≤ bb →
      (∃ pre, trace = pre ++ [(omowv, bb, aa)]) →
      (omowv = false → ∃ pre2, trace = pre2 ++ [(true, bb, bb), (false, bb, aa)]) →
      chainedProp trace →
      chainedProp tr' ∧ ∃ pre3 c, tr' = pre3 ++ [(true, c, c), (false, c, c)] := by
  intro fuel
  induction fuel with
  | zero =>
    intro st bb aa omowv trace st' tr' h
    cases h
  | succ f ih =>
    intro st bb aa omowv trace st' tr' h haa hle hI3 hI4 hchain
    rw [optLoop] at h
    split at h
    next hcond =>
      by_cases hbe : bb = aa
      · -- the previous pass stalled: the pass now taken runs in non-view mode
        subst hbe
        have homowv : omowv = true := by
          cases omowv with
          | false =>
            exfalso
            rw [Bool.false_or] at hcond
            have hopt : optLt (some bb) (some bb) = decide (bb < bb) := rfl
            rw [hopt] at hcond
            simp at hcond
          | true => rfl
        have hm : ((some bb : Option Nat).isNone ||
            decide ((some bb : Option Nat) ≠ some bb)) = false := by simp
        rw [hm] at h
        obtain ⟨pre, hpre⟩ := hI3
        refine ih _ _ _ _ _ _ _ h rfl (pass_length_le impl false st) ⟨trace, rfl⟩
          (fun _ => ⟨pre, ?_⟩) ?_
        · rw [hpre, homowv, haa, List.append_assoc]
          rfl
        · rw [hpre, List.append_assoc]
          show chainedProp (pre ++ [(omowv, bb, bb),
            (false, st.dg.length, (performSinglePass impl false st).dg.length)])
          exact chainedProp_append pre (omowv, bb, bb)
            (false, st.dg.length, (performSinglePass impl false st).dg.length)
            (hpre ▸ hchain) haa.symm (pass_length_le impl false st)
      · -- the previous pass progressed: the pass now taken is a views pass
        have hm : ((some bb : Option Nat).isNone ||
            decide ((some bb : Option Nat) ≠ some aa)) = true := by simp [hbe]
        rw [hm] at h
        obtain ⟨pre, hpre⟩ := hI3
        refine ih _ _ _ _ _ _ _ h rfl (pass_length_le impl true st) ⟨trace, rfl⟩
          (fun hft => by cases hft) ?_
        rw [hpre, List.append_assoc]
        show chainedProp (pre ++ [(omowv, bb, aa),
          (true, st.dg.length, (performSinglePass impl true st).dg.length)])
        exact chainedProp_append pre (omowv, bb, aa)
          (true, st.dg.length, (performSinglePass impl true st).dg.length)
          (hpre ▸ hchain) haa.symm (pass_length_le impl true st)
    next hcond =>
      cases h
      have homowv : omowv = false := by
        cases omowv with
        | false => rfl
        | true =>
          exfalso
          exact hcond (by simp)
      rw [homowv, Bool.false_or] at hcond
      have hopt : optLt (some aa) (some bb) = decide (aa < bb) := rfl
      rw [hopt] at hcond
      have heq : aa = bb := by
        simp only [decide_eq_true_eq] at hcond
        omega
      obtain ⟨pre2, hpre2⟩ := hI4 homowv
      subst heq
      exact ⟨hchain, pre2, aa, hpre2⟩

/-- The driver's completed trace is chained and ends with a stalled
views pass followed by the stalled non-view pass that exits the loop. -/
theorem optimize_trace_shape (impl : MergeImpl) (st st' : OptState)
    (tr : List (Bool × Nat × Nat)) (h : optimize impl st = some (st', tr)) :
    chainedProp tr ∧ ∃ pre c, tr = pre ++ [(true, c, c), (false, c, c)] := by
  unfold optimize at h
  rw [show 2 * st.dg.length + 3 = (2 * st.dg.length + 2) + 1 from rfl, optLoop] at h
  split at h
  next hcond =>
    have hm : ((none : Option Nat).isNone || decide ((none : Option Nat) ≠ none)) =
        true := by simp
    rw [hm] at h
    exact optLoop_trace_main impl _ _ _ _ _ _ _ _ h rfl (pass_length_le impl true st)
      ⟨[], rfl⟩ (fun hf => by cases hf) (pass_length_le impl true st)
  next hcond =>
    exact absurd (by simp : (true || optLt none none) = true) hcond

/-- C3, amended: the number of operators (`len(DG)`) never increases
from one pass to the next, and the driver's pass loop terminates on
every finite input dependency graph; it stops once a *views* pass
followed by a *non-view* pass fails to reduce the graph size — the run
always ends with a stalled views pass `(True, c, c)` immediately
followed by the stalled non-view pass `(False, c, c)` that triggers the
exit (not, as claimed, with a non-view pass followed by a views
pass). -/
theorem C3_monotone_terminating :
    (∀ (impl : MergeImpl) (mode : Bool) (st : OptState),
      (performSinglePass impl mode st).dg.length ≤ st.dg.length) ∧
    (∀ (impl : MergeImpl) (st : OptState), (optimize impl st).isSome = true) ∧
    (∀ (impl : MergeImpl) (st st' : OptState) (tr : List (Bool × Nat × Nat)),
      optimize impl st = some (st', tr) →
      chainedProp tr ∧ ∃ pre c, tr = pre ++ [(true, c, c), (false, c, c)]) := by
  refine ⟨pass_length_le, ?_, ?_⟩
  · intro impl st
    exact optLoop_isSome impl st.dg.length (2 * st.dg.length + 3) st none none true []
      rfl (le_refl _)
  · intro impl st st' tr h
    exact optimize_trace_shape impl st st' tr h

/-- The trivial optimizer state for the C3 concrete run. -/
def stC3 : OptState := ⟨[], [], [], 0⟩

/-- C3, counterexample: on a concrete input the driver executes exactly
two passes — a views pass, then a *non-view* pass — and stops after the
non-view pass fails to reduce the graph size.  The final executed pass
has mode `False` and no views pass follows it, so the driver does not
stop "once a non-view pass followed by a views pass fails to reduce the
graph size": the modes in the stopping configuration are the other way
round. -/
theorem C3_counterexample :
    optimize implC1 stC3 = some (⟨[], [], [], 0⟩, [(true, 0, 0), (false, 0, 0)]) ∧
    (([(true, 0, 0), (false, 0, 0)] : List (Bool × Nat × Nat)).getLast?.map
      (fun r => r.1)) = some false :=
  ⟨rfl, rfl⟩

/-- C3 witness: the amended theorem's trace characterization applied to
the concrete completed run. -/
theorem C3_monotone_terminating_witness :
    chainedProp [(true, 0, 0), (false, 0, 0)] ∧
    ∃ pre c, [(true, 0, 0), (false, 0, 0)] =
      pre ++ [(true, c, c), (false, c, c)] :=
  C3_monotone_terminating.2.2 implC1 stC3 ⟨[], [], [], 0⟩ [(true, 0, 0), (false, 0, 0)] rfl

/-- `_map_onto_op_signals` rewrites operators in place: the heap's key
set (the set of operator objects) is unchanged. -/
theorem mapOpSignals_keys (f : Signal → Signal) :
    ∀ (ops : List Nat) (store : Store), akeys (mapOpSignals f ops store) = akeys store := by
  intro ops
  induction ops with
  | nil => intro store; rfl
  | cons opId rest ih =>
    intro store
    rw [mapOpSignals, List.foldl_cons]
    cases hl : alookup store opId with
    | none => exact ih store
    | some d =>
      have hmem : opId ∈ akeys store := mem_of_alookup_isSome _ _ (by rw [hl]; rfl)
      exact (ih (upsert store opId
        { d with attrs := d.attrs.map f, sets := d.sets.map f, incs := d.incs.map f,
                 reads := d.reads.map f, updates := d.updates.map f })).trans
        (akeys_upsert_of_mem _ _ _ hmem)

/-- `_map_onto_op_signals` only touches the listed operators. -/
theorem mapOpSignals_frame (f : Signal → Signal) :
    ∀ (ops : List Nat) (store : Store) (i : Nat), i ∉ ops →
      alookup (mapOpSignals f ops store) i = alookup store i := by
  intro ops
  induction ops with
  | nil => intro store i _; rfl
  | cons opId rest ih =>
    intro store i hi
    simp only [List.mem_cons, not_or] at hi
    rw [mapOpSignals, List.foldl_cons]
    cases hl : alookup store opId with
    | none => exact ih store i hi.2
    | some d =>
      exact (ih (upsert store opId
        { d with attrs := d.attrs.map f, sets := d.sets.map f, incs := d.incs.map f,
                 reads := d.reads.map f, updates := d.updates.map f }) i hi.2).trans
        (alookup_upsert_ne _ _ _ _ hi.1)

/-- C10, amended: a Signal's `initial_value` cannot be reassigned (the
property setter unconditionally raises `SignalError`), and the rewrite
step neither creates nor deletes operator objects and leaves operators
outside `op_replacements.values()` untouched; *but* the surviving
operators are mutated in place — `_map_onto_op_signals` reassigns their
`sets`/`incs`/`reads`/`updates` lists and `Signal`-valued attributes on
the existing objects (see the counterexample) — and `Signal.readonly`
(like `name`) has an ordinary mutating setter. -/
theorem C10_mutation_frame :
    (∀ (s : Signal) (v : NDArray),
      Signal.setInitialValue s v =
        .error "Cannot change initial value after initialization") ∧
    (∀ (sigr : List (Nat × Signal)) (ops : List Nat) (store : Store),
      akeys (replaceOpSignals sigr ops store) = akeys store) ∧
    (∀ (sigr : List (Nat × Signal)) (ops : List Nat) (store : Store) (i : Nat),
      i ∉ ops → alookup (replaceOpSignals sigr ops store) i = alookup store i) ∧
    (∀ (s : Signal) (b : Bool),
      (Signal.setReadonly s b).readonly = b ∧ (Signal.setReadonly s b).sid = s.sid) := by
  refine ⟨fun _ _ => rfl, ?_, ?_, fun s b => ⟨rfl, rfl⟩⟩
  · intro sigr ops store
    exact mapOpSignals_keys (replaceSig sigr) ops store
  · intro sigr ops store i hi
    exact mapOpSignals_frame (replaceSig sigr) ops store i hi

/-- The C10 concrete operator: object 7 with one signal (sid 31) in
`sets`. -/
def sigC10 : Signal := ⟨31, ⟨dtC8, [2], [8], 0, bufC8⟩, false, none⟩

/-- The replacement signal (sid 99). -/
def vC10 : Signal := ⟨99, ⟨dtC8, [2], [8], 0, bufC8⟩, false, none⟩

/-- The C10 operator data. -/
def opdC10 : OpData := ⟨0, 0, [sigC10], [], [], [], []⟩

/-- The C10 operator heap. -/
def storeC10 : Store := [(7, opdC10)]

/-- The C10 signal replacement dict. -/
def sigrC10 : List (Nat × Signal) := [(31, vC10)]

/-- C10, counterexample: `_replace_op_signals` reassigns the `sets`
list of the *pre-existing* operator object 7 in place — after the
rewrite the same operator identity holds the replacement signal instead
of the original, refuting "a pre-existing operator's
sets/incs/reads/updates lists ... are not modified". -/
theorem C10_counterexample :
    ((getOp storeC10 7).sets.map Signal.sid = [31]) ∧
    ((getOp (replaceOpSignals sigrC10 [7] storeC10) 7).sets.map Signal.sid = [99]) ∧
    akeys (replaceOpSignals sigrC10 [7] storeC10) = akeys storeC10 :=
  ⟨rfl, rfl, rfl⟩

/-- C10 witness: the amended theorem applied at the concrete heap and
an operator outside the rewritten list. -/
theorem C10_mutation_frame_witness :
    (8 : Nat) ∉ [(7 : Nat)] ∧
    alookup (replaceOpSignals sigrC10 [7] storeC10) 8 = alookup storeC10 8 :=
  ⟨by decide, C10_mutation_frame.2.2.1 sigrC10 [7] storeC10 8 (by decide)⟩

/-- The preconditions C6 states for `merge_views`, transcribed from the
claim's words: a non-empty sequence of views sharing base, dtype, rank,
strides and off-axis shape, whose byte ranges are exactly sequential
(each view's `offset + size * itemsize` equals the next view's
offset, starting from the first view's own offset). -/
def specViewsMergeable (signals : List Signal) (axis : Nat) : Prop :=
  match signals with
  | [] => False
  | s0 :: _ =>
    (∀ s ∈ signals, s.isView = true ∧ s.base.sid = s0.base.sid ∧ s.dtype = s0.dtype ∧
      s.ndim = s0.ndim ∧ s.strides = s0.strides ∧
      shapeMatchExcept s.shape s0.shape axis = true) ∧
    seqChain s0.offset signals = true

/-- The `check_views_mergeable` loop succeeds exactly on signals
matching the head's base, dtype, rank, strides and off-axis shape, in a
sequential byte chain from `start`. -/
theorem viewsLoop_ok_iff (s0 : Signal) (axis : Nat) :
    ∀ (l : List Signal) (start : Nat),
      viewsLoop s0 axis start l = .ok () ↔
        ((∀ s ∈ l, s.base.sid = s0.base.sid ∧ s.dtype = s0.dtype ∧ s.ndim = s0.ndim ∧
          s.strides = s0.strides ∧ shapeMatchExcept s.shape s0.shape axis = true) ∧
         seqChain start l = true) := by
  intro l
  induction l with
  | nil =>
    intro start
    simp [viewsLoop, seqChain]
  | cons s rest ih =>
    intro start
    rw [viewsLoop]
    split_ifs with h1 h2 h3 h4 h5 h6
    · constructor
      · intro h; cases h
      · rintro ⟨hall, _⟩
        exact absurd (hall s (List.mem_cons_self _ _)).1 h1
    · constructor
      · intro h; cases h
      · rintro ⟨hall, _⟩
        exact absurd (hall s (List.mem_cons_self _ _)).2.1 h2
    · constructor
      · intro h; cases h
      · rintro ⟨hall, _⟩
        exact absurd (hall s (List.mem_cons_self _ _)).2.2.1 h3
    · constructor
      · intro h; cases h
      · rintro ⟨hall, _⟩
        exact absurd (hall s (List.mem_cons_self _ _)).2.2.2.1 h4
    · constructor
      · intro h; cases h
      · rintro ⟨hall, _⟩
        have hc := (hall s (List.mem_cons_self _ _)).2.2.2.2
        rw [h5] at hc
        cases hc
    · constructor
      · intro h; cases h
      · rintro ⟨_, hchain⟩
        rw [seqChain, Bool.and_eq_true] at hchain
        exact absurd (by simpa using hchain.1) h6
    · rw [ih]
      push_neg at h1 h2 h3 h4
      have h5' : shapeMatchExcept s.shape s0.shape axis = true := by
        cases hsm : shapeMatchExcept s.shape s0.shape axis with
        | false => exact absurd hsm h5
        | true => rfl
      have h6' : s.offset = start := by
        by_contra hc
        exact h6 hc
      constructor
      · rintro ⟨hall, hchain⟩
        refine ⟨?_, ?_⟩
        · intro x hx
          rcases List.mem_cons.1 hx with hx | hx
          · subst hx
            exact ⟨h1, h2, h3, h4, h5'⟩
          · exact hall x hx
        · rw [seqChain, Bool.and_eq_true]
          exact ⟨by simpa using h6', hchain⟩
      · rintro ⟨hall, hchain⟩
        refine ⟨fun x hx => hall x (List.mem_cons_of_mem _ hx), ?_⟩
        rw [seqChain, Bool.and_eq_true] at hchain
        exact hchain.2

/-- `check_views_mergeable` succeeds exactly on the C6 preconditions. -/
theorem checkViewsMergeable_ok_iff (signals : List Signal) (axis : Nat) :
    Signal.checkViewsMergeable signals axis = .ok () ↔ specViewsMergeable signals axis := by
  cases signals with
  | nil =>
    rw [show Signal.checkViewsMergeable [] axis = .error "list index out of range" from rfl]
    simp [specViewsMergeable]
  | cons s0 rest =>
    rw [Signal.checkViewsMergeable]
    split_ifs with hv
    · constructor
      · intro h; cases h
      · intro h
        exfalso
        rw [List.any_eq_true] at hv
        obtain ⟨x, hx, hxv⟩ := hv
        have hview := (h.1 x hx).1
        simp only [Bool.not_eq_true'] at hxv
        rw [hview] at hxv
        cases hxv
    · rw [viewsLoop_ok_iff]
      have hval : ∀ x ∈ s0 :: rest, x.isView = true := by
        intro x hx
        by_contra hc
        apply hv
        rw [List.any_eq_true]
        refine ⟨x, hx, ?_⟩
        simp only [Bool.not_eq_true] at hc
        simp [hc]
      constructor
      · rintro ⟨hall, hchain⟩
        exact ⟨fun x hx => ⟨hval x hx, hall x hx⟩, hchain⟩
      · rintro ⟨hall, hchain⟩
        exact ⟨fun x hx => (hall x hx).2, hchain⟩

/-- The shape-sum generator of `merge_views` succeeds when the
concatenation axis exists on every signal. -/
theorem sumShapeAt_ok (axis : Nat) :
    ∀ (l : List Signal), (∀ s ∈ l, axis < s.shape.length) →
      sumShapeAt axis l = .ok ((l.map (fun s => s.shape.getD axis 0)).sum) := by
  intro l
  induction l with
  | nil => intro _; rfl
  | cons s rest ih =>
    intro h
    rw [sumShapeAt]
    cases hg : s.shape.get? axis with
    | none =>
      exfalso
      rw [List.get?_eq_none] at hg
      have := h s (List.mem_cons_self _ _)
      omega
    | some n =>
      rw [ih (fun x hx => h x (List.mem_cons_of_mem _ hx))]
      have hn : n = s.shape.getD axis 0 := by
        rw [show s.shape.getD axis 0 = (s.shape.get? axis).getD 0 from rfl, hg]
        rfl
      rw [hn]
      simp [List.map_cons, List.sum_cons]

/-- `merge_views` under the C6 preconditions plus an in-range
concatenation axis: the exact view it constructs. -/
theorem mergeViews_ok_of (s0 : Signal) (rest : List Signal) (axis fresh : Nat)
    (hspec : specViewsMergeable (s0 :: rest) axis) (haxis : axis < s0.ndim) :
    Signal.mergeViews (s0 :: rest) axis fresh = .ok
      (⟨fresh,
        { dtype := s0.dtype,
          shape := s0.shape.take axis ++
            [(((s0 :: rest).map (fun s => s.shape.getD axis 0)).sum)] ++
            s0.shape.drop (axis + 1),
          strides := s0.strides, offset := s0.offset, buf := s0.base.arr.buf },
        (s0 :: rest).all (fun s => s.readonly), some s0.base⟩ : Signal) := by
  have hck : Signal.checkViewsMergeable (s0 :: rest) axis = .ok () :=
    (checkViewsMergeable_ok_iff _ _).2 hspec
  have hlen : ∀ s ∈ (s0 :: rest), axis < s.shape.length := by
    intro s hs
    have hnd := (hspec.1 s hs).2.2.2.1
    unfold Signal.ndim at hnd
    exact hnd ▸ haxis
  simp only [Signal.mergeViews, hck, sumShapeAt_ok axis _ hlen]

/-- C6, amended: `merge_views` fails unless the views share base,
dtype, rank, strides and off-axis shape with exactly sequential byte
ranges *and additionally the concatenation axis is within the rank*
(zero-dimensional views satisfying every listed precondition still
raise an IndexError on `s.shape[axis]`); when the preconditions hold
and the axis is in range it returns a single view into the shared base
spanning the combined range at the first view's offset with the same
strides, the shape summed along the axis, and `readonly` the
conjunction of the inputs'. -/
theorem C6_merge_views :
    (∀ (signals : List Signal) (axis fresh : Nat) (v : Signal),
      Signal.mergeViews signals axis fresh = .ok v → specViewsMergeable signals axis) ∧
    (∀ (s0 : Signal) (rest : List Signal) (axis fresh : Nat),
      specViewsMergeable (s0 :: rest) axis → axis < s0.ndim →
      ∃ v, Signal.mergeViews (s0 :: rest) axis fresh = .ok v ∧
        v.arr.offset = s0.offset ∧ v.arr.strides = s0.strides ∧ v.isView = true ∧
        v.base?.map (fun b => b.sid) = some s0.base.sid ∧
        v.arr.shape = s0.shape.take axis ++
          [(((s0 :: rest).map (fun s => s.shape.getD axis 0)).sum)] ++
          s0.shape.drop (axis + 1) ∧
        v.readonly = (s0 :: rest).all (fun s => s.readonly)) := by
  constructor
  · intro signals axis fresh v h
    cases hck : Signal.checkViewsMergeable signals axis with
    | error e =>
      simp only [Signal.mergeViews, hck] at h
      cases h
    | ok u =>
      cases u
      exact (checkViewsMergeable_ok_iff _ _).1 hck
  · intro s0 rest axis fresh hspec haxis
    exact ⟨_, mergeViews_ok_of s0 rest axis fresh hspec haxis, rfl, rfl, rfl, rfl, rfl, rfl⟩

/-- The C6 concrete dtype and buffer. -/
def dtC6 : DType := ⟨0, 8⟩

/-- Concrete buffer for the C6 instances. -/
def bufC6 : Nat → Int := fun i => 100 + i

/-- A ten-element base. -/
def baseC6 : BaseSig := ⟨9, ⟨dtC6, [10], [8], 0, bufC6⟩, false⟩

/-- A zero-dimensional view at byte offset 0 of `baseC6`. -/
def z1C6 : Signal := ⟨13, ⟨dtC6, [], [], 0, bufC6⟩, false, some baseC6⟩

/-- A zero-dimensional view at byte offset 8 of `baseC6` — exactly
sequential after `z1C6` (whose size is one element of eight bytes). -/
def z2C6 : Signal := ⟨14, ⟨dtC6, [], [], 8, bufC6⟩, false, some baseC6⟩

/-- C6, counterexample: two zero-dimensional views satisfy every
precondition the claim lists (shared base, dtype, rank, strides,
off-axis shape, exactly sequential byte ranges), yet `merge_views`
raises (IndexError on `s.shape[axis]` in the combined-shape
computation) instead of returning the merged view. -/
theorem C6_counterexample :
    specViewsMergeable [z1C6, z2C6] 0 ∧
    Signal.mergeViews [z1C6, z2C6] 0 200 = .error "tuple index out of range" := by
  refine ⟨⟨?_, rfl⟩, rfl⟩
  intro s hs
  rcases List.mem_cons.1 hs with h | h
  · subst h
    exact ⟨rfl, rfl, rfl, rfl, rfl, rfl⟩
  · rcases List.mem_cons.1 h with h' | h'
    · subst h'
      exact ⟨rfl, rfl, rfl, rfl, rfl, rfl⟩
    · cases h'

/-- A one-dimensional two-element view at byte offset 0 of `baseC6`. -/
def v1C6 : Signal := ⟨15, ⟨dtC6, [2], [8], 0, bufC6⟩, false, some baseC6⟩

/-- A one-dimensional three-element view at byte offset 16 — exactly
sequential after `v1C6`. -/
def v2C6 : Signal := ⟨16, ⟨dtC6, [3], [8], 16, bufC6⟩, false, some baseC6⟩

/-- C6 witness: the amended theorem's success direction applied to two
concrete sequential views. -/
theorem C6_merge_views_witness :
    ∃ v, Signal.mergeViews [v1C6, v2C6] 0 300 = .ok v ∧
      v.arr.offset = v1C6.offset ∧ v.arr.strides = v1C6.strides ∧ v.isView = true ∧
      v.base?.map (fun b => b.sid) = some v1C6.base.sid ∧
      v.arr.shape = v1C6.shape.take 0 ++
        [(([v1C6, v2C6].map (fun s => s.shape.getD 0 0)).sum)] ++ v1C6.shape.drop 1 ∧
      v.readonly = [v1C6, v2C6].all (fun s => s.readonly) := by
  refine C6_merge_views.2 v1C6 [v2C6] 0 300 ⟨?_, rfl⟩ (by decide)
  intro s hs
  rcases List.mem_cons.1 hs with h | h
  · subst h
    exact ⟨rfl, rfl, rfl, rfl, rfl, rfl⟩
  · rcases List.mem_cons.1 h with h' | h'
    · subst h'
      exact ⟨rfl, rfl, rfl, rfl, rfl, rfl⟩
    · cases h'

/-- C-order strides have the same rank as the shape. -/
theorem contigStrides_length (isz : Nat) :
    ∀ (sh : List Nat), (contigStrides isz sh).length = sh.length := by
  intro sh
  induction sh with
  | nil => rfl
  | cons n sh ih => simp [contigStrides, ih]

/-- Basic indexing never raises when every tuple element is a slice and
the tuple is no longer than the dimension list. -/
theorem sliceAxes_slices_ok :
    ∀ (items : List Item) (dims : List (Nat × Nat)),
      (∀ it ∈ items, it.isIdx = false) → items.length ≤ dims.length →
      ∃ r, sliceAxes dims items = .ok r := by
  intro items
  induction items with
  | nil =>
    intro dims _ _
    cases dims with
    | nil => exact ⟨_, rfl⟩
    | cons d dims => exact ⟨_, rfl⟩
  | cons it its ih =>
    intro dims hslc hlen
    cases dims with
    | nil => simp at hlen
    | cons d dims =>
      cases it with
      | idx i =>
        have := hslc (.idx i) (List.mem_cons_self _ _)
        simp [Item.isIdx] at this
      | slc a? b? =>
        obtain ⟨r, hr⟩ := ih dims (fun x hx => hslc x (List.mem_cons_of_mem _ hx))
          (by simpa using Nat.le_of_succ_le_succ (by simpa using hlen))
        cases hres : sliceAxes (d :: dims) (Item.slc a? b? :: its) with
        | ok r2 => exact ⟨r2, rfl⟩
        | error e =>
          obtain ⟨d1, d2⟩ := d
          obtain ⟨dims2, off⟩ := r
          simp only [sliceAxes, hr] at hres
          cases hres

/-- `Signal.__getitem__` never raises on a non-empty all-slice tuple
within the array's rank. -/
theorem getitem_slices_ok (s : Signal) (item : List Item) (fresh : Nat)
    (hne : item ≠ []) (hslc : ∀ it ∈ item, it.isIdx = false)
    (hlen : item.length ≤ (s.arr.shape.zip s.arr.strides).length) :
    ∃ v, Signal.getitem s item fresh = .ok v := by
  have hall : item.all Item.isIdx = false := by
    cases item with
    | nil => exact absurd rfl hne
    | cons it its =>
      have h0 := hslc it (List.mem_cons_self _ _)
      simp [List.all_cons, h0]
  obtain ⟨r, hr⟩ := sliceAxes_slices_ok item (s.arr.shape.zip s.arr.strides) hslc hlen
  obtain ⟨dims, off⟩ := r
  cases hres : Signal.getitem s item fresh with
  | ok v => exact ⟨v, rfl⟩
  | error e =>
    simp only [Signal.getitem, hall, Bool.false_eq_true, if_false, npGetItem, hr] at hres
    cases hres

/-- The replacement-view loop of `merge_signals` never raises when the
concatenation axis is in range for every input and the merged signal's
rank is positive with matching stride rank. -/
theorem mergeSlabLoop_ok (merged : Signal) (axis : Nat)
    (hstr : merged.arr.strides.length = merged.arr.shape.length)
    (hax : axis < merged.ndim) :
    ∀ (l : List Signal) (start : Nat) (repl : List (Nat × Signal)) (fresh : Nat),
      (∀ s ∈ l, axis < s.ndim) →
      ∃ out, mergeSlabLoop merged axis l start repl fresh = .ok out := by
  intro l
  induction l with
  | nil => exact fun start repl fresh _ => ⟨_, rfl⟩
  | cons s rest ih =>
    intro start repl fresh h
    have hs := h s (List.mem_cons_self _ _)
    cases hg : s.shape.get? axis with
    | none =>
      rw [List.get?_eq_none] at hg
      exact absurd hs (by unfold Signal.ndim Signal.shape at *; omega)
    | some size =>
      have hne : ((List.replicate merged.ndim (Item.slc none none)).set axis
          (Item.slc (some start) (some (start + size)))) ≠ [] := by
        apply List.ne_nil_of_length_pos
        rw [List.length_set, List.length_replicate]
        omega
      have hsl : ∀ it ∈ ((List.replicate merged.ndim (Item.slc none none)).set axis
          (Item.slc (some start) (some (start + size)))), it.isIdx = false := by
        intro it hit
        rcases List.mem_or_eq_of_mem_set hit with hmem | heq
        · rw [List.eq_of_mem_replicate hmem]; rfl
        · rw [heq]; rfl
      have hln : ((List.replicate merged.ndim (Item.slc none none)).set axis
          (Item.slc (some start) (some (start + size)))).length ≤
          (merged.arr.shape.zip merged.arr.strides).length := by
        rw [List.length_set, List.length_replicate, List.length_zip, hstr]
        unfold Signal.ndim
        omega
      obtain ⟨v, hv⟩ := getitem_slices_ok merged _ fresh hne hsl hln
      obtain ⟨out, hout⟩ := ih (start + size) (upsert repl s.sid v) (fresh + 1)
        (fun x hx => h x (List.mem_cons_of_mem _ hx))
      refine ⟨out, ?_⟩
      rw [mergeSlabLoop, hg]
      simp only [hv, hout]

/-- The `check_signals_mergeable` loop succeeds on signals matching the
head's rank and off-axis shape. -/
theorem checkSigsLoop_ok (s0 : Signal) (axis : Nat) :
    ∀ (l : List Signal),
      (∀ s ∈ l, s.ndim = s0.ndim ∧ shapeMatchExcept s.shape s0.shape axis = true) →
      checkSigsLoop s0 axis l = .ok () := by
  intro l
  induction l with
  | nil => intro _; rfl
  | cons s rest ih =>
    intro h
    obtain ⟨h1, h2⟩ := h s (List.mem_cons_self _ _)
    rw [checkSigsLoop, if_neg (by omega), if_neg (by rw [h2]; exact fun hc => nomatch hc)]
    exact ih (fun x hx => h x (List.mem_cons_of_mem _ hx))

/-- `np.concatenate` succeeds — returning the fresh C-contiguous
concatenated array — on a non-empty list of arrays of one positive
common rank, matching off-axis shapes and one dtype, with the axis in
range. -/
theorem npConcatenate_ok (a0 : NDArray) (rest : List NDArray) (axis : Nat)
    (hax : axis < a0.ndim)
    (hnd : ∀ a ∈ a0 :: rest, a.ndim = a0.ndim)
    (hsh : ∀ a ∈ a0 :: rest, shapeMatchExcept a.shape a0.shape axis = true)
    (hdt : ∀ a ∈ a0 :: rest, a.dtype = a0.dtype) :
    npConcatenate (a0 :: rest) axis = .ok
      { dtype := a0.dtype,
        shape := a0.shape.set axis (((a0 :: rest).map (fun a => a.shape.getD axis 0)).sum),
        strides := contigStrides a0.dtype.itemsize
          (a0.shape.set axis (((a0 :: rest).map (fun a => a.shape.getD axis 0)).sum)),
        offset := 0,
        buf := fun n => concatRead axis (a0 :: rest)
          (unflatIx (a0.shape.set axis (((a0 :: rest).map (fun a => a.shape.getD axis 0)).sum)) n) } := by
  have h0 : ¬ a0.ndim = 0 := by omega
  have h2 : ¬ ¬ axis < a0.ndim := by omega
  have h3 : ¬ ((a0 :: rest).any (fun a => a.ndim ≠ a0.ndim) = true) := by
    simp only [List.any_eq_true, decide_eq_true_eq, not_exists]
    rintro a ⟨ha, hne⟩
    exact hne (hnd a ha)
  have h4 : ¬ ((a0 :: rest).any (fun a => ¬ shapeMatchExcept a.shape a0.shape axis) = true) := by
    simp only [List.any_eq_true, decide_eq_true_eq, not_exists]
    rintro a ⟨ha, hne⟩
    exact hne (hsh a ha)
  have h5 : ¬ ((a0 :: rest).any (fun a => a.dtype ≠ a0.dtype) = true) := by
    simp only [List.any_eq_true, decide_eq_true_eq, not_exists]
    rintro a ⟨ha, hne⟩
    exact hne (hdt a ha)
  simp only [npConcatenate]
  rw [if_neg h0, if_neg h2, if_neg h3, if_neg h4, if_neg h5]

/-- The facts `Signal.compatible` certifies for each signal against the
head of the list. -/
theorem compatible_facts (s0 : Signal) (rest : List Signal) (axis : Nat)
    (h : Signal.compatible (s0 :: rest) axis = true) :
    ∀ s ∈ s0 :: rest, s.ndim = s0.ndim ∧ shapeMatchExcept s.shape s0.shape axis = true ∧
      s.dtype = s0.dtype ∧
      (s.isView = true → s.base.sid = s0.base.sid ∧ s.strides = s0.strides) := by
  intro s hs
  simp only [Signal.compatible, List.all_eq_true] at h
  have hx := h s hs
  simp only [Bool.and_eq_true, Bool.or_eq_true, beq_iff_eq, Bool.not_eq_true'] at hx
  obtain ⟨⟨⟨h1, h2⟩, h3⟩, h4⟩ := hx
  refine ⟨h1, h2, h3, fun hv => ?_⟩
  rcases h4 with h4 | h4
  · rw [hv] at h4; cases h4
  · exact h4

/-- `merge_signals` succeeds on a non-empty compatible list of base
signals when the concatenation axis is within the common rank. -/
theorem mergeSignals_ok (s0 : Signal) (rest : List Signal) (repl : List (Nat × Signal))
    (axis fresh : Nat)
    (hcomp : Signal.compatible (s0 :: rest) axis = true) (haxis : axis < s0.ndim)
    (hbase : ∀ s ∈ s0 :: rest, s.isView = false) :
    ∃ out, Signal.mergeSignals (s0 :: rest) repl axis fresh = .ok out := by
  have hfacts := compatible_facts s0 rest axis hcomp
  have hany : ¬ ((s0 :: rest).any (·.isView) = true) := by
    rw [List.any_eq_true]
    rintro ⟨s, hs, hv⟩
    rw [hbase s hs] at hv
    cases hv
  have hchk : Signal.checkSignalsMergeable (s0 :: rest) axis = .ok () := by
    simp only [Signal.checkSignalsMergeable]
    rw [if_neg hany]
    exact checkSigsLoop_ok s0 axis (s0 :: rest) (fun s hs => ⟨(hfacts s hs).1, (hfacts s hs).2.1⟩)
  have hconc := npConcatenate_ok s0.arr (rest.map (·.arr)) axis haxis
    (by
      intro a ha
      rcases List.mem_cons.1 ha with h | h
      · rw [h]
      · obtain ⟨s, hs, rfl⟩ := List.mem_map.1 h
        exact (hfacts s (List.mem_cons_of_mem _ hs)).1)
    (by
      intro a ha
      rcases List.mem_cons.1 ha with h | h
      · rw [h]
        simp [shapeMatchExcept]
      · obtain ⟨s, hs, rfl⟩ := List.mem_map.1 h
        exact (hfacts s (List.mem_cons_of_mem _ hs)).2.1)
    (by
      intro a ha
      rcases List.mem_cons.1 ha with h | h
      · rw [h]
      · obtain ⟨s, hs, rfl⟩ := List.mem_map.1 h
        exact (hfacts s (List.mem_cons_of_mem _ hs)).2.2.1)
  obtain ⟨⟨repl2, fresh2⟩, hslab⟩ := mergeSlabLoop_ok
    (⟨fresh,
      { dtype := s0.arr.dtype,
        shape := s0.arr.shape.set axis
          (((s0.arr :: rest.map (·.arr)).map (fun a => a.shape.getD axis 0)).sum),
        strides := contigStrides s0.arr.dtype.itemsize (s0.arr.shape.set axis
          (((s0.arr :: rest.map (·.arr)).map (fun a => a.shape.getD axis 0)).sum)),
        offset := 0,
        buf := fun n => concatRead axis (s0.arr :: rest.map (·.arr))
          (unflatIx (s0.arr.shape.set axis
            (((s0.arr :: rest.map (·.arr)).map (fun a => a.shape.getD axis 0)).sum)) n) },
      (s0 :: rest).all (·.readonly), none⟩ : Signal) axis
    (contigStrides_length _ _)
    (by simp only [Signal.ndim, List.length_set]; exact haxis)
    (s0 :: rest) 0 repl (fresh + 1)
    (fun s hs => by
      have := (hfacts s hs).1
      unfold Signal.ndim at *
      omega)
  simp only [List.map_cons] at hconc hslab
  cases hres : Signal.mergeSignals (s0 :: rest) repl axis fresh with
  | ok out => exact ⟨out, rfl⟩
  | error e =>
    exfalso
    simp only [Signal.mergeSignals, hchk, List.map_cons, hconc, hslab] at hres
    cases hres

/-- C5, amended: on a non-empty compatible list of signals that are
either all bases or all views in a contiguous byte chain, and *whose
common rank exceeds the concatenation axis*, `merge_signals_or_views`
succeeds; without the rank condition zero-dimensional inputs satisfying
everything the claim lists still raise inside the merge. -/
theorem C5_compatible_merge (s0 : Signal) (rest : List Signal)
    (repl : List (Nat × Signal)) (axis fresh : Nat)
    (hcomp : Signal.compatible (s0 :: rest) axis = true)
    (haxis : axis < s0.ndim)
    (hside : (∀ s ∈ s0 :: rest, s.isView = false) ∨
      ((∀ s ∈ s0 :: rest, s.isView = true) ∧ seqChain s0.offset (s0 :: rest) = true)) :
    ∃ out, Signal.mergeSignalsOrViews (s0 :: rest) repl axis fresh = .ok out := by
  have hfacts := compatible_facts s0 rest axis hcomp
  rcases hside with hbase | ⟨hview, hseq⟩
  · have h0 : s0.isView = false := hbase s0 (List.mem_cons_self _ _)
    have hA : ((s0 :: rest).map (·.isView)).all (fun b => b = true) = false := by
      simp [List.map_cons, List.all_cons, h0]
    have hB : ((s0 :: rest).map (·.isView)).any (fun b => b = true) = false := by
      rw [Bool.eq_false_iff]
      intro hc
      rw [List.any_eq_true] at hc
      obtain ⟨b, hb, hbt⟩ := hc
      obtain ⟨s, hs, rfl⟩ := List.mem_map.1 hb
      rw [hbase s hs] at hbt
      simp at hbt
    cases hres : Signal.mergeSignalsOrViews (s0 :: rest) repl axis fresh with
    | ok out => exact ⟨out, rfl⟩
    | error e =>
      exfalso
      simp only [Signal.mergeSignalsOrViews] at hres
      rw [hA] at hres
      rw [if_neg (show ¬ (false = true) from fun hc => nomatch hc)] at hres
      rw [hB] at hres
      rw [if_neg (show ¬ (false = true) from fun hc => nomatch hc)] at hres
      obtain ⟨out, hout⟩ := mergeSignals_ok s0 rest repl axis fresh hcomp haxis hbase
      rw [hout] at hres
      cases hres
  · have hspec : specViewsMergeable (s0 :: rest) axis := by
      refine ⟨fun s hs => ?_, hseq⟩
      obtain ⟨h1, h2, h3, h4⟩ := hfacts s hs
      obtain ⟨h5, h6⟩ := h4 (hview s hs)
      exact ⟨hview s hs, h5, h3, h1, h6, h2⟩
    have hok := mergeViews_ok_of s0 rest axis fresh hspec haxis
    have hA : ((s0 :: rest).map (·.isView)).all (fun b => b = true) = true := by
      rw [List.all_eq_true]
      intro b hb
      obtain ⟨s, hs, rfl⟩ := List.mem_map.1 hb
      simp [hview s hs]
    cases hres : Signal.mergeSignalsOrViews (s0 :: rest) repl axis fresh with
    | ok out => exact ⟨out, rfl⟩
    | error e =>
      exfalso
      simp only [Signal.mergeSignalsOrViews] at hres
      rw [hA] at hres
      rw [if_pos rfl] at hres
      simp only [hok] at hres
      cases hres

/-- A zero-dimensional base signal. -/
def zb1C5 : Signal := ⟨17, ⟨dtC6, [], [], 0, bufC6⟩, false, none⟩

/-- A second zero-dimensional base signal. -/
def zb2C5 : Signal := ⟨18, ⟨dtC6, [], [], 0, bufC6⟩, false, none⟩

/-- C5, counterexample: two zero-dimensional base signals are
`compatible` and all non-views, yet `merge_signals_or_views` raises
(`np.concatenate` rejects zero-dimensional arrays) instead of
succeeding. -/
theorem C5_counterexample :
    Signal.compatible [zb1C5, zb2C5] 0 = true ∧
    (∀ s ∈ [zb1C5, zb2C5], s.isView = false) ∧
    Signal.mergeSignalsOrViews [zb1C5, zb2C5] [] 0 50 =
      .error "zero-dimensional arrays cannot be concatenated" := by
  refine ⟨rfl, ?_, rfl⟩
  intro s hs
  rcases List.mem_cons.1 hs with h | h
  · subst h; rfl
  · rcases List.mem_cons.1 h with h' | h'
    · subst h'; rfl
    · cases h'

/-- A one-dimensional two-element base signal. -/
def b1C5 : Signal := ⟨21, ⟨dtC6, [2], [8], 0, bufC6⟩, false, none⟩

/-- A one-dimensional three-element base signal. -/
def b2C5 : Signal := ⟨22, ⟨dtC6, [3], [8], 0, bufC6⟩, false, none⟩

/-- C5 witness: the amended theorem applied to two concrete compatible
base signals. -/
theorem C5_compatible_merge_witness :
    ∃ out, Signal.mergeSignalsOrViews [b1C5, b2C5] [] 0 60 = .ok out := by
  refine C5_compatible_merge b1C5 [b2C5] [] 0 60 rfl (by decide) (Or.inl ?_)
  intro s hs
  rcases List.mem_cons.1 hs with h | h
  · subst h; rfl
  · rcases List.mem_cons.1 h with h' | h'
    · subst h'; rfl
    · cases h'

/-- `getD` after `set` at the same in-range position. -/
theorem getD_set_self :
    ∀ (l : List Nat) (i v : Nat), i < l.length → (l.set i v).getD i 0 = v := by
  intro l
  induction l with
  | nil => intro i v h; simp at h
  | cons a t ih =>
    intro i v h
    cases i with
    | zero => rfl
    | succ j => exact ih j v (by simpa using Nat.lt_of_succ_lt_succ (by simpa using h))

/-- Setting an in-range position to its own value is the identity. -/
theorem set_getD_own :
    ∀ (l : List Nat) (i : Nat), i < l.length → l.set i (l.getD i 0) = l := by
  intro l
  induction l with
  | nil => intro i h; simp at h
  | cons a t ih =>
    intro i h
    cases i with
    | zero => rfl
    | succ j =>
      simp only [List.getD_cons_succ, List.set_cons_succ]
      rw [ih j (by simpa using Nat.lt_of_succ_lt_succ (by simpa using h))]

/-- `getD` through `zip` at an in-range position. -/
theorem zip_getD :
    ∀ (l1 l2 : List Nat) (i : Nat), i < l1.length → i < l2.length →
      (l1.zip l2).getD i (0, 0) = (l1.getD i 0, l2.getD i 0) := by
  intro l1
  induction l1 with
  | nil => intro l2 i h _; simp at h
  | cons a t ih =>
    intro l2 i h1 h2
    cases l2 with
    | nil => simp at h2
    | cons b u =>
      cases i with
      | zero => rfl
      | succ j =>
        exact ih u j (by simpa using Nat.lt_of_succ_lt_succ (by simpa using h1))
          (by simpa using Nat.lt_of_succ_lt_succ (by simpa using h2))

/-- A valid multi-index has the shape's rank. -/
theorem validIx_length :
    ∀ (sh ix : List Nat), validIx sh ix = true → ix.length = sh.length := by
  intro sh
  induction sh with
  | nil => intro ix h; cases ix with | nil => rfl | cons i t => cases h
  | cons n t ih =>
    intro ix h
    cases ix with
    | nil => cases h
    | cons i u =>
      rw [validIx, Bool.and_eq_true] at h
      simp [ih u h.2]

/-- Components of a valid multi-index are within the shape. -/
theorem validIx_getD :
    ∀ (sh ix : List Nat) (p : Nat), validIx sh ix = true → p < sh.length →
      ix.getD p 0 < sh.getD p 0 := by
  intro sh
  induction sh with
  | nil => intro ix p _ hp; simp at hp
  | cons n t ih =>
    intro ix p h hp
    cases ix with
    | nil => cases h
    | cons i u =>
      rw [validIx, Bool.and_eq_true, decide_eq_true_eq] at h
      cases p with
      | zero => exact h.1
      | succ q =>
        exact ih u q h.2 (by simpa using Nat.lt_of_succ_lt_succ (by simpa using hp))

/-- Replacing the concatenation-axis component of a valid multi-index
for the sliced shape by any value within the full shape keeps it
valid for the full shape. -/
theorem validIx_set_axis :
    ∀ (S ix : List Nat) (axis m v : Nat),
      validIx (S.set axis m) ix = true → v < S.getD axis 0 →
      validIx S (ix.set axis v) = true := by
  intro S
  induction S with
  | nil =>
    intro ix axis m v h _
    simp only [List.set_nil] at h
    cases ix with
    | nil => simp [List.set_nil]; rfl
    | cons i u => cases h
  | cons n t ih =>
    intro ix axis m v h hv
    cases axis with
    | zero =>
      rw [List.set_cons_zero] at h
      cases ix with
      | nil => cases h
      | cons i u =>
        rw [validIx, Bool.and_eq_true] at h
        rw [List.set_cons_zero, validIx, Bool.and_eq_true]
        exact ⟨decide_eq_true (by simpa using hv), h.2⟩
    | succ a =>
      rw [List.set_cons_succ] at h
      cases ix with
      | nil => cases h
      | cons i u =>
        rw [validIx, Bool.and_eq_true] at h
        rw [List.set_cons_succ, validIx, Bool.and_eq_true]
        exact ⟨h.1, ih u a m v h.2 (by simpa using hv)⟩

/-- Row-major flattening of a valid multi-index is within the element
count. -/
theorem flatIx_lt :
    ∀ (sh ix : List Nat), validIx sh ix = true → flatIx sh ix < sh.prod := by
  intro sh
  induction sh with
  | nil =>
    intro ix h
    cases ix with
    | nil => simp [flatIx]
    | cons i u => cases h
  | cons n t ih =>
    intro ix h
    cases ix with
    | nil => cases h
    | cons i u =>
      rw [validIx, Bool.and_eq_true, decide_eq_true_eq] at h
      have h2 := ih u h.2
      rw [flatIx, List.prod_cons]
      calc i * t.prod + flatIx t u < i * t.prod + t.prod := by omega
        _ = (i + 1) * t.prod := by ring
        _ ≤ n * t.prod := Nat.mul_le_mul_right _ (by omega)

/-- Unflattening inverts flattening on valid multi-indices. -/
theorem unflat_flat :
    ∀ (sh ix : List Nat), validIx sh ix = true → unflatIx sh (flatIx sh ix) = ix := by
  intro sh
  induction sh with
  | nil =>
    intro ix h
    cases ix with
    | nil => rfl
    | cons i u => cases h
  | cons n t ih =>
    intro ix h
    cases ix with
    | nil => cases h
    | cons i u =>
      rw [validIx, Bool.and_eq_true, decide_eq_true_eq] at h
      have hlt := flatIx_lt t u h.2
      have hp : 0 < t.prod := by omega
      rw [flatIx, unflatIx]
      have hdiv : (i * t.prod + flatIx t u) / t.prod = i := by
        rw [Nat.add_comm, Nat.add_mul_div_right _ _ hp, Nat.div_eq_of_lt hlt]
        omega
      have hmod : (i * t.prod + flatIx t u) % t.prod = flatIx t u := by
        rw [Nat.add_comm, Nat.add_mul_mod_self_right, Nat.mod_eq_of_lt hlt]
      rw [hdiv, hmod, ih u h.2]

/-- Shifting the concatenation-axis component shifts the flat position
by the number of trailing elements per step. -/
theorem flatIx_set_add :
    ∀ (sh ix : List Nat) (axis d : Nat), axis < sh.length → axis < ix.length →
      flatIx sh (ix.set axis (ix.getD axis 0 + d)) =
        flatIx sh ix + d * (sh.drop (axis + 1)).prod := by
  intro sh
  induction sh with
  | nil => intro ix axis d h _; simp at h
  | cons n t ih =>
    intro ix axis d hsh hix
    cases ix with
    | nil => simp at hix
    | cons i u =>
      cases axis with
      | zero =>
        simp only [List.getD_cons_zero, List.set_cons_zero, flatIx, List.drop_succ_cons,
          List.drop_zero]
        ring
      | succ a =>
        simp only [List.getD_cons_succ, List.set_cons_succ, flatIx, List.drop_succ_cons]
        rw [ih u a d (by simpa using Nat.lt_of_succ_lt_succ (by simpa using hsh))
          (by simpa using Nat.lt_of_succ_lt_succ (by simpa using hix))]
        ring

/-- The strided byte offset under C-order strides is the item size
times the row-major flat position. -/
theorem dot_contig :
    ∀ (S ix : List Nat) (isz : Nat),
      dotNat ix (contigStrides isz S) = isz * flatIx S ix := by
  intro S
  induction S with
  | nil =>
    intro ix isz
    cases ix with
    | nil => rfl
    | cons i u => rfl
  | cons n t ih =>
    intro ix isz
    cases ix with
    | nil => rfl
    | cons i u =>
      rw [contigStrides, dotNat, flatIx, ih u isz]
      ring

/-- The C-order stride at an in-range axis is the item size times the
number of trailing elements. -/
theorem contigStrides_getD :
    ∀ (S : List Nat) (isz axis : Nat), axis < S.length →
      (contigStrides isz S).getD axis 0 = isz * (S.drop (axis + 1)).prod := by
  intro S
  induction S with
  | nil => intro isz axis h; simp at h
  | cons n t ih =>
    intro isz axis h
    cases axis with
    | zero => rfl
    | succ a =>
      rw [contigStrides, List.getD_cons_succ, List.drop_succ_cons,
        ih isz a (by simpa using Nat.lt_of_succ_lt_succ (by simpa using h))]

/-- A shape agreeing with another off the concatenation axis, with the
same rank, is the other with the axis component replaced. -/
theorem eq_set_of_shapeMatch :
    ∀ (axis : Nat) (sh1 sh2 : List Nat),
      shapeMatchExcept sh1 sh2 axis = true → sh1.length = sh2.length →
      axis < sh2.length → sh1 = sh2.set axis (sh1.getD axis 0) := by
  intro axis
  induction axis with
  | zero =>
    intro sh1 sh2 h hlen hax
    cases sh2 with
    | nil => simp at hax
    | cons b t2 =>
      cases sh1 with
      | nil => simp at hlen
      | cons a t1 =>
        rw [shapeMatchExcept, Bool.and_eq_true, beq_iff_eq, beq_iff_eq] at h
        simp only [List.drop_succ_cons, List.drop_zero] at h
        rw [List.getD_cons_zero, List.set_cons_zero, h.2]
  | succ ax ih =>
    intro sh1 sh2 h hlen hax
    cases sh2 with
    | nil => simp at hax
    | cons b t2 =>
      cases sh1 with
      | nil => simp at hlen
      | cons a t1 =>
        rw [shapeMatchExcept, Bool.and_eq_true, beq_iff_eq, beq_iff_eq] at h
        simp only [List.take_succ_cons, List.cons.injEq, List.drop_succ_cons] at h
        obtain ⟨⟨hab, htake⟩, hdrop⟩ := h
        rw [List.getD_cons_succ, List.set_cons_succ, hab]
        have hsm : shapeMatchExcept t1 t2 ax = true := by
          rw [shapeMatchExcept, Bool.and_eq_true, beq_iff_eq, beq_iff_eq]
          exact ⟨htake, hdrop⟩
        have ht := ih t1 t2 hsm (by simpa using hlen) (by simpa using hax)
        rw [← ht]

/-- Reading the concatenation at an axis coordinate inside the block
after `pre` reads that block at the local coordinate. -/
theorem concatRead_pre (axis i : Nat) :
    ∀ (pre : List NDArray) (a : NDArray) (post : List NDArray) (ix : List Nat),
      axis < ix.length → i < a.shape.getD axis 0 →
      concatRead axis (pre ++ a :: post)
          (ix.set axis ((pre.map (fun x => x.shape.getD axis 0)).sum + i)) =
        a.read (ix.set axis i) := by
  intro pre
  induction pre with
  | nil =>
    intro a post ix hax hi
    simp only [List.map_nil, List.sum_nil, Nat.zero_add, List.nil_append]
    rw [concatRead]
    rw [if_pos]
    rw [getD_set_self ix axis i hax]
    exact hi
  | cons b t ih =>
    intro a post ix hax hi
    simp only [List.map_cons, List.sum_cons, List.cons_append]
    rw [concatRead]
    rw [if_neg]
    · rw [getD_set_self ix axis _ hax, List.set_set]
      have harith : b.shape.getD axis 0 + (t.map (fun x => x.shape.getD axis 0)).sum + i -
          b.shape.getD axis 0 = (t.map (fun x => x.shape.getD axis 0)).sum + i := by omega
      rw [harith]
      exact ih a post ix hax hi
    · rw [getD_set_self ix axis _ hax]
      omega

/-- What `np.concatenate` succeeding certifies about its inputs. -/
theorem npConcatenate_ok_inv (a0 : NDArray) (rest : List NDArray) (axis : Nat) (iv : NDArray)
    (h : npConcatenate (a0 :: rest) axis = .ok iv) :
    axis < a0.ndim ∧ (∀ a ∈ a0 :: rest, a.ndim = a0.ndim) ∧
    (∀ a ∈ a0 :: rest, shapeMatchExcept a.shape a0.shape axis = true) ∧
    (∀ a ∈ a0 :: rest, a.dtype = a0.dtype) := by
  simp only [npConcatenate] at h
  split_ifs at h with h1 h2 h3 h4 h5
  all_goals try cases h
  refine ⟨by omega, ?_, ?_, ?_⟩
  · intro a ha
    by_contra hc
    exact h3 (List.any_eq_true.2 ⟨a, ha, decide_eq_true hc⟩)
  · intro a ha
    by_contra hc
    exact h4 (List.any_eq_true.2 ⟨a, ha, decide_eq_true hc⟩)
  · intro a ha
    by_contra hc
    exact h5 (List.any_eq_true.2 ⟨a, ha, decide_eq_true hc⟩)

/-- A tuple of full slices leaves every axis and the offset unchanged. -/
theorem sliceAxes_full :
    ∀ (dims : List (Nat × Nat)),
      sliceAxes dims (List.replicate dims.length (Item.slc none none)) = .ok (dims, 0) := by
  intro dims
  induction dims with
  | nil => rfl
  | cons d rest ih =>
    obtain ⟨n, st⟩ := d
    simp only [List.length_cons, List.replicate_succ, sliceAxes, ih, Option.getD_none,
      Option.getD_some, Nat.min_self, Nat.zero_min, Nat.sub_zero, Nat.zero_mul, Nat.add_zero]

/-- A tuple of full slices with one bounded slice at an in-range axis:
the axis extent becomes the slice length and the offset advances by
`start` strides of that axis. -/
theorem sliceAxes_slab :
    ∀ (axis : Nat) (dims : List (Nat × Nat)) (start size : Nat),
      axis < dims.length → start + size ≤ (dims.getD axis (0, 0)).1 →
      sliceAxes dims ((List.replicate dims.length (Item.slc none none)).set axis
          (Item.slc (some start) (some (start + size)))) =
        .ok (dims.set axis (size, (dims.getD axis (0, 0)).2),
             start * (dims.getD axis (0, 0)).2) := by
  intro axis
  induction axis with
  | zero =>
    intro dims start size h1 h2
    cases dims with
    | nil => simp at h1
    | cons d rest =>
      obtain ⟨n, st⟩ := d
      simp only [List.getD_cons_zero] at h2
      simp only [List.length_cons, List.replicate_succ, List.set_cons_zero, sliceAxes,
        sliceAxes_full rest, Option.getD_some, List.getD_cons_zero, List.set_cons_zero]
      rw [Nat.min_eq_left (by omega), Nat.min_eq_left (by omega)]
      simp only [Nat.add_sub_cancel_left, Nat.add_zero]
  | succ a ih =>
    intro dims start size h1 h2
    cases dims with
    | nil => simp at h1
    | cons d rest =>
      obtain ⟨n, st⟩ := d
      simp only [List.getD_cons_succ] at h2
      have hrec := ih rest start size (by simpa using Nat.lt_of_succ_lt_succ (by simpa using h1)) h2
      simp only [List.length_cons, List.replicate_succ, List.set_cons_succ, sliceAxes, hrec,
        Option.getD_none, Nat.min_self, Nat.zero_min, Nat.sub_zero, Nat.zero_mul, Nat.zero_add,
        List.getD_cons_succ, List.set_cons_succ]

/-- `Signal.__getitem__` with full slices everywhere and a bounded
slice on the concatenation axis: the exact view it returns. -/
theorem getitem_slab (M : Signal) (axis start size fresh : Nat)
    (hlen : M.arr.shape.length = M.arr.strides.length)
    (hax : axis < M.arr.shape.length)
    (hbound : start + size ≤ M.arr.shape.getD axis 0) :
    M.getitem ((List.replicate M.ndim (Item.slc none none)).set axis
        (Item.slc (some start) (some (start + size)))) fresh =
      .ok ⟨fresh,
        { dtype := M.arr.dtype,
          shape := M.arr.shape.set axis size,
          strides := M.arr.strides,
          offset := M.arr.offset + start * (M.arr.strides.getD axis 0),
          buf := M.arr.buf }, false, some M.base⟩ := by
  have hzlen : (M.arr.shape.zip M.arr.strides).length = M.arr.shape.length := by
    rw [List.length_zip, hlen, Nat.min_self]
  have hgd : (M.arr.shape.zip M.arr.strides).getD axis (0, 0) =
      (M.arr.shape.getD axis 0, M.arr.strides.getD axis 0) :=
    zip_getD _ _ axis hax (by omega)
  have hnd : M.ndim = (M.arr.shape.zip M.arr.strides).length := by
    rw [hzlen]; rfl
  have hslab := sliceAxes_slab axis (M.arr.shape.zip M.arr.strides) start size
    (by omega) (by rw [hgd]; exact hbound)
  rw [hgd] at hslab
  have hitem : (List.replicate M.ndim (Item.slc none none)).set axis
      (Item.slc (some start) (some (start + size))) =
      (List.replicate (M.arr.shape.zip M.arr.strides).length (Item.slc none none)).set axis
      (Item.slc (some start) (some (start + size))) := by
    rw [← hnd]
  have hne : (List.replicate M.ndim (Item.slc none none)).set axis
      (Item.slc (some start) (some (start + size))) ≠ [] := by
    apply List.ne_nil_of_length_pos
    rw [List.length_set, List.length_replicate]
    have : M.ndim = M.arr.shape.length := rfl
    omega
  have hall : ((List.replicate M.ndim (Item.slc none none)).set axis
      (Item.slc (some start) (some (start + size)))).all Item.isIdx = false := by
    rw [Bool.eq_false_iff]
    intro hc
    rw [List.all_eq_true] at hc
    cases hmem : (List.replicate M.ndim (Item.slc none none)).set axis
        (Item.slc (some start) (some (start + size))) with
    | nil => exact hne hmem
    | cons it its =>
      have := hc it (by rw [hmem]; exact List.mem_cons_self _ _)
      have hsl : it.isIdx = false := by
        have hmem2 : it ∈ (List.replicate M.ndim (Item.slc none none)).set axis
            (Item.slc (some start) (some (start + size))) := by
          rw [hmem]; exact List.mem_cons_self _ _
        rcases List.mem_or_eq_of_mem_set hmem2 with hm | hm
        · rw [List.eq_of_mem_replicate hm]; rfl
        · rw [hm]; rfl
      rw [hsl] at this
      cases this
  simp only [Signal.getitem, hall, Bool.false_eq_true, if_false, npGetItem]
  rw [hitem, hslab]
  dsimp only
  have hfst : ((M.arr.shape.zip M.arr.strides).set axis
      (size, M.arr.strides.getD axis 0)).map (fun x => x.1) = M.arr.shape.set axis size := by
    rw [List.map_set, List.map_fst_zip _ _ (by omega)]
  have hsnd : ((M.arr.shape.zip M.arr.strides).set axis
      (size, M.arr.strides.getD axis 0)).map (fun x => x.2) = M.arr.strides := by
    rw [List.map_set, List.map_snd_zip _ _ (by omega)]
    exact set_getD_own _ axis (by omega)
  rw [hfst, hsnd]

/-- The replacement-view loop only touches the keys of the signals it
walks. -/
theorem mergeSlabLoop_frame (M : Signal) (axis : Nat) :
    ∀ (l : List Signal) (start : Nat) (repl : List (Nat × Signal)) (fresh : Nat)
      (out : List (Nat × Signal) × Nat) (k : Nat),
      mergeSlabLoop M axis l start repl fresh = .ok out →
      k ∉ l.map Signal.sid → alookup out.1 k = alookup repl k := by
  intro l
  induction l with
  | nil =>
    intro start repl fresh out k h _
    cases h
    rfl
  | cons s rest ih =>
    intro start repl fresh out k h hk
    rw [mergeSlabLoop] at h
    cases hg : s.shape.get? axis with
    | none =>
      rw [hg] at h
      cases h
    | some size =>
      rw [hg] at h
      dsimp only at h
      split at h
      · cases h
      next view heq =>
        have hk1 : k ∉ rest.map Signal.sid := by
          intro hc
          exact hk (by rw [List.map_cons]; exact List.mem_cons_of_mem _ hc)
        have hk2 : k ≠ s.sid := by
          intro hc
          exact hk (by rw [List.map_cons, hc]; exact List.mem_cons_self _ _)
        rw [ih (start + size) (upsert repl s.sid view) (fresh + 1) out k h hk1]
        exact alookup_upsert_ne repl s.sid k view hk2

/-- The replacement recorded by the loop for each walked signal: a view
into the merged array selecting its slab, whose start is the running
start plus the axis extents of the signals before it. -/
theorem mergeSlabLoop_lookup (M : Signal) (axis : Nat)
    (hlen : M.arr.shape.length = M.arr.strides.length)
    (hax : axis < M.arr.shape.length) :
    ∀ (l : List Signal) (start : Nat) (repl : List (Nat × Signal)) (fresh : Nat)
      (out : List (Nat × Signal) × Nat),
      mergeSlabLoop M axis l start repl fresh = .ok out →
      start + (l.map (fun s => s.shape.getD axis 0)).sum ≤ M.arr.shape.getD axis 0 →
      (l.map Signal.sid).Nodup →
      ∀ (l₁ : List Signal) (s : Signal) (l₂ : List Signal), l = l₁ ++ s :: l₂ →
      ∃ fid,
        alookup out.1 s.sid = some
          ⟨fid,
           { dtype := M.arr.dtype,
             shape := M.arr.shape.set axis (s.shape.getD axis 0),
             strides := M.arr.strides,
             offset := M.arr.offset +
               (start + (l₁.map (fun x => x.shape.getD axis 0)).sum) *
                 (M.arr.strides.getD axis 0),
             buf := M.arr.buf }, false, some M.base⟩ := by
  intro l
  induction l with
  | nil =>
    intro start repl fresh out h hsum hnd l₁ s l₂ hsplit
    exact absurd hsplit (by simp)
  | cons x rest ih =>
    intro start repl fresh out h hsum hnd l₁ s l₂ hsplit
    rw [mergeSlabLoop] at h
    cases hg : x.shape.get? axis with
    | none =>
      rw [hg] at h
      cases h
    | some size =>
      have hsize : x.shape.getD axis 0 = size := by
        rw [show x.shape.getD axis 0 = (x.shape.get? axis).getD 0 from rfl, hg]
        rfl
      rw [hg] at h
      dsimp only at h
      have hslab := getitem_slab M axis start size fresh hlen hax
        (by
          rw [List.map_cons, List.sum_cons, hsize] at hsum
          omega)
      rw [hslab] at h
      cases l₁ with
      | nil =>
        have hx : x = s := by
          rw [List.nil_append] at hsplit
          exact (List.cons.injEq _ _ _ _ ▸ hsplit).1
        subst hx
        have hnotin : x.sid ∉ rest.map Signal.sid := by
          rw [List.map_cons] at hnd
          exact (List.nodup_cons.1 hnd).1
        refine ⟨fresh, ?_⟩
        rw [mergeSlabLoop_frame M axis rest (start + size) _ (fresh + 1) out x.sid h hnotin,
          alookup_upsert_self]
        rw [hsize]
        simp only [List.map_nil, List.sum_nil, Nat.add_zero]
      | cons y l₁' =>
        have hy : y = x ∧ rest = l₁' ++ s :: l₂ := by
          rw [List.cons_append] at hsplit
          exact ⟨((List.cons.injEq _ _ _ _ ▸ hsplit).1).symm,
            (List.cons.injEq _ _ _ _ ▸ hsplit).2⟩
        obtain ⟨hyx, hrest⟩ := hy
        subst hyx
        have hsum' : (start + size) + (rest.map (fun s => s.shape.getD axis 0)).sum ≤
            M.arr.shape.getD axis 0 := by
          rw [List.map_cons, List.sum_cons, hsize] at hsum
          omega
        have hnd' : (rest.map Signal.sid).Nodup := by
          rw [List.map_cons] at hnd
          exact (List.nodup_cons.1 hnd).2
        obtain ⟨fid, hfid⟩ := ih (start + size) (upsert repl y.sid _) (fresh + 1) out h
          hsum' hnd' l₁' s l₂ hrest
        refine ⟨fid, ?_⟩
        rw [hfid]
        have harith : start + size + (l₁'.map (fun x => x.shape.getD axis 0)).sum =
            start + ((y :: l₁').map (fun x => x.shape.getD axis 0)).sum := by
          rw [List.map_cons, List.sum_cons, hsize]
          omega
        rw [harith]

/-- Reading the slab view produced for one block of a concatenation:
the view over the concatenated buffer at the block's start reads the
block's own values. -/
theorem slab_view_read (dt : DType) (hisz : 0 < dt.itemsize)
    (arrs l1 : List NDArray) (a : NDArray) (l2 : List NDArray)
    (harrs : arrs = l1 ++ a :: l2)
    (SH : List Nat) (axis : Nat) (hax : axis < SH.length)
    (hsha : a.shape = SH.set axis (a.shape.getD axis 0))
    (st total : Nat)
    (hst : st = (l1.map (fun x => x.shape.getD axis 0)).sum)
    (htotal : total = (arrs.map (fun x => x.shape.getD axis 0)).sum)
    (ix : List Nat) (hvix : validIx a.shape ix = true) :
    NDArray.read
      { dtype := dt,
        shape := (SH.set axis total).set axis (a.shape.getD axis 0),
        strides := contigStrides dt.itemsize (SH.set axis total),
        offset := 0 + (0 + st) * ((contigStrides dt.itemsize (SH.set axis total)).getD axis 0),
        buf := fun n => concatRead axis arrs (unflatIx (SH.set axis total) n) }
      ix = a.read ix := by
  subst harrs
  subst hst
  subst htotal
  have hvl := validIx_length _ _ hvix
  have hlenA : a.shape.length = SH.length := by rw [hsha, List.length_set]
  have haxIx : axis < ix.length := by omega
  have hi : ix.getD axis 0 < a.shape.getD axis 0 := validIx_getD _ _ axis hvix (by omega)
  have hSax : axis <
      (SH.set axis (((l1 ++ a :: l2).map (fun x => x.shape.getD axis 0)).sum)).length := by
    rw [List.length_set]; exact hax
  show concatRead axis (l1 ++ a :: l2)
      (unflatIx (SH.set axis (((l1 ++ a :: l2).map (fun x => x.shape.getD axis 0)).sum))
        ((0 + (0 + (l1.map (fun x => x.shape.getD axis 0)).sum) *
            ((contigStrides dt.itemsize
              (SH.set axis (((l1 ++ a :: l2).map (fun x => x.shape.getD axis 0)).sum))).getD
                axis 0) +
          dotNat ix (contigStrides dt.itemsize
            (SH.set axis (((l1 ++ a :: l2).map (fun x => x.shape.getD axis 0)).sum)))) /
          dt.itemsize)) = a.read ix
  rw [Nat.zero_add, Nat.zero_add]
  rw [contigStrides_getD _ dt.itemsize axis hSax, dot_contig]
  have hfold : (l1.map (fun x => x.shape.getD axis 0)).sum *
      (dt.itemsize *
        ((SH.set axis (((l1 ++ a :: l2).map (fun x => x.shape.getD axis 0)).sum)).drop
          (axis + 1)).prod) +
      dt.itemsize *
        flatIx (SH.set axis (((l1 ++ a :: l2).map (fun x => x.shape.getD axis 0)).sum)) ix =
      dt.itemsize *
        (flatIx (SH.set axis (((l1 ++ a :: l2).map (fun x => x.shape.getD axis 0)).sum)) ix +
          (l1.map (fun x => x.shape.getD axis 0)).sum *
            ((SH.set axis (((l1 ++ a :: l2).map (fun x => x.shape.getD axis 0)).sum)).drop
              (axis + 1)).prod) := by ring
  rw [hfold, Nat.mul_div_cancel_left _ hisz]
  rw [← flatIx_set_add (SH.set axis (((l1 ++ a :: l2).map (fun x => x.shape.getD axis 0)).sum))
    ix axis ((l1.map (fun x => x.shape.getD axis 0)).sum) hSax haxIx]
  have hvix2 : validIx
      ((SH.set axis (((l1 ++ a :: l2).map (fun x => x.shape.getD axis 0)).sum)).set axis
        (a.shape.getD axis 0)) ix = true := by
    rw [List.set_set, ← hsha]
    exact hvix
  have hbound : (l1.map (fun x => x.shape.getD axis 0)).sum + a.shape.getD axis 0 ≤
      ((l1 ++ a :: l2).map (fun x => x.shape.getD axis 0)).sum := by
    simp only [List.map_append, List.sum_append, List.map_cons, List.sum_cons]
    omega
  have hgdS : (SH.set axis (((l1 ++ a :: l2).map (fun x => x.shape.getD axis 0)).sum)).getD
      axis 0 = ((l1 ++ a :: l2).map (fun x => x.shape.getD axis 0)).sum :=
    getD_set_self SH axis _ hax
  have hvalid : validIx (SH.set axis (((l1 ++ a :: l2).map (fun x => x.shape.getD axis 0)).sum))
      (ix.set axis (ix.getD axis 0 + (l1.map (fun x => x.shape.getD axis 0)).sum)) = true :=
    validIx_set_axis _ ix axis (a.shape.getD axis 0) _ hvix2 (by rw [hgdS]; omega)
  rw [unflat_flat _ _ hvalid]
  rw [Nat.add_comm (ix.getD axis 0) ((l1.map (fun x => x.shape.getD axis 0)).sum)]
  rw [concatRead_pre axis (ix.getD axis 0) l1 a l2 ix haxIx hi]
  rw [set_getD_own ix axis haxIx]

/-- C4: for base signals accepted by `merge_signals` (with distinct
object identities and a positive item size), the replacement view
recorded for each input selects exactly the slab of the merged buffer
that the input's data occupies: it has the input's shape and reads the
input's `initial_value` at every valid multi-index. -/
theorem C4_merge_signals_values (signals : List Signal) (repl : List (Nat × Signal))
    (axis fresh : Nat) (m : Signal) (repl2 : List (Nat × Signal)) (fresh2 : Nat)
    (hok : Signal.mergeSignals signals repl axis fresh = .ok (m, repl2, fresh2))
    (hnd : (signals.map Signal.sid).Nodup)
    (hisz : ∀ s ∈ signals, 0 < s.itemsize) :
    ∀ s ∈ signals, ∃ v, alookup repl2 s.sid = some v ∧
      v.arr.shape = s.shape ∧
      ∀ ix, validIx s.shape ix = true → v.arr.read ix = s.arr.read ix := by
  intro s hs
  obtain ⟨l₁, l₂, hsplit⟩ := List.append_of_mem hs
  cases hsig : signals with
  | nil =>
    rw [hsig] at hs
    cases hs
  | cons s0 rest =>
    subst hsig
    simp only [Signal.mergeSignals, List.map_cons] at hok
    cases hchk : Signal.checkSignalsMergeable (s0 :: rest) axis with
    | error e =>
      rw [hchk] at hok
      cases hok
    | ok u =>
      cases u
      rw [hchk] at hok
      dsimp only at hok
      cases hcon : npConcatenate (s0.arr :: rest.map (·.arr)) axis with
      | error e =>
        rw [hcon] at hok
        cases hok
      | ok iv =>
        obtain ⟨haxc, hndall, hshall, hdtall⟩ := npConcatenate_ok_inv _ _ _ _ hcon
        have hcon2 := npConcatenate_ok s0.arr (rest.map (·.arr)) axis haxc hndall hshall hdtall
        rw [hcon] at hcon2
        injection hcon2 with hiv
        subst hiv
        rw [hcon] at hok
        dsimp only at hok
        split at hok
        · cases hok
        next replF freshF heq =>
          simp only [Except.ok.injEq, Prod.mk.injEq] at hok
          obtain ⟨hokM, hokR, hokF⟩ := hok
          subst hokR
          obtain ⟨fid, hfid⟩ := mergeSlabLoop_lookup _ axis
            (by exact (contigStrides_length _ _).symm)
            (by
              show axis < (s0.arr.shape.set axis _).length
              rw [List.length_set]
              exact haxc)
            (s0 :: rest) 0 repl (fresh + 1) (replF, freshF) heq
            (by
              show 0 + _ ≤ (s0.arr.shape.set axis _).getD axis 0
              rw [getD_set_self s0.arr.shape axis _ haxc]
              have hme : ((s0 :: rest).map (fun s => s.shape.getD axis 0)).sum =
                  ((s0.arr :: rest.map (·.arr)).map (fun a => a.shape.getD axis 0)).sum := by
                simp only [List.map_cons, List.map_map]
                rfl
              omega)
            hnd l₁ s l₂ hsplit
          have hmem : s.arr ∈ s0.arr :: rest.map (·.arr) := by
            rcases List.mem_cons.1 hs with h | h
            · rw [h]
              exact List.mem_cons_self _ _
            · exact List.mem_cons_of_mem _ (List.mem_map_of_mem _ h)
          have hsha : s.arr.shape = s0.arr.shape.set axis (s.arr.shape.getD axis 0) :=
            eq_set_of_shapeMatch axis s.arr.shape s0.arr.shape (hshall s.arr hmem)
              (hndall s.arr hmem) haxc
          have hisz0 : 0 < s0.arr.dtype.itemsize := hisz s0 (List.mem_cons_self _ _)
          refine ⟨_, hfid, ?_, ?_⟩
          · show (s0.arr.shape.set axis _).set axis (s.shape.getD axis 0) = s.shape
            rw [List.set_set]
            exact hsha.symm
          · intro ix hvix
            exact slab_view_read s0.arr.dtype hisz0
              (s0.arr :: rest.map (·.arr)) (l₁.map (·.arr)) s.arr (l₂.map (·.arr))
              (by
                have hmapped := congrArg (List.map (fun x => x.arr)) hsplit
                simpa [List.map_append] using hmapped)
              s0.arr.shape axis haxc hsha
              ((l₁.map (fun x => x.shape.getD axis 0)).sum)
              (((s0.arr :: rest.map (·.arr)).map (fun a => a.shape.getD axis 0)).sum)
              (by simp only [List.map_map]; rfl)
              rfl ix hvix

/-- Buffer of the first C4 base signal. -/
def bufAC4 : Nat → Int := fun i => 1000 + i

/-- Buffer of the second C4 base signal. -/
def bufBC4 : Nat → Int := fun i => 2000 + i

/-- A two-element base signal. -/
def b1C4 : Signal := ⟨41, ⟨dtC6, [2], [8], 0, bufAC4⟩, false, none⟩

/-- A three-element base signal. -/
def b2C4 : Signal := ⟨42, ⟨dtC6, [3], [8], 0, bufBC4⟩, false, none⟩

/-- The array of the merged signal for the C4 witness. -/
def mC4arr : NDArray :=
  { dtype := dtC6, shape := [5], strides := [8], offset := 0,
    buf := fun n => concatRead 0 [b1C4.arr, b2C4.arr] (unflatIx [5] n) }

/-- The merged signal for the C4 witness. -/
def mC4 : Signal := ⟨5, mC4arr, false, none⟩

/-- The replacement view for `b1C4`: the first two-element slab. -/
def v1C4 : Signal :=
  ⟨6, { dtype := dtC6, shape := [2], strides := [8], offset := 0, buf := mC4arr.buf },
   false, some ⟨5, mC4arr, false⟩⟩

/-- The replacement view for `b2C4`: the trailing three-element slab. -/
def v2C4 : Signal :=
  ⟨7, { dtype := dtC6, shape := [3], strides := [8], offset := 16, buf := mC4arr.buf },
   false, some ⟨5, mC4arr, false⟩⟩

/-- C4 witness: the theorem applied to a concrete two-signal merge. -/
theorem C4_merge_signals_values_witness :
    ∃ v, alookup [(41, v1C4), (42, v2C4)] b1C4.sid = some v ∧
      v.arr.shape = b1C4.shape ∧
      ∀ ix, validIx b1C4.shape ix = true → v.arr.read ix = b1C4.arr.read ix :=
  C4_merge_signals_values [b1C4, b2C4] [] 0 5 mC4 [(41, v1C4), (42, v2C4)] 8 rfl
    (by decide) (by decide) b1C4 (List.mem_cons_self _ _)

/-- The merged signal returned by `merge_signals`: its shape is the
head's with the concatenation axis summed, and it reads the logical
concatenation of the inputs' arrays. -/
theorem mergeSignals_merged (s0 : Signal) (rest : List Signal) (repl : List (Nat × Signal))
    (axis fresh : Nat) (m : Signal) (repl2 : List (Nat × Signal)) (fresh2 : Nat)
    (hok : Signal.mergeSignals (s0 :: rest) repl axis fresh = .ok (m, repl2, fresh2))
    (hisz : 0 < s0.arr.dtype.itemsize) :
    m.arr.shape = s0.arr.shape.set axis
      (((s0.arr :: rest.map (·.arr)).map (fun a => a.shape.getD axis 0)).sum) ∧
    ∀ ix, validIx m.arr.shape ix = true →
      m.arr.read ix = concatRead axis (s0.arr :: rest.map (·.arr)) ix := by
  simp only [Signal.mergeSignals, List.map_cons] at hok
  cases hchk : Signal.checkSignalsMergeable (s0 :: rest) axis with
  | error e =>
    rw [hchk] at hok
    cases hok
  | ok u =>
    cases u
    rw [hchk] at hok
    dsimp only at hok
    cases hcon : npConcatenate (s0.arr :: rest.map (·.arr)) axis with
    | error e =>
      rw [hcon] at hok
      cases hok
    | ok iv =>
      obtain ⟨haxc, hndall, hshall, hdtall⟩ := npConcatenate_ok_inv _ _ _ _ hcon
      have hcon2 := npConcatenate_ok s0.arr (rest.map (·.arr)) axis haxc hndall hshall hdtall
      rw [hcon] at hcon2
      injection hcon2 with hiv
      subst hiv
      rw [hcon] at hok
      dsimp only at hok
      split at hok
      · cases hok
      next replF freshF heq =>
        simp only [Except.ok.injEq, Prod.mk.injEq] at hok
        obtain ⟨hokM, hokR, hokF⟩ := hok
        rw [← hokM]
        refine ⟨rfl, ?_⟩
        intro ix hvix
        have hvix' : validIx (s0.arr.shape.set axis
            (((s0.arr :: rest.map (·.arr)).map (fun a => a.shape.getD axis 0)).sum)) ix =
            true := hvix
        show concatRead axis (s0.arr :: rest.map (·.arr))
            (unflatIx (s0.arr.shape.set axis
              (((s0.arr :: rest.map (·.arr)).map (fun a => a.shape.getD axis 0)).sum))
              ((0 + dotNat ix (contigStrides s0.arr.dtype.itemsize
                (s0.arr.shape.set axis
                  (((s0.arr :: rest.map (·.arr)).map (fun a => a.shape.getD axis 0)).sum)))) /
                s0.arr.dtype.itemsize)) =
          concatRead axis (s0.arr :: rest.map (·.arr)) ix
        rw [Nat.zero_add, dot_contig, Nat.mul_div_cancel_left _ hisz,
          unflat_flat _ _ hvix']

/-- The per-column loop of `SimNeurons.merge`: it returns one merged
signal per zipped column, each produced by `merge_signals` on that
column (every column is necessarily non-empty on success). -/
theorem mergeStatesLoop_spec :
    ∀ (cols : List (List Signal)) (repl : List (Nat × Signal)) (fresh : Nat)
      (out : List Signal × List (Nat × Signal) × Nat),
      mergeStatesLoop cols repl fresh = .ok out →
      out.1.length = cols.length ∧
      (∀ k, k < cols.length →
        ∃ (c0 : Signal) (crest : List Signal) (r : List (Nat × Signal)) (f : Nat)
          (r' : List (Nat × Signal)) (f' : Nat),
          cols.get? k = some (c0 :: crest) ∧
          Signal.mergeSignals (c0 :: crest) r 0 f = .ok (out.1.getD k default, r', f')) := by
  intro cols
  induction cols with
  | nil =>
    intro repl fresh out h
    cases h
    exact ⟨rfl, fun k hk => absurd hk (by simp)⟩
  | cons col cols ih =>
    intro repl fresh out h
    rw [mergeStatesLoop] at h
    cases hcol : Signal.mergeSignals col repl 0 fresh with
    | error e =>
      rw [hcol] at h
      cases h
    | ok p =>
      obtain ⟨mc, rc, fc⟩ := p
      rw [hcol] at h
      dsimp only at h
      cases hrec : mergeStatesLoop cols rc fc with
      | error e =>
        rw [hrec] at h
        cases h
      | ok q =>
        obtain ⟨ms, rs, fs⟩ := q
        rw [hrec] at h
        dsimp only at h
        cases h
        obtain ⟨hlen, hall⟩ := ih rc fc (ms, rs, fs) hrec
        refine ⟨by simp [hlen], ?_⟩
        intro k hk
        cases col with
        | nil =>
          simp [Signal.mergeSignals, Signal.checkSignalsMergeable, npConcatenate] at hcol
        | cons c0 crest =>
          cases k with
          | zero => exact ⟨c0, crest, repl, fresh, rc, fc, rfl, hcol⟩
          | succ j =>
            obtain ⟨c0', crest', r, f, r', f', hget, hcl⟩ :=
              hall j (by simpa using Nat.lt_of_succ_lt_succ (by simpa using hk))
            exact ⟨c0', crest', r, f, r', f', hget, hcl⟩

/-- C7, amended: `SimNeurons.merge` fuses a list of operators sharing a
neuron model into one operator over the concatenated `J`, concatenated
`output` and column-wise concatenated `states` (the state columns come
from `zip(*state lists)`, which silently truncates to the shortest
list) — but each operand slot is merged via `merge_signals`, the
bases-only primitive, not `merge_signals_or_views`: any view operand
makes the merge raise `"Cannot merge views."` instead of being
handled. -/
theorem C7_simneurons_merge :
    (∀ (self : SimNeurons) (others : List SimNeurons) (fresh : Nat),
      ((self.J :: others.map (·.J)).any (·.isView)) = true →
      SimNeurons.merge self others fresh = .error "Cannot merge views.") ∧
    (∀ (self : SimNeurons) (others : List SimNeurons) (fresh : Nat)
       (fused : SimNeurons) (repl : List (Nat × Signal)) (f2 : Nat),
      SimNeurons.merge self others fresh = .ok (fused, repl, f2) →
      fused.neurons = self.neurons ∧
      (0 < self.J.itemsize →
        fused.J.arr.shape = self.J.arr.shape.set 0
          (((self.J.arr :: (others.map (·.J)).map (·.arr)).map
            (fun a => a.shape.getD 0 0)).sum) ∧
        ∀ ix, validIx fused.J.arr.shape ix = true →
          fused.J.arr.read ix =
            concatRead 0 (self.J.arr :: (others.map (·.J)).map (·.arr)) ix) ∧
      (0 < self.output.itemsize →
        fused.output.arr.shape = self.output.arr.shape.set 0
          (((self.output.arr :: (others.map (·.output)).map (·.arr)).map
            (fun a => a.shape.getD 0 0)).sum) ∧
        ∀ ix, validIx fused.output.arr.shape ix = true →
          fused.output.arr.read ix =
            concatRead 0 (self.output.arr :: (others.map (·.output)).map (·.arr)) ix) ∧
      fused.states.length = (zipColumns (self.states :: others.map (·.states))).length ∧
      (∀ k, k < (zipColumns (self.states :: others.map (·.states))).length →
        ∃ (c0 : Signal) (crest : List Signal) (r : List (Nat × Signal)) (f : Nat)
          (r' : List (Nat × Signal)) (f' : Nat),
          (zipColumns (self.states :: others.map (·.states))).get? k = some (c0 :: crest) ∧
          Signal.mergeSignals (c0 :: crest) r 0 f =
            .ok (fused.states.getD k default, r', f'))) := by
  constructor
  · intro self others fresh hv
    have hchk : Signal.checkSignalsMergeable (self.J :: others.map (·.J)) 0 =
        .error "Cannot merge views." := by
      rw [Signal.checkSignalsMergeable, hv, if_pos rfl]
    have hms : Signal.mergeSignals (self.J :: others.map (·.J)) [] 0 fresh =
        .error "Cannot merge views." := by
      simp only [Signal.mergeSignals, hchk]
    simp only [SimNeurons.merge, hms]
  · intro self others fresh fused repl f2 hok
    simp only [SimNeurons.merge] at hok
    cases hJ : Signal.mergeSignals (self.J :: others.map (·.J)) [] 0 fresh with
    | error e =>
      rw [hJ] at hok
      cases hok
    | ok pJ =>
      obtain ⟨mJ, rJ, fJ⟩ := pJ
      rw [hJ] at hok
      dsimp only at hok
      cases hO : Signal.mergeSignals (self.output :: others.map (·.output)) rJ 0 fJ with
      | error e =>
        rw [hO] at hok
        cases hok
      | ok pO =>
        obtain ⟨mO, rO, fO⟩ := pO
        rw [hO] at hok
        dsimp only at hok
        cases hS : mergeStatesLoop (zipColumns (self.states :: others.map (·.states)))
            rO fO with
        | error e =>
          rw [hS] at hok
          cases hok
        | ok pS =>
          obtain ⟨ms, rS, fS⟩ := pS
          rw [hS] at hok
          dsimp only at hok
          simp only [Except.ok.injEq, Prod.mk.injEq] at hok
          obtain ⟨hfused, hrepl, hf⟩ := hok
          subst hfused
          refine ⟨rfl, ?_, ?_, ?_, ?_⟩
          · intro hisz
            exact mergeSignals_merged self.J (others.map (·.J)) [] 0 fresh mJ rJ fJ hJ hisz
          · intro hisz
            exact mergeSignals_merged self.output (others.map (·.output)) rJ 0 fJ mO rO fO
              hO hisz
          · exact (mergeStatesLoop_spec _ _ _ _ hS).1
          · intro k hk
            exact (mergeStatesLoop_spec _ _ _ _ hS).2 k hk

/-- Output signal shared by the view-operand C7 operators. -/
def outSNC7 : Signal := ⟨51, ⟨dtC6, [2], [8], 0, bufC6⟩, false, none⟩

/-- A `SimNeurons` operator whose input current is a view. -/
def opSN1 : SimNeurons := ⟨3, v1C6, outSNC7, []⟩

/-- A second `SimNeurons` operator with the same neuron model and a
view input current. -/
def opSN2 : SimNeurons := ⟨3, v2C6, outSNC7, []⟩

/-- C7, counterexample: two mergeable `SimNeurons` operators whose `J`
operands are views; `merge_signals_or_views` would handle them (all
views), but `SimNeurons.merge` calls `merge_signals` and raises. -/
theorem C7_counterexample :
    SimNeurons.canMerge opSN1 opSN2 = true ∧
    (∀ s ∈ [opSN1.J, opSN2.J], s.isView = true) ∧
    SimNeurons.merge opSN1 [opSN2] 400 = .error "Cannot merge views." := by
  refine ⟨rfl, ?_, rfl⟩
  intro s hs
  rcases List.mem_cons.1 hs with h | h
  · subst h; rfl
  · rcases List.mem_cons.1 h with h' | h'
    · subst h'; rfl
    · cases h'

/-- Buffer of the first C7 base input current. -/
def bufJ1C7 : Nat → Int := fun i => 7000 + i

/-- Buffer of the second C7 base input current. -/
def bufJ2C7 : Nat → Int := fun i => 7100 + i

/-- Buffer of the first C7 base output. -/
def bufO1C7 : Nat → Int := fun i => 7200 + i

/-- Buffer of the second C7 base output. -/
def bufO2C7 : Nat → Int := fun i => 7300 + i

/-- First base input current. -/
def J1C7 : Signal := ⟨61, ⟨dtC6, [1], [8], 0, bufJ1C7⟩, false, none⟩

/-- Second base input current. -/
def J2C7 : Signal := ⟨62, ⟨dtC6, [1], [8], 0, bufJ2C7⟩, false, none⟩

/-- First base output. -/
def O1C7 : Signal := ⟨63, ⟨dtC6, [1], [8], 0, bufO1C7⟩, false, none⟩

/-- Second base output. -/
def O2C7 : Signal := ⟨64, ⟨dtC6, [1], [8], 0, bufO2C7⟩, false, none⟩

/-- A base-operand `SimNeurons` operator. -/
def opB1 : SimNeurons := ⟨3, J1C7, O1C7, []⟩

/-- A second base-operand `SimNeurons` operator, same neuron model. -/
def opB2 : SimNeurons := ⟨3, J2C7, O2C7, []⟩

/-- The merged `J` array of the C7 witness. -/
def mJC7arr : NDArray :=
  { dtype := dtC6, shape := [2], strides := [8], offset := 0,
    buf := fun n => concatRead 0 [J1C7.arr, J2C7.arr] (unflatIx [2] n) }

/-- The merged `J` signal of the C7 witness. -/
def mJC7 : Signal := ⟨70, mJC7arr, false, none⟩

/-- The merged `output` array of the C7 witness. -/
def mOC7arr : NDArray :=
  { dtype := dtC6, shape := [2], strides := [8], offset := 0,
    buf := fun n => concatRead 0 [O1C7.arr, O2C7.arr] (unflatIx [2] n) }

/-- The merged `output` signal of the C7 witness. -/
def mOC7 : Signal := ⟨73, mOC7arr, false, none⟩

/-- The accumulated signal replacements of the C7 witness merge. -/
def replC7 : List (Nat × Signal) :=
  [(61,
    ⟨71, { dtype := dtC6, shape := [1], strides := [8], offset := 0, buf := mJC7arr.buf },
     false, some ⟨70, mJC7arr, false⟩⟩),
   (62,
    ⟨72, { dtype := dtC6, shape := [1], strides := [8], offset := 8, buf := mJC7arr.buf },
     false, some ⟨70, mJC7arr, false⟩⟩),
   (63,
    ⟨74, { dtype := dtC6, shape := [1], strides := [8], offset := 0, buf := mOC7arr.buf },
     false, some ⟨73, mOC7arr, false⟩⟩),
   (64,
    ⟨75, { dtype := dtC6, shape := [1], strides := [8], offset := 8, buf := mOC7arr.buf },
     false, some ⟨73, mOC7arr, false⟩⟩)]

/-- C7 witness: both directions of the amended theorem at concrete
operators — the view-operand merge raises, and a concrete base-operand
merge fuses with the model preserved and the states truncated to
`zip(*states)`. -/
theorem C7_simneurons_merge_witness :
    SimNeurons.merge opSN1 [opSN2] 500 = .error "Cannot merge views." ∧
    ∃ (fused : SimNeurons) (r : List (Nat × Signal)) (f : Nat),
      SimNeurons.merge opB1 [opB2] 70 = .ok (fused, r, f) ∧
      fused.neurons = opB1.neurons ∧
      fused.states.length = (zipColumns (opB1.states :: [opB2].map (·.states))).length := by
  constructor
  · exact C7_simneurons_merge.1 opSN1 [opSN2] 500 rfl
  · refine ⟨⟨3, mJC7, mOC7, []⟩, replC7, 76, rfl, ?_, ?_⟩
    · exact (C7_simneurons_merge.2 opB1 [opB2] 70 ⟨3, mJC7, mOC7, []⟩ replC7 76 rfl).1
    · exact (C7_simneurons_merge.2 opB1 [opB2] 70 ⟨3, mJC7, mOC7, []⟩ replC7 76 rfl).2.2.2.1
